import Mathlib

/-!
# memsim: frame table engine and replacement policies

A shallow embedding of `src/memsim.c`.

* The global variables `frames`, `numFrames`, `fifo_hand`, `clock_hand`, `tick` and the
  state of the C library generator behind `rand()` become one record `MMU` that every
  operation takes and returns.
* The heap array `frames` of `numFrames` entries is a list; `numFrames` is its length.
* `int` values are `Int`; the `int` fields `valid`, `modified`, `referenceBit`, which the
  program only ever tests against zero and only ever assigns 0 or 1, are `Bool`.
* `unsigned long` values are `Nat` below `2^64`, and `tick++` wraps explicitly.
* An array access outside `0 .. numFrames-1` has no defined behaviour in C; the operations
  that can perform one return `none` there.
* `rand()` belongs to the C library, not to the program: it is a parameter
  `rand : Nat → Nat × Nat` from generator state to (draw, next state), the draw being
  non-negative as the C standard requires.
-/

namespace MemSim

/-! ## Data model -/

/-- The victim record `page` of the source: page number and modified flag. -/
structure page where
  pageNo : Int
  modified : Bool
deriving DecidableEq, Repr

/-- The replacement modes `enum repl`. -/
inductive repl where
  | repl_random
  | fifo
  | lru
  | repl_clock
deriving DecidableEq, Repr

/-- One entry of the frame table, `FrameEntry` in the source. -/
structure FrameEntry where
  valid : Bool
  pageNo : Int
  modified : Bool
  referenceBit : Bool
  lastAccessTime : Nat
deriving DecidableEq, Repr

/-- The global state of the engine. `seed` is the state of the generator behind `rand()`. -/
structure MMU where
  frames : List FrameEntry
  fifo_hand : Int
  clock_hand : Int
  tick : Nat
  seed : Nat
deriving DecidableEq, Repr

/-- The largest `unsigned long`, `(unsigned long)(-1)`, on an LP64 target. -/
def ULONG_MAX : Nat := 18446744073709551615

/-- The constant `pageoffset`: pages are 4 KB. -/
def pageoffset : Nat := 12

/-- The global `numFrames`: the number of entries of the table. -/
def numFrames (s : MMU) : Int := (s.frames.length : Int)

/-- The statement `tick++` on an `unsigned long`. -/
def tickIncr (t : Nat) : Nat := (t + 1) % (ULONG_MAX + 1)

/-- The read `frames[i]` for an `int` index; `none` outside the table. -/
def frameAt (fs : List FrameEntry) (i : Int) : Option FrameEntry :=
  if 0 ≤ i then fs[i.toNat]? else none

/-- The frame a page is loaded into: the five assignments shared by `allocateFrame` and
`replaceInFrame`. -/
def loadedFrame (page_number : Int) (t : Nat) : FrameEntry :=
  { valid := true, pageNo := page_number, modified := false, referenceBit := true,
    lastAccessTime := t }

/-! ## Internal helpers -/

/-- The loop of `findFrameByPage`, from index `i` on, over the entries from `i` on. -/
def findFrameByPageFrom (page_number : Int) : List FrameEntry → Nat → Int
  | [], _ => -1
  | f :: fs, i =>
    if f.valid && f.pageNo == page_number then (i : Int)
    else findFrameByPageFrom page_number fs (i + 1)

/-- Index of the first valid frame holding the page, or -1. -/
def findFrameByPage (s : MMU) (page_number : Int) : Int :=
  findFrameByPageFrom page_number s.frames 0

/-- The loop of `findFreeFrame`, from index `i` on. -/
def findFreeFrameFrom : List FrameEntry → Nat → Int
  | [], _ => -1
  | f :: fs, i => if !f.valid then (i : Int) else findFreeFrameFrom fs (i + 1)

/-- Index of the first frame that is not valid, or -1. -/
def findFreeFrame (s : MMU) : Int :=
  findFreeFrameFrom s.frames 0

/-! ## Engine operations -/

/-- The function `createMMU`. `callocOk` tells whether `calloc` returned a non-null
pointer. The table is rebuilt, both hands and the tick are reset, and `srand(1)` puts the
generator in the state of seed 1. When `calloc` fails the function returns -1 before any
of the resets. -/
def createMMU (callocOk : Bool) (framesCount : Int) (s : MMU) : Int × MMU :=
  if !callocOk then (-1, { s with frames := [] })
  else
    (0, { frames := List.replicate framesCount.toNat
            { valid := false, pageNo := -1, modified := false, referenceBit := false,
              lastAccessTime := 0 },
          fifo_hand := 0, clock_hand := 0, tick := 0, seed := 1 })

/-- The function `checkInMemory`: on a hit the tick advances and the frame found gets the
new tick and its reference bit; on a miss nothing is written. -/
def checkInMemory (s : MMU) (page_number : Int) : Int × MMU :=
  let idx := findFrameByPage s page_number
  if idx ≥ 0 then
    match s.frames[idx.toNat]? with
    | some f =>
      let t := tickIncr s.tick
      (idx, { s with
                tick := t,
                frames := s.frames.set idx.toNat
                  { f with lastAccessTime := t, referenceBit := true } })
    | none => (idx, s)
  else (-1, s)

/-- The function `allocateFrame`: the page goes to the first free frame; -1 when there is
none. -/
def allocateFrame (s : MMU) (page_number : Int) : Int × MMU :=
  let idx := findFreeFrame s
  if idx < 0 then (-1, s)
  else
    let t := tickIncr s.tick
    (idx, { s with tick := t, frames := s.frames.set idx.toNat (loadedFrame page_number t) })

/-- The function `replaceInFrame`: the victim record is read from frame `i`, then the new
page is loaded into the same frame. -/
def replaceInFrame (s : MMU) (i : Int) (new_page_number : Int) : Option (page × MMU) :=
  match frameAt s.frames i with
  | none => none
  | some f =>
    let victim : page := { pageNo := f.pageNo, modified := f.modified }
    let t := tickIncr s.tick
    some (victim,
      { s with tick := t, frames := s.frames.set i.toNat (loadedFrame new_page_number t) })

/-- The `for` loop of the `lru` branch from index `i` on, carrying
`(oldestAccessTime, victim_index)`. -/
def lruScan : List FrameEntry → Nat → Nat × Int → Nat × Int
  | [], _, acc => acc
  | f :: fs, i, acc =>
    if f.valid && decide (f.lastAccessTime < acc.1) then
      lruScan fs (i + 1) (f.lastAccessTime, (i : Int))
    else lruScan fs (i + 1) acc

/-- The `while (1)` loop of the clock branch, carrying the state and `scans` and returning
the state and `victim_index` at the `break`. The first argument bounds the number of
iterations; `selectVictim` passes `numFrames * 4 + 1`, which the test on `scans` never lets
the loop exceed. -/
def clockSweep : Nat → MMU → Int → Option (MMU × Int)
  | 0, _, _ => none
  | fuel + 1, s, scans =>
    match frameAt s.frames s.clock_hand with
    | none => none
    | some f =>
      if !f.referenceBit then
        some ({ s with clock_hand := Int.tmod (s.clock_hand + 1) (numFrames s) }, s.clock_hand)
      else
        let s1 : MMU :=
          { s with
              frames := s.frames.set s.clock_hand.toNat { f with referenceBit := false },
              clock_hand := Int.tmod (s.clock_hand + 1) (numFrames s) }
        let scans1 := scans + 1
        if scans1 > numFrames s * 4 then
          some ({ s1 with clock_hand := Int.tmod (s1.clock_hand + 1) (numFrames s) },
                s1.clock_hand)
        else clockSweep fuel s1 scans1

/-- The choice of `victim_index` in `selectVictim`, with the state after the choice
(cursor moved, reference bits cleared, generator advanced). -/
def chooseVictim (rand : Nat → Nat × Nat) (s : MMU) (mode : repl) : Option (MMU × Int) :=
  match mode with
  | repl.repl_random =>
    let r := rand s.seed
    some ({ s with seed := r.2 }, Int.tmod (r.1 : Int) (numFrames s))
  | repl.fifo =>
    some ({ s with fifo_hand := Int.tmod (s.fifo_hand + 1) (numFrames s) }, s.fifo_hand)
  | repl.lru =>
    let victim_index := (lruScan s.frames 0 (ULONG_MAX, -1)).2
    some (s, if victim_index < 0 then 0 else victim_index)
  | repl.repl_clock => clockSweep (numFrames s * 4 + 1).toNat s 0

/-- The function `selectVictim`. -/
def selectVictim (rand : Nat → Nat × Nat) (s : MMU) (page_number : Int) (mode : repl) :
    Option (page × MMU) :=
  if numFrames s ≤ 0 then some ({ pageNo := 0, modified := false }, s)
  else
    match chooseVictim rand s mode with
    | none => none
    | some (s1, victim_index) =>
      replaceInFrame s1 (if victim_index < 0 then 0 else victim_index) page_number

/-- The write marking that `main` performs inline on a `W` event. -/
def markWritten (s : MMU) (page_number : Int) : MMU :=
  let idx := findFrameByPage s page_number
  if idx ≥ 0 then
    match s.frames[idx.toNat]? with
    | some f =>
      let t := tickIncr s.tick
      { s with
          tick := t,
          frames := s.frames.set idx.toNat
            { f with modified := true, lastAccessTime := t, referenceBit := true } }
    | none => s
  else s

/-! ## The trace loop of `main` -/

/-- One line of the trace file as `fscanf` reads it: the address and the access letter. -/
structure Event where
  address : Nat
  rw : Char
deriving DecidableEq, Repr

/-- The local variables of `main` that the trace loop reads and writes, with the engine
state. -/
structure Driver where
  mmu : MMU
  allocated : Int
  no_events : Int
  disk_writes : Int
  disk_reads : Int
deriving DecidableEq, Repr

/-- What one iteration of the trace loop did: the page number it computed, the access
letter, whether the first `checkInMemory` missed, and `Pvictim` when `selectVictim` was
called. -/
structure Handled where
  page_number : Int
  rw : Char
  fault : Bool
  victim : Option page
deriving DecidableEq, Repr

/-- The state of `main` when the trace loop starts, after `createMMU(numFrames)`
succeeded. -/
def mainInit (framesCount : Int) (s0 : MMU) : Driver :=
  { mmu := (createMMU true framesCount s0).2, allocated := 0, no_events := 0,
    disk_writes := 0, disk_reads := 0 }

/-- The page fault branch of the loop body: allocate while `allocated < numFrames`,
otherwise select a victim and look the new page up again. -/
def faultStep (rand : Nat → Nat × Nat) (replace : repl) (d : Driver) (page_number : Int) :
    Option (Option page × Driver) :=
  if d.allocated < numFrames d.mmu then
    some (none,
      { d with
          mmu := (allocateFrame d.mmu page_number).2,
          allocated := d.allocated + 1,
          disk_reads := d.disk_reads + 1 })
  else
    match selectVictim rand d.mmu page_number replace with
    | none => none
    | some (Pvictim, m) =>
      some (some Pvictim,
        { d with
            mmu := (checkInMemory m page_number).2,
            disk_reads := d.disk_reads + 1,
            disk_writes := if Pvictim.modified then d.disk_writes + 1 else d.disk_writes })

/-- One iteration of the trace loop. `none` when the run stops in this iteration: on an
access letter other than `R` and `W` (`exit(-1)`), or on an access outside the table. -/
def mainStep (rand : Nat → Nat × Nat) (replace : repl) (d : Driver) (e : Event) :
    Option (Handled × Driver) :=
  let page_number : Int := ((e.address >>> pageoffset : Nat) : Int)
  let r := checkInMemory d.mmu page_number
  let handled : Option (Option page × Driver) :=
    if r.1 == -1 then faultStep rand replace { d with mmu := r.2 } page_number
    else some (none, { d with mmu := r.2 })
  match handled with
  | none => none
  | some (v, d1) =>
    let h : Handled :=
      { page_number := page_number, rw := e.rw, fault := r.1 == -1, victim := v }
    if e.rw == 'R' then some (h, { d1 with no_events := d1.no_events + 1 })
    else if e.rw == 'W' then
      some (h, { d1 with mmu := markWritten d1.mmu page_number,
                         no_events := d1.no_events + 1 })
    else none

/-- The trace loop over a whole trace, with the record of every iteration. -/
def mainLoop (rand : Nat → Nat × Nat) (replace : repl) :
    Driver → List Event → Option (List Handled × Driver)
  | d, [] => some ([], d)
  | d, e :: es =>
    match mainStep rand replace d e with
    | none => none
    | some (h, d1) =>
      match mainLoop rand replace d1 es with
      | none => none
      | some (hs, d2) => some (h :: hs, d2)

/-! ## Sequences of engine operations -/

/-- One call of the engine: a lookup, an allocation, a victim selection, or the write
marking. -/
inductive Op where
  | check (page_number : Int)
  | alloc (page_number : Int)
  | victim (page_number : Int) (mode : repl)
  | write (page_number : Int)
deriving DecidableEq, Repr

/-- The state after one engine call. -/
def applyOp (rand : Nat → Nat × Nat) (s : MMU) : Op → Option MMU
  | Op.check p => some (checkInMemory s p).2
  | Op.alloc p => some (allocateFrame s p).2
  | Op.victim p mode => (selectVictim rand s p mode).map Prod.snd
  | Op.write p => some (markWritten s p)

/-- The state after a sequence of engine calls. -/
def runOps (rand : Nat → Nat × Nat) : MMU → List Op → Option MMU
  | s, [] => some s
  | s, op :: ops =>
    match applyOp rand s op with
    | none => none
    | some s1 => runOps rand s1 ops

/-- Every allocation and victim selection of the sequence is for a page that is not
resident at that point, as in `main`, where they follow a miss of `checkInMemory`. -/
def missGuarded (rand : Nat → Nat × Nat) : MMU → List Op → Bool
  | _, [] => true
  | s, op :: ops =>
    (match op with
      | Op.alloc p => findFrameByPage s p == -1
      | Op.victim p _ => findFrameByPage s p == -1
      | _ => true) &&
    (match applyOp rand s op with
      | none => true
      | some s1 => missGuarded rand s1 ops)

/-- Number of frames with `valid` set. -/
def validCount (s : MMU) : Nat := (s.frames.filter (fun f => f.valid)).length

/-- No two distinct frames with `valid` set hold the same page number. -/
def DistinctPages (fs : List FrameEntry) : Prop :=
  ∀ (i j : Nat) (f g : FrameEntry), fs[i]? = some f → fs[j]? = some g → f.valid = true → g.valid = true →
    f.pageNo = g.pageNo → i = j

/-- All frames of the table are occupied. -/
def AllValid (s : MMU) : Prop := ∀ f ∈ s.frames, f.valid = true

/-- Both hands point into the table. -/
def HandsInRange (s : MMU) : Prop :=
  0 ≤ s.fifo_hand ∧ s.fifo_hand < numFrames s ∧ 0 ≤ s.clock_hand ∧ s.clock_hand < numFrames s

/-- A generator used in examples: draw the state, then count up. -/
def countingRand (n : Nat) : Nat × Nat := (n, n + 1)

/-! ## Vocabulary of the statements -/

/-- The assignment `frames[i].referenceBit = 0` of the clock sweep, on one entry. -/
def clearRef (f : FrameEntry) : FrameEntry := { f with referenceBit := false }

/-- Frame index `i` is one of the first `d` frames in cyclic order from `h`, in a table of
`n` frames. -/
def PassedOver (n h d i : Nat) : Prop := ∃ j, j < d ∧ i = (h + j) % n

/-- The index that `selectVictim` passes to `replaceInFrame`: the chosen `victim_index`
after the final `if (victim_index < 0) victim_index = 0`. There is none when
`numFrames <= 0`, where `selectVictim` returns before choosing. -/
def victimIndex (rand : Nat → Nat × Nat) (s : MMU) (mode : repl) : Option Int :=
  if numFrames s ≤ 0 then none
  else (chooseVictim rand s mode).map (fun r => if r.2 < 0 then 0 else r.2)

/-- The frame indices evicted by the FIFO victim selections of a sequence of engine calls,
in order. -/
def fifoVictims (rand : Nat → Nat × Nat) : MMU → List Op → Option (List Int)
  | _, [] => some []
  | s, op :: ops =>
    match applyOp rand s op with
    | none => none
    | some s1 =>
      match op, victimIndex rand s repl.fifo with
      | Op.victim _ repl.fifo, some v => (fifoVictims rand s1 ops).map (fun vs => v :: vs)
      | _, _ => fifoVictims rand s1 ops

/-- The only victim selections of the sequence are FIFO ones. -/
def OnlyFifoVictims (ops : List Op) : Prop :=
  ∀ op ∈ ops, ∀ (p : Int) (mode : repl), op = Op.victim p mode → mode = repl.fifo

/-- Number of victim selections in a sequence of engine calls. -/
def victimCalls : List Op → Nat
  | [] => 0
  | Op.victim _ _ :: ops => victimCalls ops + 1
  | _ :: ops => victimCalls ops

/-- The values of the globals at program start: `frames = NULL`, `numFrames = 0`, both hands
and the tick 0, and the generator as after `srand(1)`, which is how the C library starts. -/
def startState : MMU :=
  { frames := [], fifo_hand := 0, clock_hand := 0, tick := 0, seed := 1 }

/-- The second table keeps, index by index, the `valid` flag and page number of the
first. -/
def SameKeys (fs gs : List FrameEntry) : Prop :=
  gs.length = fs.length ∧
  ∀ (i : Nat) (g : FrameEntry), gs[i]? = some g →
    ∃ f, fs[i]? = some f ∧ f.valid = g.valid ∧ f.pageNo = g.pageNo

/-- The table keeps its length and, when it has a frame, both hands stay inside it. -/
def EngineInv (n : Nat) (s : MMU) : Prop :=
  s.frames.length = n ∧ (1 ≤ n → HandsInRange s)

/-- The second table keeps, index by index, the `valid` flag, page number and `modified`
flag of the first. -/
def SameCore (fs gs : List FrameEntry) : Prop :=
  gs.length = fs.length ∧
  ∀ (i : Nat) (g : FrameEntry), gs[i]? = some g →
    ∃ f, fs[i]? = some f ∧ f.valid = g.valid ∧ f.pageNo = g.pageNo ∧ f.modified = g.modified

/-- Whether page `q` was written since it was last loaded, read off the record of the
iterations so far, most recent first: the most recent iteration on `q` decides, by being a
write, or else by not being a fault and the earlier iterations deciding. -/
def writtenSinceLoad (q : Int) : List Handled → Bool
  | [] => false
  | h :: rest =>
    if h.page_number = q then
      (h.rw == 'W') || (!h.fault && writtenSinceLoad q rest)
    else writtenSinceLoad q rest

/-- Every valid frame's `modified` flag says whether its page was written since it was last
loaded, according to the record `rlog` of the iterations so far (most recent first). -/
def DirtyTracks (fs : List FrameEntry) (rlog : List Handled) : Prop :=
  ∀ (i : Nat) (f : FrameEntry), fs[i]? = some f → f.valid = true →
    f.modified = writtenSinceLoad f.pageNo rlog

/-- The valid frames are exactly those of index below `a`. -/
def ValidPrefix (fs : List FrameEntry) (a : Int) : Prop :=
  ∀ (i : Nat) (f : FrameEntry), fs[i]? = some f → (f.valid = true ↔ (i : Int) < a)

/-- What holds of `main` between two iterations of the trace loop, `rlog` being the record
of the iterations so far (most recent first). -/
def DriverInv (d : Driver) (rlog : List Handled) : Prop :=
  1 ≤ d.mmu.frames.length ∧ HandsInRange d.mmu ∧
  0 ≤ d.allocated ∧ d.allocated ≤ numFrames d.mmu ∧
  ValidPrefix d.mmu.frames d.allocated ∧
  DistinctPages d.mmu.frames ∧
  DirtyTracks d.mmu.frames rlog

/-- What holds of `main` inside an iteration on page `q`, after the page fault handling and
before the access letter is looked at: as `DriverInv`, except that the frame holding `q`
has `modified` clear when the page was just loaded (`fault`). -/
def Settled (d : Driver) (q : Int) (fault : Bool) (rlog : List Handled) : Prop :=
  1 ≤ d.mmu.frames.length ∧ HandsInRange d.mmu ∧
  0 ≤ d.allocated ∧ d.allocated ≤ numFrames d.mmu ∧
  ValidPrefix d.mmu.frames d.allocated ∧
  DistinctPages d.mmu.frames ∧
  ∀ (i : Nat) (g : FrameEntry), d.mmu.frames[i]? = some g → g.valid = true →
    g.modified =
      if g.pageNo = q then (!fault && writtenSinceLoad q rlog)
      else writtenSinceLoad g.pageNo rlog

/-- The start of `main` once the command line is read: a frame count below 1 ends the run
with `exit(-1)` before `createMMU` is called, and so does a failing `createMMU`; otherwise
the trace loop starts with `allocated` and the counters at 0. `none` is `exit(-1)`. -/
def mainSetup (callocOk : Bool) (framesCount : Int) (s0 : MMU) : Option Driver :=
  if framesCount < 1 then none
  else
    let r := createMMU callocOk framesCount s0
    if r.1 == -1 then none
    else some { mmu := r.2, allocated := 0, no_events := 0, disk_writes := 0, disk_reads := 0 }

/-- What a run of the clock loop did, besides its result: the frame indices whose
`referenceBit` it read, in order; the value of `scans` at the `break`; and whether it left
through the forced selection under `scans > numFrames * 4`. -/
structure SweepReport where
  state : MMU
  victim_index : Int
  visited : List Int
  scans : Int
  forced : Bool
deriving DecidableEq, Repr

/-- The `while (1)` loop of the clock branch, as `clockSweep`, reporting in addition what it
did. Every frame visited before the last was passed over and had its bit cleared. -/
def clockSweepReport : Nat → MMU → Int → Option SweepReport
  | 0, _, _ => none
  | fuel + 1, s, scans =>
    match frameAt s.frames s.clock_hand with
    | none => none
    | some f =>
      if !f.referenceBit then
        some { state := { s with clock_hand := Int.tmod (s.clock_hand + 1) (numFrames s) },
               victim_index := s.clock_hand, visited := [s.clock_hand], scans := scans,
               forced := false }
      else
        let s1 : MMU :=
          { s with
              frames := s.frames.set s.clock_hand.toNat { f with referenceBit := false },
              clock_hand := Int.tmod (s.clock_hand + 1) (numFrames s) }
        let scans1 := scans + 1
        if scans1 > numFrames s * 4 then
          some { state := { s1 with clock_hand := Int.tmod (s1.clock_hand + 1) (numFrames s) },
                 victim_index := s1.clock_hand, visited := [s.clock_hand], scans := scans1,
                 forced := true }
        else
          (clockSweepReport fuel s1 scans1).map
            (fun r => { r with visited := s.clock_hand :: r.visited })

/-- Number of frames with the reference bit set. -/
def refCount (fs : List FrameEntry) : Nat := (fs.filter (fun f => f.referenceBit)).length

/-- Along the sequence of engine calls the tick never decreases, that is, no `tick++` wraps
from the largest `unsigned long` to 0. -/
def tickNeverWraps (rand : Nat → Nat × Nat) : MMU → List Op → Bool
  | _, [] => true
  | s, op :: ops =>
    match applyOp rand s op with
    | none => true
    | some s1 => decide (s.tick ≤ s1.tick) && tickNeverWraps rand s1 ops

/-- Every valid frame was last accessed at a tick between 1 and `t`, and no two valid frames
at the same tick. -/
def StampsInv (fs : List FrameEntry) (t : Nat) : Prop :=
  (∀ (i : Nat) (f : FrameEntry), fs[i]? = some f → f.valid = true →
    1 ≤ f.lastAccessTime ∧ f.lastAccessTime ≤ t) ∧
  (∀ (i j : Nat) (f g : FrameEntry), fs[i]? = some f → fs[j]? = some g →
    f.valid = true → g.valid = true → f.lastAccessTime = g.lastAccessTime → i = j)

/-- The handling of the access letter in `main` for the letters `R` and `W`: a write marks
the page, a read changes nothing. -/
def accessMark (c : Char) (m : MMU) (q : Int) : MMU :=
  if c == 'W' then markWritten m q else m

/-- The page number that `main` computes from an event. -/
def pageOf (e : Event) : Int := ((e.address >>> pageoffset : Nat) : Int)

/-- The page numbers held by the frames, in index order. -/
def pagesOf (fs : List FrameEntry) : List Int := fs.map (fun f => f.pageNo)

/-- Reference model of the FIFO policy, a true insertion-order queue of the resident pages,
oldest first, for `N` frames: an access to a resident page changes nothing; a page that is
not resident joins at the back, after the page at the front, the one loaded earliest among
the resident pages, has been evicted if `N` pages are resident. The result is the evicted
page, if any, and the new queue. -/
def fifoQueueStep (N : Nat) (queue : List Int) (p : Int) : Option Int × List Int :=
  if p ∈ queue then (none, queue)
  else if queue.length < N then (none, queue ++ [p])
  else
    match queue with
    | [] => (none, [])
    | oldest :: rest => (some oldest, rest ++ [p])

/-- The reference FIFO queue over a sequence of page accesses: the evictions, one entry per
access, and the final queue. -/
def fifoQueueRun (N : Nat) : List Int → List Int → List (Option Int) × List Int
  | queue, [] => ([], queue)
  | queue, p :: ps =>
    ((fifoQueueStep N queue p).1 :: (fifoQueueRun N (fifoQueueStep N queue p).2 ps).1,
     (fifoQueueRun N (fifoQueueStep N queue p).2 ps).2)

/-- The FIFO hand and the table of `main` stand for the queue: the valid frames are the
first `allocated` ones, and reading their pages from the hand on, wrapping around, gives
the queue from its oldest page on; the hand is 0 until the table is full. -/
def FifoRel (d : Driver) (queue : List Int) : Prop :=
  ∃ a h : Nat, d.allocated = (a : Int) ∧ d.mmu.fifo_hand = (h : Int) ∧
    a ≤ d.mmu.frames.length ∧ h < d.mmu.frames.length ∧
    (a < d.mmu.frames.length → h = 0) ∧
    queue = ((pagesOf d.mmu.frames).take a).rotate h

/-- The `lastAccessTime` of the frame holding page `p`, 0 when the page is not resident. -/
def stampOf (s : MMU) (p : Int) : Nat :=
  if findFrameByPage s p < 0 then 0
  else
    match s.frames[(findFrameByPage s p).toNat]? with
    | some f => f.lastAccessTime
    | none => 0

/-- Reference model of the LRU policy for `N` frames: the resident pages in order of their
most recent access, the most recently accessed first. An access moves the page to the
front; a page that is not resident enters at the front, after the page at the back, the
one whose most recent access is the earliest, has been evicted if `N` pages are resident.
The result is the evicted page, if any, and the new list. -/
def lruListStep (N : Nat) (recent : List Int) (p : Int) : Option Int × List Int :=
  if p ∈ recent then (none, p :: recent.erase p)
  else if recent.length < N then (none, p :: recent)
  else
    match recent.getLast? with
    | none => (none, [])
    | some oldest => (some oldest, p :: recent.dropLast)

/-- The reference LRU list over a sequence of page accesses: the evictions, one entry per
access, and the final list. -/
def lruListRun (N : Nat) : List Int → List Int → List (Option Int) × List Int
  | recent, [] => ([], recent)
  | recent, p :: ps =>
    ((lruListStep N recent p).1 :: (lruListRun N (lruListStep N recent p).2 ps).1,
     (lruListRun N (lruListStep N recent p).2 ps).2)

/-- The table stands for the reference list: no page is held twice, the access stamps of
the valid frames are distinct and at most the tick, the list holds exactly the resident
pages, and along the list the stamps strictly decrease. -/
def LruInv (s : MMU) (recent : List Int) : Prop :=
  DistinctPages s.frames ∧ StampsInv s.frames s.tick ∧
  (∀ p : Int, p ∈ recent ↔ ∃ f ∈ s.frames, f.valid = true ∧ f.pageNo = p) ∧
  recent.Pairwise (fun p p' => stampOf s p' < stampOf s p)

/-- In the sequence of accesses `past`, the most recent access to page `y` comes before an
access to page `x`: `y` is accessed before some access to `x` and not from then on. -/
def LastAccessBefore (past : List Int) (y x : Int) : Prop :=
  ∃ pre1 pre2 : List Int, past = pre1 ++ x :: pre2 ∧ y ∈ pre1 ∧ y ∉ x :: pre2

/-- The reference list is in order of most recent access in `past`: every page of the list
was accessed, and was accessed more recently than the pages after it. -/
def RecencyOrdered (past : List Int) (recent : List Int) : Prop :=
  (∀ p ∈ recent, p ∈ past) ∧
  recent.Pairwise (fun x y => LastAccessBefore past y x)

/-- Along the run of the trace loop the tick at the end of every iteration is not below the
tick at its start, that is, none of the at most three `tick++` of any iteration wraps from
the largest `unsigned long` to 0. -/
def tickNeverWrapsInLoop (rand : Nat → Nat × Nat) (replace : repl) :
    Driver → List Event → Bool
  | _, [] => true
  | d, e :: es =>
    match mainStep rand replace d e with
    | none => true
    | some (_, d1) =>
      decide (d.mmu.tick ≤ d1.mmu.tick) && tickNeverWrapsInLoop rand replace d1 es

/-! ## The two scans -/

theorem findFrameByPageFrom_cases (p : Int) (fs : List FrameEntry) (i : Nat) :
    (findFrameByPageFrom p fs i = -1 ∧ ∀ f ∈ fs, ¬ (f.valid = true ∧ f.pageNo = p)) ∨
    (∃ (k : Nat) (f : FrameEntry), findFrameByPageFrom p fs i = ((i + k : Nat) : Int) ∧
        fs[k]? = some f ∧ f.valid = true ∧ f.pageNo = p ∧
        ∀ (j : Nat) (g : FrameEntry), j < k → fs[j]? = some g →
          ¬ (g.valid = true ∧ g.pageNo = p)) := by
  induction fs generalizing i with
  | nil => left; simp [findFrameByPageFrom]
  | cons a as ih =>
    by_cases ha : a.valid = true ∧ a.pageNo = p
    · right
      refine ⟨0, a, ?_, by simp, ha.1, ha.2, ?_⟩
      · simp [findFrameByPageFrom, ha.1, ha.2]
      · intro j g hj; omega
    · have hstep : findFrameByPageFrom p (a :: as) i = findFrameByPageFrom p as (i + 1) := by
        simp only [findFrameByPageFrom]
        rw [if_neg]
        simpa using ha
      rcases ih (i + 1) with ⟨h1, h2⟩ | ⟨k, f, h1, h2, h3, h4, h5⟩
      · left
        refine ⟨by rw [hstep, h1], ?_⟩
        intro f hf
        rcases List.mem_cons.1 hf with rfl | hf
        · exact ha
        · exact h2 f hf
      · right
        refine ⟨k + 1, f, ?_, by simpa using h2, h3, h4, ?_⟩
        · rw [hstep, h1]; congr 1; omega
        · intro j g hj hg
          cases j with
          | zero => simp at hg; subst hg; exact ha
          | succ j => exact h5 j g (by omega) (by simpa using hg)

theorem findFreeFrameFrom_cases (fs : List FrameEntry) (i : Nat) :
    (findFreeFrameFrom fs i = -1 ∧ ∀ f ∈ fs, f.valid = true) ∨
    (∃ (k : Nat) (f : FrameEntry), findFreeFrameFrom fs i = ((i + k : Nat) : Int) ∧
        fs[k]? = some f ∧ f.valid = false ∧
        ∀ (j : Nat) (g : FrameEntry), j < k → fs[j]? = some g → g.valid = true) := by
  induction fs generalizing i with
  | nil => left; simp [findFreeFrameFrom]
  | cons a as ih =>
    by_cases ha : a.valid = true
    · have hstep : findFreeFrameFrom (a :: as) i = findFreeFrameFrom as (i + 1) := by
        simp [findFreeFrameFrom, ha]
      rcases ih (i + 1) with ⟨h1, h2⟩ | ⟨k, f, h1, h2, h3, h5⟩
      · left
        refine ⟨by rw [hstep, h1], ?_⟩
        intro f hf
        rcases List.mem_cons.1 hf with rfl | hf
        · exact ha
        · exact h2 f hf
      · right
        refine ⟨k + 1, f, ?_, by simpa using h2, h3, ?_⟩
        · rw [hstep, h1]; congr 1; omega
        · intro j g hj hg
          cases j with
          | zero => simp at hg; subst hg; exact ha
          | succ j => exact h5 j g (by omega) (by simpa using hg)
    · right
      have ha' : a.valid = false := by simpa using ha
      refine ⟨0, a, ?_, by simp, ha', ?_⟩
      · simp [findFreeFrameFrom, ha']
      · intro j g hj; omega

/-! ## Lookup and allocation -/

theorem findFrameByPage_eq_neg_one_iff (s : MMU) (p : Int) :
    findFrameByPage s p = -1 ↔ ∀ f ∈ s.frames, ¬ (f.valid = true ∧ f.pageNo = p) := by
  unfold findFrameByPage
  rcases findFrameByPageFrom_cases p s.frames 0 with ⟨h1, h2⟩ | ⟨k, f, h1, h2, h3, h4, _⟩
  · exact ⟨fun _ => h2, fun _ => h1⟩
  · constructor
    · intro h
      rw [h1] at h
      omega
    · intro h
      exact absurd ⟨h3, h4⟩ (h f (List.getElem?_mem h2))

theorem findFrameByPage_found (s : MMU) (p : Int)
    (h : ∃ f ∈ s.frames, f.valid = true ∧ f.pageNo = p) :
    ∃ (i : Nat) (f : FrameEntry), findFrameByPage s p = (i : Int) ∧
      s.frames[i]? = some f ∧ f.valid = true ∧ f.pageNo = p ∧
      ∀ (j : Nat) (g : FrameEntry), j < i → s.frames[j]? = some g →
        ¬ (g.valid = true ∧ g.pageNo = p) := by
  unfold findFrameByPage
  rcases findFrameByPageFrom_cases p s.frames 0 with ⟨_, h2⟩ | ⟨k, f, h1, h2, h3, h4, h5⟩
  · obtain ⟨f, hf, hv⟩ := h
    exact absurd hv (h2 f hf)
  · exact ⟨k, f, by simpa using h1, h2, h3, h4, h5⟩

theorem checkInMemory_of_found (s : MMU) (p : Int) (i : Nat) (f : FrameEntry)
    (hi : findFrameByPage s p = (i : Int)) (hf : s.frames[i]? = some f) :
    checkInMemory s p =
      ((i : Int), { s with
        tick := tickIncr s.tick,
        frames := s.frames.set i
          { f with lastAccessTime := tickIncr s.tick, referenceBit := true } }) := by
  simp [checkInMemory, hi, hf]

theorem checkInMemory_of_miss (s : MMU) (p : Int) (h : findFrameByPage s p = -1) :
    checkInMemory s p = (-1, s) := by
  simp [checkInMemory, h]

theorem markWritten_of_found (s : MMU) (p : Int) (i : Nat) (f : FrameEntry)
    (hi : findFrameByPage s p = (i : Int)) (hf : s.frames[i]? = some f) :
    markWritten s p =
      { s with
        tick := tickIncr s.tick,
        frames := s.frames.set i
          { f with modified := true, lastAccessTime := tickIncr s.tick,
                   referenceBit := true } } := by
  simp [markWritten, hi, hf]

theorem markWritten_of_miss (s : MMU) (p : Int) (h : findFrameByPage s p = -1) :
    markWritten s p = s := by
  simp [markWritten, h]

theorem findFreeFrame_eq_neg_one_of_allValid (s : MMU) (h : AllValid s) :
    findFreeFrame s = -1 := by
  unfold findFreeFrame
  rcases findFreeFrameFrom_cases s.frames 0 with ⟨h1, _⟩ | ⟨k, f, _, h2, h3, _⟩
  · exact h1
  · have := h f (List.getElem?_mem h2)
    rw [h3] at this
    exact absurd this (by decide)

theorem findFreeFrame_found (s : MMU) (h : ∃ f ∈ s.frames, f.valid = false) :
    ∃ (i : Nat) (f : FrameEntry), findFreeFrame s = (i : Int) ∧
      s.frames[i]? = some f ∧ f.valid = false ∧
      ∀ (j : Nat) (g : FrameEntry), j < i → s.frames[j]? = some g → g.valid = true := by
  unfold findFreeFrame
  rcases findFreeFrameFrom_cases s.frames 0 with ⟨_, h2⟩ | ⟨k, f, h1, h2, h3, h5⟩
  · obtain ⟨f, hf, hv⟩ := h
    have := h2 f hf
    rw [hv] at this
    exact absurd this (by decide)
  · exact ⟨k, f, by simpa using h1, h2, h3, h5⟩

theorem allocateFrame_of_found (s : MMU) (p : Int) (i : Nat)
    (hi : findFreeFrame s = (i : Int)) :
    allocateFrame s p =
      ((i : Int), { s with
        tick := tickIncr s.tick,
        frames := s.frames.set i (loadedFrame p (tickIncr s.tick)) }) := by
  simp [allocateFrame, hi]

/-! ## Victim selection: indices and the install step -/

theorem frameAt_natCast (fs : List FrameEntry) (i : Nat) : frameAt fs (i : Int) = fs[i]? := by
  simp [frameAt]

theorem tmod_natCast (a b : Nat) : Int.tmod (a : Int) (b : Int) = ((a % b : Nat) : Int) := by
  rw [Int.tmod_eq_emod (Int.ofNat_nonneg a) (Int.ofNat_nonneg b)]
  exact (Int.natCast_mod a b).symm

theorem tmod_natCast_succ (a b : Nat) :
    Int.tmod ((a : Int) + 1) (b : Int) = (((a + 1) % b : Nat) : Int) := by
  have h := tmod_natCast (a + 1) b
  rw [← h]
  congr 1

theorem replaceInFrame_natCast (s : MMU) (i : Nat) (f : FrameEntry) (p : Int)
    (hf : s.frames[i]? = some f) :
    replaceInFrame s (i : Int) p =
      some ({ pageNo := f.pageNo, modified := f.modified },
            { s with tick := tickIncr s.tick,
                     frames := s.frames.set i (loadedFrame p (tickIncr s.tick)) }) := by
  simp [replaceInFrame, frameAt_natCast, hf]

theorem selectVictim_of_choose (rand : Nat → Nat × Nat) (s s1 : MMU) (p : Int) (mode : repl)
    (v : Nat) (f : FrameEntry) (hN : 1 ≤ s.frames.length)
    (hc : chooseVictim rand s mode = some (s1, (v : Int))) (hf : s1.frames[v]? = some f) :
    selectVictim rand s p mode =
      some ({ pageNo := f.pageNo, modified := f.modified },
            { s1 with tick := tickIncr s1.tick,
                      frames := s1.frames.set v (loadedFrame p (tickIncr s1.tick)) }) := by
  have hpos : ¬ (numFrames s ≤ 0) := by
    unfold numFrames
    omega
  have hv : ¬ ((v : Int) < 0) := by omega
  simp only [selectVictim, if_neg hpos, hc, if_neg hv]
  exact replaceInFrame_natCast s1 v f p hf

/-! ## Victim selection: random, FIFO and LRU -/

theorem chooseVictim_random (rand : Nat → Nat × Nat) (s : MMU) :
    chooseVictim rand s repl.repl_random =
      some ({ s with seed := (rand s.seed).2 },
            (((rand s.seed).1 % s.frames.length : Nat) : Int)) := by
  simp [chooseVictim, numFrames, tmod_natCast]

theorem chooseVictim_fifo (rand : Nat → Nat × Nat) (s : MMU) (h : Nat)
    (hh : s.fifo_hand = (h : Int)) :
    chooseVictim rand s repl.fifo =
      some ({ s with fifo_hand := (((h + 1) % s.frames.length : Nat) : Int) }, (h : Int)) := by
  simp [chooseVictim, numFrames, hh, tmod_natCast_succ]

theorem lruScan_cases (fs : List FrameEntry) (i : Nat) (acc : Nat × Int) :
    (lruScan fs i acc = acc ∧
      ∀ f ∈ fs, ¬ (f.valid = true ∧ f.lastAccessTime < acc.1)) ∨
    (∃ (k : Nat) (f : FrameEntry), fs[k]? = some f ∧ f.valid = true ∧
      lruScan fs i acc = (f.lastAccessTime, ((i + k : Nat) : Int)) ∧
      f.lastAccessTime < acc.1 ∧
      (∀ (j : Nat) (g : FrameEntry), fs[j]? = some g → g.valid = true →
        f.lastAccessTime ≤ g.lastAccessTime) ∧
      (∀ (j : Nat) (g : FrameEntry), j < k → fs[j]? = some g → g.valid = true →
        f.lastAccessTime < g.lastAccessTime)) := by
  induction fs generalizing i acc with
  | nil => left; simp [lruScan]
  | cons a as ih =>
    by_cases ha : a.valid = true ∧ a.lastAccessTime < acc.1
    · have hstep : lruScan (a :: as) i acc
          = lruScan as (i + 1) (a.lastAccessTime, (i : Int)) := by
        simp [lruScan, ha.1, ha.2]
      right
      rcases ih (i + 1) (a.lastAccessTime, (i : Int)) with
        ⟨h1, h2⟩ | ⟨k, f, h1, h2, h3, h4, h5, h6⟩
      · refine ⟨0, a, by simp, ha.1, ?_, ha.2, ?_, ?_⟩
        · rw [hstep, h1]; simp
        · intro j g hg hv
          cases j with
          | zero => simp at hg; subst hg; exact le_refl _
          | succ j =>
            have hmem : g ∈ as := List.getElem?_mem (by simpa using hg)
            have := h2 g hmem
            simp only [not_and, not_lt] at this
            exact this hv
        · intro j g hj; omega
      · simp only at h4
        refine ⟨k + 1, f, by simpa using h1, h2, ?_, lt_trans h4 ha.2, ?_, ?_⟩
        · rw [hstep, h3]; congr 2; omega
        · intro j g hg hv
          cases j with
          | zero => simp at hg; subst hg; exact le_of_lt h4
          | succ j => exact h5 j g (by simpa using hg) hv
        · intro j g hj hg hv
          cases j with
          | zero => simp at hg; subst hg; exact h4
          | succ j => exact h6 j g (by omega) (by simpa using hg) hv
    · have hstep : lruScan (a :: as) i acc = lruScan as (i + 1) acc := by
        simp only [lruScan]
        rw [if_neg]
        simpa using ha
      rcases ih (i + 1) acc with ⟨h1, h2⟩ | ⟨k, f, h1, h2, h3, h4, h5, h6⟩
      · left
        refine ⟨by rw [hstep, h1], ?_⟩
        intro f hf
        rcases List.mem_cons.1 hf with rfl | hf
        · exact ha
        · exact h2 f hf
      · right
        have hage : a.valid = true → f.lastAccessTime < a.lastAccessTime := by
          intro hv
          have : ¬ a.lastAccessTime < acc.1 := fun hlt => ha ⟨hv, hlt⟩
          omega
        refine ⟨k + 1, f, by simpa using h1, h2, ?_, h4, ?_, ?_⟩
        · rw [hstep, h3]; congr 2; omega
        · intro j g hg hv
          cases j with
          | zero => simp at hg; subst hg; exact le_of_lt (hage hv)
          | succ j => exact h5 j g (by simpa using hg) hv
        · intro j g hj hg hv
          cases j with
          | zero => simp at hg; subst hg; exact hage hv
          | succ j => exact h6 j g (by omega) (by simpa using hg) hv

theorem chooseVictim_lru (rand : Nat → Nat × Nat) (s : MMU) (hN : 1 ≤ s.frames.length) :
    ∃ v : Nat, v < s.frames.length ∧ chooseVictim rand s repl.lru = some (s, (v : Int)) ∧
      ((v = 0 ∧ ∀ f ∈ s.frames, ¬ (f.valid = true ∧ f.lastAccessTime < ULONG_MAX)) ∨
       (∃ f : FrameEntry, s.frames[v]? = some f ∧ f.valid = true ∧
          f.lastAccessTime < ULONG_MAX ∧
          (∀ (j : Nat) (g : FrameEntry), s.frames[j]? = some g → g.valid = true →
            f.lastAccessTime ≤ g.lastAccessTime) ∧
          (∀ (j : Nat) (g : FrameEntry), j < v → s.frames[j]? = some g → g.valid = true →
            f.lastAccessTime < g.lastAccessTime))) := by
  rcases lruScan_cases s.frames 0 (ULONG_MAX, -1) with
    ⟨h1, h2⟩ | ⟨k, f, h1, h2, h3, h4, h5, h6⟩
  · refine ⟨0, by omega, ?_, Or.inl ⟨rfl, h2⟩⟩
    simp [chooseVictim, h1]
  · have hk : k < s.frames.length := (List.getElem?_eq_some.1 h1).1
    refine ⟨k, hk, ?_, Or.inr ⟨f, h1, h2, h4, h5, h6⟩⟩
    have hnn : ¬ ((k : Int) < 0) := by omega
    simp [chooseVictim, h3, hnn]

/-! ## Victim selection: the clock sweep -/

theorem add_mod_ne_self (h k n : Nat) (hk : 0 < k) (hkn : k < n) (hh : h < n) :
    (h + k) % n ≠ h := by
  by_cases hlt : h + k < n
  · rw [Nat.mod_eq_of_lt hlt]; omega
  · have h1 : (h + k) % n = (h + k - n) % n := Nat.mod_eq_sub_mod (by omega)
    rw [h1, Nat.mod_eq_of_lt (by omega)]
    omega

theorem clockSweep_stop (fuel : Nat) (s : MMU) (scans : Int) (hn : Nat) (f : FrameEntry)
    (hh : s.clock_hand = (hn : Int)) (hf : s.frames[hn]? = some f)
    (hr : f.referenceBit = false) :
    clockSweep (fuel + 1) s scans =
      some ({ s with clock_hand := (((hn + 1) % s.frames.length : Nat) : Int) }, (hn : Int)) := by
  simp [clockSweep, hh, frameAt_natCast, hf, hr, numFrames, tmod_natCast_succ]

theorem clockSweep_pass (fuel : Nat) (s : MMU) (sc hn : Nat) (f : FrameEntry)
    (hh : s.clock_hand = (hn : Int)) (hf : s.frames[hn]? = some f)
    (hr : f.referenceBit = true) (hsc : sc + 1 ≤ s.frames.length * 4) :
    clockSweep (fuel + 1) s (sc : Int) =
      clockSweep fuel
        { s with frames := s.frames.set hn (clearRef f),
                 clock_hand := (((hn + 1) % s.frames.length : Nat) : Int) }
        ((sc + 1 : Nat) : Int) := by
  have hguard : ¬ ((sc : Int) + 1 > (s.frames.length : Int) * 4) := by omega
  simp only [clockSweep, hh, frameAt_natCast, hf, hr, numFrames, tmod_natCast_succ]
  simp only [Bool.not_true, Bool.false_eq_true, if_false, if_neg hguard, Int.toNat_natCast]
  rfl

theorem clockSweep_run (d : Nat) : ∀ (fuel : Nat) (s : MMU) (sc hn : Nat),
    s.clock_hand = (hn : Int) → hn < s.frames.length → d < s.frames.length → d < fuel →
    sc + d ≤ s.frames.length * 4 →
    (∀ j, j < d → ∃ f, s.frames[(hn + j) % s.frames.length]? = some f ∧
      f.referenceBit = true) →
    (∃ f, s.frames[(hn + d) % s.frames.length]? = some f ∧ f.referenceBit = false) →
    ∃ fs : List FrameEntry,
      clockSweep fuel s (sc : Int) =
        some ({ s with frames := fs,
                       clock_hand := (((hn + d + 1) % s.frames.length : Nat) : Int) },
              (((hn + d) % s.frames.length : Nat) : Int)) ∧
      fs.length = s.frames.length ∧
      (∀ (i : Nat) (f : FrameEntry), s.frames[i]? = some f →
        PassedOver s.frames.length hn d i → fs[i]? = some (clearRef f)) ∧
      (∀ i : Nat, ¬ PassedOver s.frames.length hn d i → fs[i]? = s.frames[i]?) := by
  induction d with
  | zero =>
    intro fuel s sc hn hh hlt _ hfuel _ _ hstop
    obtain ⟨f, hf, hr⟩ := hstop
    rw [Nat.add_zero, Nat.mod_eq_of_lt hlt] at hf
    obtain ⟨fuel, rfl⟩ : ∃ k, fuel = k + 1 := ⟨fuel - 1, by omega⟩
    refine ⟨s.frames, ?_, rfl, ?_, ?_⟩
    · rw [clockSweep_stop fuel s sc hn f hh hf hr]
      simp [Nat.mod_eq_of_lt hlt]
    · rintro i g _ ⟨j, hj, _⟩; omega
    · intro i _; rfl
  | succ d ih =>
    intro fuel s sc hn hh hlt hd hfuel hsc hpass hstop
    obtain ⟨fuel, rfl⟩ : ∃ k, fuel = k + 1 := ⟨fuel - 1, by omega⟩
    obtain ⟨f0, hf0, hr0⟩ := hpass 0 (by omega)
    rw [Nat.add_zero, Nat.mod_eq_of_lt hlt] at hf0
    rw [clockSweep_pass fuel s sc hn f0 hh hf0 hr0 (by omega)]
    set n := s.frames.length with hn_def
    set s1 : MMU := { s with frames := s.frames.set hn (clearRef f0),
                             clock_hand := (((hn + 1) % n : Nat) : Int) } with hs1
    have hlen1 : s1.frames.length = n := by simp [hs1, hn_def]
    have hmod : ∀ j, ((hn + 1) % n + j) % n = (hn + (j + 1)) % n := by
      intro j
      rw [Nat.mod_add_mod]
      congr 1
      omega
    have e0 : (hn + 0) % n = hn := by
      rw [Nat.add_zero]; exact Nat.mod_eq_of_lt hlt
    have hkeep : ∀ j, 0 < j → j < n → s1.frames[(hn + j) % n]? = s.frames[(hn + j) % n]? := by
      intro j hj0 hjn
      have hne := add_mod_ne_self hn j n hj0 hjn hlt
      simp [hs1, List.getElem?_set, Ne.symm hne]
    obtain ⟨fs, hrun, hlen, hin, hout⟩ := ih fuel s1 (sc + 1) ((hn + 1) % n) rfl
      (by rw [hlen1]; exact Nat.mod_lt _ (by omega)) (by rw [hlen1]; omega) (by omega)
      (by rw [hlen1]; omega)
      (by
        intro j hj
        rw [hlen1, hmod j, hkeep (j + 1) (by omega) (by omega)]
        exact hpass (j + 1) (by omega))
      (by
        rw [hlen1, hmod d, hkeep (d + 1) (by omega) (by omega)]
        exact hstop)
    rw [hlen1] at hrun hlen hin hout
    refine ⟨fs, ?_, hlen, ?_, ?_⟩
    · have e1 : ((hn + 1) % n + d + 1) % n = (hn + (d + 1) + 1) % n := by
        rw [Nat.add_assoc, hmod (d + 1)]
        congr 1
      rw [hrun, hmod d, e1]
    · rintro i g hg ⟨j, hj, rfl⟩
      by_cases hP : PassedOver n ((hn + 1) % n) d ((hn + j) % n)
      · by_cases hj0 : j = 0
        · subst hj0
          simp only [e0] at hg hP ⊢
          have h1 : s1.frames[hn]? = some (clearRef f0) := by
            simp [hs1, List.getElem?_set, hlt, hn_def]
          rw [hf0] at hg
          cases hg
          rw [hin hn (clearRef f0) h1 hP]
          rfl
        · have h1 : s1.frames[(hn + j) % n]? = some g := by
            rw [hkeep j (by omega) (by omega)]; exact hg
          exact hin _ g h1 hP
      · have hj0 : j = 0 := by
          by_contra hj0
          apply hP
          refine ⟨j - 1, by omega, ?_⟩
          rw [hmod (j - 1)]
          congr 2
          omega
        subst hj0
        simp only [e0] at hg hP ⊢
        rw [hout hn hP]
        rw [hf0] at hg
        cases hg
        simp [hs1, List.getElem?_set, hlt, hn_def]
    · intro i hP
      have hP1 : ¬ PassedOver n ((hn + 1) % n) d i := by
        rintro ⟨j, hj, rfl⟩
        exact hP ⟨j + 1, by omega, hmod j⟩
      have hne : i ≠ hn := by
        rintro rfl
        exact hP ⟨0, by omega, by rw [Nat.add_zero, Nat.mod_eq_of_lt hlt]⟩
      rw [hout i hP1]
      simp [hs1, List.getElem?_set, Ne.symm hne]

theorem rotation_surjective (h i n : Nat) (hh : h < n) (hi : i < n) :
    ∃ j, j < n ∧ i = (h + j) % n := by
  by_cases hle : h ≤ i
  · refine ⟨i - h, by omega, ?_⟩
    rw [Nat.add_sub_cancel' hle, Nat.mod_eq_of_lt hi]
  · refine ⟨n - h + i, by omega, ?_⟩
    have e : h + (n - h + i) = n + i := by omega
    rw [e, Nat.add_mod_left, Nat.mod_eq_of_lt hi]

theorem chooseVictim_clock (rand : Nat → Nat × Nat) (s : MMU) (hn : Nat)
    (hh : s.clock_hand = (hn : Int)) (hlt : hn < s.frames.length) :
    ∃ (d : Nat) (fs : List FrameEntry), d ≤ s.frames.length ∧
      (∀ j, j < d → ∃ f, s.frames[(hn + j) % s.frames.length]? = some f ∧
        f.referenceBit = true) ∧
      (d < s.frames.length →
        ∃ f, s.frames[(hn + d) % s.frames.length]? = some f ∧ f.referenceBit = false) ∧
      chooseVictim rand s repl.repl_clock =
        some ({ s with frames := fs,
                       clock_hand := (((hn + d + 1) % s.frames.length : Nat) : Int) },
              (((hn + d) % s.frames.length : Nat) : Int)) ∧
      fs.length = s.frames.length ∧
      (∀ (i : Nat) (f : FrameEntry), s.frames[i]? = some f →
        PassedOver s.frames.length hn d i → fs[i]? = some (clearRef f)) ∧
      (∀ i : Nat, ¬ PassedOver s.frames.length hn d i → fs[i]? = s.frames[i]?) := by
  have hfuel : (numFrames s * 4 + 1).toNat = s.frames.length * 4 + 1 := by
    unfold numFrames
    omega
  have hch : chooseVictim rand s repl.repl_clock
      = clockSweep (s.frames.length * 4 + 1) s ((0 : Nat) : Int) := by
    simp [chooseVictim, hfuel]
  have hget : ∀ j, ∃ f, s.frames[(hn + j) % s.frames.length]? = some f := by
    intro j
    have hj : (hn + j) % s.frames.length < s.frames.length := Nat.mod_lt _ (by omega)
    exact ⟨_, List.getElem?_eq_getElem hj⟩
  by_cases hex : ∃ d, d < s.frames.length ∧
      ∃ f, s.frames[(hn + d) % s.frames.length]? = some f ∧ f.referenceBit = false
  · classical
    have hd := Nat.find_spec hex
    have hmin := fun m (hm : m < Nat.find hex) => Nat.find_min hex hm
    have hpass : ∀ j, j < Nat.find hex →
        ∃ f, s.frames[(hn + j) % s.frames.length]? = some f ∧ f.referenceBit = true := by
      intro j hj
      obtain ⟨f, hf⟩ := hget j
      refine ⟨f, hf, ?_⟩
      by_contra hr
      exact hmin j hj ⟨by omega, f, hf, by simpa using hr⟩
    obtain ⟨fs, hrun, hlen, hin, hout⟩ :=
      clockSweep_run (Nat.find hex) (s.frames.length * 4 + 1) s 0 hn hh hlt hd.1 (by omega)
        (by omega) hpass hd.2
    exact ⟨Nat.find hex, fs, le_of_lt hd.1, hpass, fun _ => hd.2, by rw [hch, hrun], hlen,
      hin, hout⟩
  · have hall : ∀ j, ∃ f, s.frames[(hn + j) % s.frames.length]? = some f ∧
        f.referenceBit = true := by
      intro j
      obtain ⟨f, hf⟩ := hget j
      refine ⟨f, hf, ?_⟩
      by_contra hr
      obtain ⟨j0, hj0, hj0e⟩ := rotation_surjective hn ((hn + j) % s.frames.length)
        s.frames.length hlt (Nat.mod_lt _ (by omega))
      exact hex ⟨j0, hj0, f, by rw [← hj0e]; exact hf, by simpa using hr⟩
    obtain ⟨n, hn_def⟩ : ∃ n, n = s.frames.length := ⟨_, rfl⟩
    rw [← hn_def] at hlt hall hex hget hch ⊢
    have e0 : (hn + 0) % n = hn := by
      rw [Nat.add_zero]; exact Nat.mod_eq_of_lt hlt
    obtain ⟨f0, hf0, hr0⟩ := hall 0
    rw [e0] at hf0
    have hstep := clockSweep_pass (n * 4) s 0 hn f0 hh hf0 hr0 (by omega)
    rw [← hn_def] at hstep
    obtain ⟨s1, hs1⟩ : ∃ s1 : MMU, s1 =
        { s with frames := s.frames.set hn (clearRef f0),
                 clock_hand := (((hn + 1) % n : Nat) : Int) } := ⟨_, rfl⟩
    rw [← hs1] at hstep
    have hlen1 : s1.frames.length = n := by simp [hs1, hn_def]
    have hmod : ∀ j, ((hn + 1) % n + j) % n = (hn + (j + 1)) % n := by
      intro j
      rw [Nat.mod_add_mod]
      congr 1
      omega
    have hkeep : ∀ j, 0 < j → j < n → s1.frames[(hn + j) % n]? = s.frames[(hn + j) % n]? := by
      intro j hj0 hjn
      have hne := add_mod_ne_self hn j n hj0 hjn hlt
      simp [hs1, List.getElem?_set, Ne.symm hne]
    have hback : (hn + (n - 1 + 1)) % n = hn := by
      have : n - 1 + 1 = n := by omega
      rw [this, Nat.add_mod_right, Nat.mod_eq_of_lt hlt]
    have hlt0 : hn < s.frames.length := hn_def ▸ hlt
    have hs1hn : s1.frames[hn]? = some (clearRef f0) := by
      simp [hs1, List.getElem?_set, hlt0]
    obtain ⟨fs, hrun, hlen, hin, hout⟩ :=
      clockSweep_run (n - 1) (n * 4) s1 (0 + 1) ((hn + 1) % n) (by rw [hs1])
        (by rw [hlen1]; exact Nat.mod_lt _ (by omega)) (by rw [hlen1]; omega) (by omega)
        (by rw [hlen1]; omega)
        (by
          intro j hj
          rw [hlen1, hmod j, hkeep (j + 1) (by omega) (by omega)]
          exact hall (j + 1))
        (by
          rw [hlen1, hmod (n - 1), hback]
          exact ⟨clearRef f0, hs1hn, rfl⟩)
    rw [hlen1] at hrun hlen hin hout
    have hnotP : ¬ PassedOver n ((hn + 1) % n) (n - 1) hn := by
      rintro ⟨j, hj, hje⟩
      rw [hmod j] at hje
      exact add_mod_ne_self hn (j + 1) n (by omega) (by omega) hlt hje.symm
    refine ⟨n, fs, le_refl _, fun j _ => hall j, fun h => absurd h (lt_irrefl _), ?_, hlen,
      ?_, ?_⟩
    · rw [hch, hstep, hrun, hmod (n - 1), hback]
      have e1 : ((hn + 1) % n + (n - 1) + 1) % n = (hn + n + 1) % n := by
        rw [Nat.add_assoc, hmod (n - 1 + 1)]
        congr 1
        omega
      have e2 : (hn + n) % n = hn := by
        rw [Nat.add_mod_right, Nat.mod_eq_of_lt hlt]
      rw [e1, e2, hs1]
    · intro i f hf _
      have hi : i < n := by rw [hn_def]; exact (List.getElem?_eq_some.1 hf).1
      by_cases hih : i = hn
      · subst hih
        rw [hout i hnotP, hs1hn]
        rw [hf0] at hf
        cases hf
        rfl
      · obtain ⟨j, hj, hje⟩ := rotation_surjective hn i n hlt hi
        have hj0 : j ≠ 0 := by
          rintro rfl
          rw [e0] at hje
          exact hih hje
        have hP : PassedOver n ((hn + 1) % n) (n - 1) i := by
          refine ⟨j - 1, by omega, ?_⟩
          rw [hmod (j - 1), hje]
          congr 2
          omega
        have h1 : s1.frames[i]? = some f := by
          rw [hje, hkeep j (by omega) hj, ← hje]; exact hf
        exact hin i f h1 hP
    · intro i hP
      have hP1 : ¬ PassedOver n ((hn + 1) % n) (n - 1) i := by
        rintro ⟨j, hj, rfl⟩
        exact hP ⟨j + 1, by omega, hmod j⟩
      have hne : i ≠ hn := by
        rintro rfl
        exact hP ⟨0, by omega, e0.symm⟩
      rw [hout i hP1]
      simp [hs1, List.getElem?_set, Ne.symm hne]

/-! ## Victim selection: what every policy does -/

theorem map_clearRef_eq_of_pointwise (fs gs : List FrameEntry) (n h d : Nat)
    (hlen : gs.length = fs.length)
    (hin : ∀ (i : Nat) (f : FrameEntry), fs[i]? = some f → PassedOver n h d i →
      gs[i]? = some (clearRef f))
    (hout : ∀ i : Nat, ¬ PassedOver n h d i → gs[i]? = fs[i]?) :
    gs.map clearRef = fs.map clearRef := by
  apply List.ext_getElem?
  intro i
  rw [List.getElem?_map, List.getElem?_map]
  by_cases hP : PassedOver n h d i
  · cases hf : fs[i]? with
    | none =>
      have hi : fs.length ≤ i := by
        by_contra hlt
        rw [List.getElem?_eq_getElem (by omega)] at hf
        cases hf
      rw [List.getElem?_eq_none (by omega)]
    | some f =>
      rw [hin i f hf hP]
      rfl
  · rw [hout i hP]

theorem getElem?_of_map_clearRef_eq (fs gs : List FrameEntry) (i : Nat) (f : FrameEntry)
    (h : gs.map clearRef = fs.map clearRef) (hf : fs[i]? = some f) :
    ∃ g, gs[i]? = some g ∧ g.valid = f.valid ∧ g.pageNo = f.pageNo ∧
      g.modified = f.modified ∧ g.lastAccessTime = f.lastAccessTime := by
  have h1 : (gs.map clearRef)[i]? = (fs.map clearRef)[i]? := by rw [h]
  rw [List.getElem?_map, List.getElem?_map, hf] at h1
  cases hg : gs[i]? with
  | none => rw [hg] at h1; cases h1
  | some g =>
    rw [hg] at h1
    simp only [Option.map_some', Option.some.injEq] at h1
    refine ⟨g, rfl, ?_, ?_, ?_, ?_⟩
    · exact (congrArg FrameEntry.valid h1 : (clearRef g).valid = (clearRef f).valid)
    · exact (congrArg FrameEntry.pageNo h1 : (clearRef g).pageNo = (clearRef f).pageNo)
    · exact (congrArg FrameEntry.modified h1 : (clearRef g).modified = (clearRef f).modified)
    · exact (congrArg FrameEntry.lastAccessTime h1 : (clearRef g).lastAccessTime = (clearRef f).lastAccessTime)

theorem length_eq_of_map_clearRef_eq (fs gs : List FrameEntry)
    (h : gs.map clearRef = fs.map clearRef) : gs.length = fs.length := by
  have := congrArg List.length h
  simpa using this

theorem handsInRange_nat (s : MMU) (h : HandsInRange s) :
    ∃ a b : Nat, s.fifo_hand = (a : Int) ∧ s.clock_hand = (b : Int) ∧
      a < s.frames.length ∧ b < s.frames.length := by
  obtain ⟨h1, h2, h3, h4⟩ := h
  unfold numFrames at h2 h4
  exact ⟨s.fifo_hand.toNat, s.clock_hand.toNat, by omega, by omega, by omega, by omega⟩

/-- What a victim selection does under any policy, on a table of at least one frame with
both hands inside it: an index `v` is chosen, leaving a state `s1` that differs from `s` at
most in reference bits, hands and generator; the victim record is read from frame `v`, and
the new page is loaded there. -/
theorem selectVictim_shape (rand : Nat → Nat × Nat) (s : MMU) (p : Int) (mode : repl)
    (hN : 1 ≤ s.frames.length) (hh : HandsInRange s) :
    ∃ (v : Nat) (f : FrameEntry) (s1 : MMU),
      s.frames[v]? = some f ∧
      chooseVictim rand s mode = some (s1, (v : Int)) ∧
      s1.frames.map clearRef = s.frames.map clearRef ∧
      s1.tick = s.tick ∧
      HandsInRange s1 ∧
      (mode ≠ repl.fifo → s1.fifo_hand = s.fifo_hand) ∧
      (mode ≠ repl.repl_clock → s1.clock_hand = s.clock_hand ∧ s1.frames = s.frames) ∧
      (mode ≠ repl.repl_random → s1.seed = s.seed) ∧
      selectVictim rand s p mode =
        some ({ pageNo := f.pageNo, modified := f.modified },
              { s1 with tick := tickIncr s.tick,
                        frames := s1.frames.set v (loadedFrame p (tickIncr s.tick)) }) := by
  obtain ⟨a, b, ha, hb, halt, hblt⟩ := handsInRange_nat s hh
  have hmodlt : ∀ k : Nat, ((k % s.frames.length : Nat) : Int) < numFrames s := by
    intro k
    unfold numFrames
    have := Nat.mod_lt k (show 0 < s.frames.length by omega)
    omega
  have hget : ∀ v : Nat, v < s.frames.length → ∃ f, s.frames[v]? = some f :=
    fun v hv => ⟨_, List.getElem?_eq_getElem hv⟩
  cases mode with
  | repl_random =>
    have hv := Nat.mod_lt (rand s.seed).1 (show 0 < s.frames.length by omega)
    obtain ⟨f, hf⟩ := hget _ hv
    have hc := chooseVictim_random rand s
    refine ⟨_, f, _, hf, hc, rfl, rfl, hh, fun _ => rfl, fun _ => ⟨rfl, rfl⟩,
      fun h => absurd rfl h, ?_⟩
    exact selectVictim_of_choose rand s _ p _ _ f hN hc hf
  | fifo =>
    obtain ⟨f, hf⟩ := hget a halt
    have hc := chooseVictim_fifo rand s a ha
    refine ⟨a, f, _, hf, hc, rfl, rfl, ?_, fun h => absurd rfl h, fun _ => ⟨rfl, rfl⟩,
      fun _ => rfl, ?_⟩
    · exact ⟨Int.ofNat_nonneg _, hmodlt _, hh.2.2.1, hh.2.2.2⟩
    · exact selectVictim_of_choose rand s _ p _ a f hN hc hf
  | lru =>
    obtain ⟨v, hv, hc, -⟩ := chooseVictim_lru rand s hN
    obtain ⟨f, hf⟩ := hget v hv
    refine ⟨v, f, s, hf, hc, rfl, rfl, hh, fun _ => rfl, fun _ => ⟨rfl, rfl⟩,
      fun _ => rfl, ?_⟩
    exact selectVictim_of_choose rand s s p _ v f hN hc hf
  | repl_clock =>
    obtain ⟨d, fs, -, -, -, hc, hlen, hin, hout⟩ := chooseVictim_clock rand s b hb hblt
    have hv := Nat.mod_lt (b + d) (show 0 < s.frames.length by omega)
    obtain ⟨f, hf⟩ := hget _ hv
    have hmap := map_clearRef_eq_of_pointwise s.frames fs _ _ _ hlen hin hout
    obtain ⟨g, hg, -, hgp, hgm, -⟩ := getElem?_of_map_clearRef_eq s.frames fs _ f hmap hf
    refine ⟨_, f, _, hf, hc, hmap, rfl, ?_, fun _ => rfl, fun h => absurd rfl h,
      fun _ => rfl, ?_⟩
    · refine ⟨hh.1, ?_, Int.ofNat_nonneg _, ?_⟩
      · have := hh.2.1
        unfold numFrames at this ⊢
        simpa [hlen] using this
      · have := hmodlt (b + d + 1)
        unfold numFrames at this ⊢
        simpa [hlen] using this
    · rw [selectVictim_of_choose rand s _ p _ _ g hN hc hg, hgp, hgm]

/-! ## Lookups, allocations and write marks leave the hands alone -/

theorem checkInMemory_preserves (s : MMU) (p : Int) :
    (checkInMemory s p).2.frames.length = s.frames.length ∧
    (checkInMemory s p).2.fifo_hand = s.fifo_hand ∧
    (checkInMemory s p).2.clock_hand = s.clock_hand := by
  unfold checkInMemory
  dsimp only
  split
  · split <;> simp
  · simp

theorem allocateFrame_preserves (s : MMU) (p : Int) :
    (allocateFrame s p).2.frames.length = s.frames.length ∧
    (allocateFrame s p).2.fifo_hand = s.fifo_hand ∧
    (allocateFrame s p).2.clock_hand = s.clock_hand := by
  unfold allocateFrame
  dsimp only
  split <;> simp

theorem markWritten_preserves (s : MMU) (p : Int) :
    (markWritten s p).frames.length = s.frames.length ∧
    (markWritten s p).fifo_hand = s.fifo_hand ∧
    (markWritten s p).clock_hand = s.clock_hand := by
  unfold markWritten
  dsimp only
  split
  · split <;> simp
  · simp

theorem handsInRange_of_eq (s t : MMU) (h : HandsInRange s)
    (hl : t.frames.length = s.frames.length) (hf : t.fifo_hand = s.fifo_hand)
    (hc : t.clock_hand = s.clock_hand) : HandsInRange t := by
  unfold HandsInRange numFrames at *
  rw [hl, hf, hc]
  exact h

/-! ## FIFO rotation -/

theorem selectVictim_fifo_step (rand : Nat → Nat × Nat) (s : MMU) (p : Int) (h : Nat)
    (hN : 1 ≤ s.frames.length) (hh : s.fifo_hand = (h : Int)) (hlt : h < s.frames.length) :
    ∃ f : FrameEntry, s.frames[h]? = some f ∧
      victimIndex rand s repl.fifo = some (h : Int) ∧
      selectVictim rand s p repl.fifo =
        some ({ pageNo := f.pageNo, modified := f.modified },
              { s with fifo_hand := (((h + 1) % s.frames.length : Nat) : Int),
                       tick := tickIncr s.tick,
                       frames := s.frames.set h (loadedFrame p (tickIncr s.tick)) }) := by
  have hf : s.frames[h]? = some (s.frames[h]) := List.getElem?_eq_getElem hlt
  have hc := chooseVictim_fifo rand s h hh
  have hpos : ¬ (numFrames s ≤ 0) := by
    unfold numFrames
    omega
  have hnn : ¬ ((h : Int) < 0) := by omega
  refine ⟨_, hf, ?_, ?_⟩
  · simp [victimIndex, hpos, hc, hnn]
  · rw [selectVictim_of_choose rand s _ p _ h _ hN hc hf]

theorem fifoVictims_rotation (rand : Nat → Nat × Nat) (ops : List Op) :
    ∀ (s : MMU) (h : Nat), 1 ≤ s.frames.length → s.fifo_hand = (h : Int) →
      h < s.frames.length → OnlyFifoVictims ops →
      fifoVictims rand s ops =
        some ((List.range (victimCalls ops)).map
          (fun j => (((h + j) % s.frames.length : Nat) : Int))) := by
  induction ops with
  | nil => intro s h _ _ _ _; simp [fifoVictims, victimCalls]
  | cons op ops ih =>
    intro s h hN hh hlt honly
    have honly1 : OnlyFifoVictims ops := fun o ho => honly o (List.mem_cons_of_mem _ ho)
    cases op with
    | check p =>
      obtain ⟨hl, hf, _⟩ := checkInMemory_preserves s p
      have := ih (checkInMemory s p).2 h (by rw [hl]; exact hN) (by rw [hf]; exact hh)
        (by rw [hl]; exact hlt) honly1
      simp only [fifoVictims, applyOp, victimCalls]
      rw [this, hl]
    | alloc p =>
      obtain ⟨hl, hf, _⟩ := allocateFrame_preserves s p
      have := ih (allocateFrame s p).2 h (by rw [hl]; exact hN) (by rw [hf]; exact hh)
        (by rw [hl]; exact hlt) honly1
      simp only [fifoVictims, applyOp, victimCalls]
      rw [this, hl]
    | write p =>
      obtain ⟨hl, hf, _⟩ := markWritten_preserves s p
      have := ih (markWritten s p) h (by rw [hl]; exact hN) (by rw [hf]; exact hh)
        (by rw [hl]; exact hlt) honly1
      simp only [fifoVictims, applyOp, victimCalls]
      rw [this, hl]
    | victim p mode =>
      have hmode : mode = repl.fifo := honly _ (List.mem_cons_self _ _) p mode rfl
      subst hmode
      obtain ⟨f, _, hidx, hsel⟩ := selectVictim_fifo_step rand s p h hN hh hlt
      have hpos : 0 < s.frames.length := by omega
      have := ih
        { s with fifo_hand := (((h + 1) % s.frames.length : Nat) : Int),
                 tick := tickIncr s.tick,
                 frames := s.frames.set h (loadedFrame p (tickIncr s.tick)) }
        ((h + 1) % s.frames.length) (by simpa using hN) rfl
        (by simpa using Nat.mod_lt _ hpos) honly1
      simp only [fifoVictims, applyOp, victimCalls, hsel, hidx, Option.map_some']
      rw [this]
      simp only [List.length_set, Option.map_some', Option.some.injEq]
      rw [List.range_succ_eq_map, List.map_cons, List.map_map]
      refine congrArg₂ _ (by simp [Nat.mod_eq_of_lt hlt]) ?_
      apply List.map_congr_left
      intro j _
      simp only [Function.comp]
      rw [Nat.mod_add_mod]
      congr 2
      omega

/-! ## Residency is preserved by every operation -/

theorem sameKeys_refl (fs : List FrameEntry) : SameKeys fs fs :=
  ⟨rfl, fun _ g hg => ⟨g, hg, rfl, rfl⟩⟩

theorem sameKeys_set (fs : List FrameEntry) (i : Nat) (f g : FrameEntry)
    (hf : fs[i]? = some f) (hv : f.valid = g.valid) (hp : f.pageNo = g.pageNo) :
    SameKeys fs (fs.set i g) := by
  refine ⟨by simp, ?_⟩
  intro j x hx
  rw [List.getElem?_set] at hx
  by_cases hij : i = j
  · subst hij
    rw [if_pos rfl] at hx
    split at hx
    · cases hx
      exact ⟨f, hf, hv, hp⟩
    · cases hx
  · rw [if_neg hij] at hx
    exact ⟨x, hx, rfl, rfl⟩

theorem sameKeys_of_map_clearRef_eq (fs gs : List FrameEntry)
    (h : gs.map clearRef = fs.map clearRef) : SameKeys fs gs := by
  refine ⟨length_eq_of_map_clearRef_eq fs gs h, ?_⟩
  intro i g hg
  obtain ⟨f, hf, hv, hp, -, -⟩ := getElem?_of_map_clearRef_eq gs fs i g h.symm hg
  exact ⟨f, hf, hv, hp⟩

theorem distinctPages_of_sameKeys (fs gs : List FrameEntry) (h : SameKeys fs gs)
    (hd : DistinctPages fs) : DistinctPages gs := by
  intro i j f g hf hg hfv hgv hpg
  obtain ⟨f0, hf0, hv0, hp0⟩ := h.2 i f hf
  obtain ⟨g0, hg0, hv1, hp1⟩ := h.2 j g hg
  exact hd i j f0 g0 hf0 hg0 (by rw [hv0]; exact hfv) (by rw [hv1]; exact hgv)
    (by rw [hp0, hp1]; exact hpg)

theorem not_resident_of_sameKeys (fs gs : List FrameEntry) (p : Int) (h : SameKeys fs gs)
    (hn : ∀ f ∈ fs, ¬ (f.valid = true ∧ f.pageNo = p)) :
    ∀ g ∈ gs, ¬ (g.valid = true ∧ g.pageNo = p) := by
  intro g hg hgp
  obtain ⟨i, hi⟩ := List.mem_iff_getElem?.1 hg
  obtain ⟨f, hf, hv, hp⟩ := h.2 i g hi
  exact hn f (List.getElem?_mem hf) ⟨by rw [hv]; exact hgp.1, by rw [hp]; exact hgp.2⟩

theorem distinctPages_set (fs : List FrameEntry) (v : Nat) (g : FrameEntry)
    (hd : DistinctPages fs)
    (hn : ∀ f ∈ fs, ¬ (f.valid = true ∧ f.pageNo = g.pageNo)) :
    DistinctPages (fs.set v g) := by
  intro i j x y hx hy hxv hyv hxy
  rw [List.getElem?_set] at hx hy
  by_cases hi : v = i
  · by_cases hj : v = j
    · rw [← hi, ← hj]
    · rw [if_pos hi] at hx
      rw [if_neg hj] at hy
      split at hx
      · cases hx
        exact absurd ⟨hyv, hxy.symm⟩ (hn y (List.getElem?_mem hy))
      · cases hx
  · rw [if_neg hi] at hx
    by_cases hj : v = j
    · rw [if_pos hj] at hy
      split at hy
      · cases hy
        exact absurd ⟨hxv, hxy⟩ (hn x (List.getElem?_mem hx))
      · cases hy
    · rw [if_neg hj] at hy
      exact hd i j x y hx hy hxv hyv hxy

theorem checkInMemory_sameKeys (s : MMU) (p : Int) :
    SameKeys s.frames (checkInMemory s p).2.frames := by
  unfold checkInMemory
  dsimp only
  split
  · split
    · rename_i f hf
      exact sameKeys_set s.frames _ f _ hf rfl rfl
    · exact sameKeys_refl _
  · exact sameKeys_refl _

theorem markWritten_sameKeys (s : MMU) (p : Int) :
    SameKeys s.frames (markWritten s p).frames := by
  unfold markWritten
  dsimp only
  split
  · split
    · rename_i f hf
      exact sameKeys_set s.frames _ f _ hf rfl rfl
    · exact sameKeys_refl _
  · exact sameKeys_refl _

theorem allocateFrame_distinct (s : MMU) (p : Int) (hd : DistinctPages s.frames)
    (hn : ∀ f ∈ s.frames, ¬ (f.valid = true ∧ f.pageNo = p)) :
    DistinctPages (allocateFrame s p).2.frames := by
  unfold allocateFrame
  dsimp only
  split
  · exact hd
  · exact distinctPages_set s.frames _ (loadedFrame p _) hd hn

theorem selectVictim_of_empty (rand : Nat → Nat × Nat) (s : MMU) (p : Int) (mode : repl)
    (h : s.frames.length = 0) :
    selectVictim rand s p mode = some ({ pageNo := 0, modified := false }, s) := by
  simp [selectVictim, numFrames, h]

/-! ## Sequences of engine calls -/

theorem engineInv_createMMU (n : Nat) (s0 : MMU) :
    EngineInv n (createMMU true (n : Int) s0).2 := by
  refine ⟨by simp [createMMU], ?_⟩
  intro hn
  simp only [HandsInRange, numFrames, createMMU]
  simp
  omega

theorem distinctPages_createMMU (n : Int) (s0 : MMU) :
    DistinctPages (createMMU true n s0).2.frames := by
  intro i j f g hf _ hfv _ _
  simp only [createMMU, Bool.not_true, Bool.false_eq_true, if_false,
    List.getElem?_replicate] at hf
  split at hf
  · cases hf
    cases hfv
  · cases hf

theorem applyOp_engineInv (rand : Nat → Nat × Nat) (n : Nat) (s : MMU) (op : Op)
    (h : EngineInv n s) :
    ∃ s1, applyOp rand s op = some s1 ∧ EngineInv n s1 ∧
      ((match op with
          | Op.alloc p => findFrameByPage s p = -1
          | Op.victim p _ => findFrameByPage s p = -1
          | _ => True) →
        DistinctPages s.frames → DistinctPages s1.frames) := by
  obtain ⟨hlen, hhands⟩ := h
  cases op with
  | check p =>
    obtain ⟨hl, hf, hc⟩ := checkInMemory_preserves s p
    refine ⟨_, rfl, ⟨by rw [hl, hlen], fun hn => handsInRange_of_eq s _ (hhands hn) hl hf hc⟩,
      fun _ hd => distinctPages_of_sameKeys _ _ (checkInMemory_sameKeys s p) hd⟩
  | alloc p =>
    obtain ⟨hl, hf, hc⟩ := allocateFrame_preserves s p
    refine ⟨_, rfl, ⟨by rw [hl, hlen], fun hn => handsInRange_of_eq s _ (hhands hn) hl hf hc⟩,
      fun hg hd => allocateFrame_distinct s p hd ((findFrameByPage_eq_neg_one_iff s p).1 hg)⟩
  | write p =>
    obtain ⟨hl, hf, hc⟩ := markWritten_preserves s p
    refine ⟨_, rfl, ⟨by rw [hl, hlen], fun hn => handsInRange_of_eq s _ (hhands hn) hl hf hc⟩,
      fun _ hd => distinctPages_of_sameKeys _ _ (markWritten_sameKeys s p) hd⟩
  | victim p mode =>
    by_cases hn : 1 ≤ n
    · obtain ⟨v, f, s1, _, _, hmap, _, hh1, _, _, _, hsel⟩ :=
        selectVictim_shape rand s p mode (by omega) (hhands hn)
      have hkeys := sameKeys_of_map_clearRef_eq s.frames s1.frames hmap
      refine ⟨{ s1 with tick := tickIncr s.tick,
                        frames := s1.frames.set v (loadedFrame p (tickIncr s.tick)) },
        by simp [applyOp, hsel], ⟨?_, fun _ => ?_⟩, ?_⟩
      · simp [hkeys.1, hlen]
      · exact handsInRange_of_eq s1 _ hh1 (by simp) rfl rfl
      · intro hg hd
        have hnot := (findFrameByPage_eq_neg_one_iff s p).1 hg
        exact distinctPages_set s1.frames v (loadedFrame p _)
          (distinctPages_of_sameKeys _ _ hkeys hd)
          (not_resident_of_sameKeys _ _ p hkeys hnot)
    · have h0 : s.frames.length = 0 := by omega
      refine ⟨s, by simp [applyOp, selectVictim_of_empty rand s p mode h0],
        ⟨hlen, hhands⟩, fun _ hd => hd⟩

theorem runOps_engineInv (rand : Nat → Nat × Nat) (n : Nat) (ops : List Op) :
    ∀ s : MMU, EngineInv n s →
      ∃ s1, runOps rand s ops = some s1 ∧ EngineInv n s1 ∧
        (missGuarded rand s ops = true → DistinctPages s.frames → DistinctPages s1.frames) := by
  induction ops with
  | nil => intro s h; exact ⟨s, rfl, h, fun _ hd => hd⟩
  | cons op ops ih =>
    intro s h
    obtain ⟨s1, h1, hinv1, hd1⟩ := applyOp_engineInv rand n s op h
    obtain ⟨s2, h2, hinv2, hd2⟩ := ih s1 hinv1
    refine ⟨s2, by simp [runOps, h1, h2], hinv2, ?_⟩
    intro hg hd
    simp only [missGuarded, h1, Bool.and_eq_true] at hg
    refine hd2 hg.2 (hd1 ?_ hd)
    cases op <;> simp_all

/-! ## The trace loop: residency and dirty tracking -/

theorem sameCore_refl (fs : List FrameEntry) : SameCore fs fs :=
  ⟨rfl, fun _ g hg => ⟨g, hg, rfl, rfl, rfl⟩⟩

theorem sameCore_trans (fs gs hs : List FrameEntry) (h1 : SameCore fs gs)
    (h2 : SameCore gs hs) : SameCore fs hs := by
  refine ⟨by rw [h2.1, h1.1], ?_⟩
  intro i x hx
  obtain ⟨g, hg, a1, a2, a3⟩ := h2.2 i x hx
  obtain ⟨f, hf, b1, b2, b3⟩ := h1.2 i g hg
  exact ⟨f, hf, by rw [b1, a1], by rw [b2, a2], by rw [b3, a3]⟩

theorem sameKeys_of_sameCore (fs gs : List FrameEntry) (h : SameCore fs gs) :
    SameKeys fs gs :=
  ⟨h.1, fun i g hg => by
    obtain ⟨f, hf, a1, a2, -⟩ := h.2 i g hg
    exact ⟨f, hf, a1, a2⟩⟩

theorem sameCore_set (fs : List FrameEntry) (i : Nat) (f g : FrameEntry)
    (hf : fs[i]? = some f) (hv : f.valid = g.valid) (hp : f.pageNo = g.pageNo)
    (hm : f.modified = g.modified) : SameCore fs (fs.set i g) := by
  refine ⟨by simp, ?_⟩
  intro j x hx
  rw [List.getElem?_set] at hx
  by_cases hij : i = j
  · subst hij
    rw [if_pos rfl] at hx
    split at hx
    · cases hx
      exact ⟨f, hf, hv, hp, hm⟩
    · cases hx
  · rw [if_neg hij] at hx
    exact ⟨x, hx, rfl, rfl, rfl⟩

theorem sameCore_of_map_clearRef_eq (fs gs : List FrameEntry)
    (h : gs.map clearRef = fs.map clearRef) : SameCore fs gs := by
  refine ⟨length_eq_of_map_clearRef_eq fs gs h, ?_⟩
  intro i g hg
  obtain ⟨f, hf, hv, hp, hm, -⟩ := getElem?_of_map_clearRef_eq gs fs i g h.symm hg
  exact ⟨f, hf, hv, hp, hm⟩

theorem checkInMemory_sameCore (s : MMU) (p : Int) :
    SameCore s.frames (checkInMemory s p).2.frames := by
  unfold checkInMemory
  dsimp only
  split
  · split
    · rename_i f hf
      exact sameCore_set s.frames _ f _ hf rfl rfl rfl
    · exact sameCore_refl _
  · exact sameCore_refl _

theorem validPrefix_of_sameKeys (fs gs : List FrameEntry) (a : Int) (h : SameKeys fs gs)
    (hv : ValidPrefix fs a) : ValidPrefix gs a := by
  intro i g hg
  obtain ⟨f, hf, h1, -⟩ := h.2 i g hg
  rw [← h1]
  exact hv i f hf

theorem findFrameByPage_eq_of_distinct (s : MMU) (p : Int) (v : Nat) (f : FrameEntry)
    (hd : DistinctPages s.frames) (hf : s.frames[v]? = some f) (hv : f.valid = true)
    (hp : f.pageNo = p) : findFrameByPage s p = (v : Int) := by
  obtain ⟨i, g, hi, hg, hgv, hgp, -⟩ :=
    findFrameByPage_found s p ⟨f, List.getElem?_mem hf, hv, hp⟩
  have := hd i v g f hg hf hgv hv (by rw [hgp, hp])
  rw [hi, this]

/-- The write marking on a table without duplicates: the frame holding the page gets
`modified`, every other flag of the residency is kept. -/
theorem markWritten_effect (s : MMU) (p : Int) (hd : DistinctPages s.frames) :
    (markWritten s p).frames.length = s.frames.length ∧
    ∀ (i : Nat) (g : FrameEntry), (markWritten s p).frames[i]? = some g →
      ∃ f, s.frames[i]? = some f ∧ f.valid = g.valid ∧ f.pageNo = g.pageNo ∧
        g.modified = (f.modified || (f.valid && decide (f.pageNo = p))) := by
  by_cases hres : ∃ f ∈ s.frames, f.valid = true ∧ f.pageNo = p
  · obtain ⟨k, f, hk, hf, hfv, hfp, -⟩ := findFrameByPage_found s p hres
    rw [markWritten_of_found s p k f hk hf]
    refine ⟨by simp, ?_⟩
    intro i g hg
    simp only [List.getElem?_set] at hg
    by_cases hki : k = i
    · subst hki
      rw [if_pos rfl] at hg
      split at hg
      · cases hg
        exact ⟨f, hf, rfl, rfl, by simp [hfv, hfp]⟩
      · cases hg
    · rw [if_neg hki] at hg
      refine ⟨g, hg, rfl, rfl, ?_⟩
      have hne : ¬ (g.valid = true ∧ g.pageNo = p) := by
        rintro ⟨h1, h2⟩
        exact hki (hd k i f g hf hg hfv h1 (by rw [hfp, h2]))
      by_cases h1 : g.valid = true
      · have h2 : ¬ g.pageNo = p := fun h2 => hne ⟨h1, h2⟩
        simp [h2]
      · simp [h1]
  · have hmiss : findFrameByPage s p = -1 := by
      rw [findFrameByPage_eq_neg_one_iff]
      intro f hf hfp
      exact hres ⟨f, hf, hfp⟩
    rw [markWritten_of_miss s p hmiss]
    refine ⟨rfl, ?_⟩
    intro i g hg
    refine ⟨g, hg, rfl, rfl, ?_⟩
    have hne : ¬ (g.valid = true ∧ g.pageNo = p) :=
      fun h => hres ⟨g, List.getElem?_mem hg, h⟩
    by_cases h1 : g.valid = true
    · have h2 : ¬ g.pageNo = p := fun h2 => hne ⟨h1, h2⟩
      simp [h2]
    · simp [h1]

theorem settled_of_hit (d : Driver) (q : Int) (rlog : List Handled) (h : DriverInv d rlog) :
    Settled { d with mmu := (checkInMemory d.mmu q).2 } q false rlog := by
  obtain ⟨hN, hh, ha0, haN, hvp, hd, hdt⟩ := h
  have hsc := checkInMemory_sameCore d.mmu q
  have hsk := sameKeys_of_sameCore _ _ hsc
  obtain ⟨hl, hf, hc⟩ := checkInMemory_preserves d.mmu q
  refine ⟨by rw [hl]; exact hN, handsInRange_of_eq d.mmu _ hh hl hf hc, ha0, ?_,
    validPrefix_of_sameKeys _ _ _ hsk hvp, distinctPages_of_sameKeys _ _ hsk hd, ?_⟩
  · show d.allocated ≤ numFrames (checkInMemory d.mmu q).2
    unfold numFrames at haN ⊢
    rw [hl]
    exact haN
  · intro i g hg hgv
    obtain ⟨f, hf, h1, h2, h3⟩ := hsc.2 i g hg
    have := hdt i f hf (by rw [h1]; exact hgv)
    rw [← h3, this, h2]
    by_cases hq : g.pageNo = q
    · simp [hq]
    · simp [hq]

theorem settled_of_install (d : Driver) (s1 : MMU) (a : Int) (q : Int) (v : Nat) (t : Nat)
    (rlog : List Handled)
    (hN : 1 ≤ d.mmu.frames.length) (hh1 : HandsInRange s1)
    (hsc : SameCore d.mmu.frames s1.frames)
    (ha0 : 0 ≤ a) (haN : a ≤ numFrames d.mmu)
    (hvp : ValidPrefix (s1.frames.set v (loadedFrame q t)) a)
    (hd : DistinctPages d.mmu.frames) (hdt : DirtyTracks d.mmu.frames rlog)
    (hmiss : ∀ f ∈ d.mmu.frames, ¬ (f.valid = true ∧ f.pageNo = q)) :
    Settled
      { d with mmu := { s1 with tick := t, frames := s1.frames.set v (loadedFrame q t) },
               allocated := a } q true rlog := by
  have hsk := sameKeys_of_sameCore _ _ hsc
  refine ⟨by simp [hsc.1]; exact hN, handsInRange_of_eq s1 _ hh1 (by simp) rfl rfl, ha0, ?_,
    hvp, ?_, ?_⟩
  · show a ≤ numFrames _
    unfold numFrames at haN ⊢
    simp only [List.length_set, hsc.1]
    exact haN
  · exact distinctPages_set s1.frames v (loadedFrame q t)
      (distinctPages_of_sameKeys _ _ hsk hd) (not_resident_of_sameKeys _ _ q hsk hmiss)
  · intro i g hg hgv
    simp only [List.getElem?_set] at hg
    by_cases hvi : v = i
    · rw [if_pos hvi] at hg
      split at hg
      · cases hg
        simp [loadedFrame]
      · cases hg
    · rw [if_neg hvi] at hg
      obtain ⟨f, hf, h1, h2, h3⟩ := hsc.2 i g hg
      have hfv : f.valid = true := by rw [h1]; exact hgv
      have hne : ¬ g.pageNo = q := by
        intro hq
        exact hmiss f (List.getElem?_mem hf) ⟨hfv, by rw [h2]; exact hq⟩
      rw [if_neg hne, ← h3, hdt i f hf hfv, h2]

theorem settled_sameCore (d : Driver) (m : MMU) (q : Int) (fault : Bool)
    (rlog : List Handled) (h : Settled d q fault rlog) (hsc : SameCore d.mmu.frames m.frames)
    (hf : m.fifo_hand = d.mmu.fifo_hand) (hc : m.clock_hand = d.mmu.clock_hand) :
    Settled { d with mmu := m } q fault rlog := by
  obtain ⟨hN, hh, ha0, haN, hvp, hd, hdt⟩ := h
  have hsk := sameKeys_of_sameCore _ _ hsc
  refine ⟨by show 1 ≤ m.frames.length; rw [hsc.1]; exact hN,
    handsInRange_of_eq d.mmu m hh hsc.1 hf hc, ha0, ?_,
    validPrefix_of_sameKeys _ _ _ hsk hvp, distinctPages_of_sameKeys _ _ hsk hd, ?_⟩
  · show d.allocated ≤ numFrames m
    unfold numFrames at haN ⊢
    rw [hsc.1]
    exact haN
  · intro i g hg hgv
    obtain ⟨f, hf, h1, h2, h3⟩ := hsc.2 i g hg
    have := hdt i f hf (by rw [h1]; exact hgv)
    rw [← h3, this, h2]

theorem settled_congr (d1 d2 : Driver) (q : Int) (fault : Bool) (rlog : List Handled)
    (hm : d2.mmu = d1.mmu) (ha : d2.allocated = d1.allocated)
    (h : Settled d1 q fault rlog) : Settled d2 q fault rlog := by
  unfold Settled at *
  rw [hm, ha]
  exact h

theorem faultStep_settled (rand : Nat → Nat × Nat) (replace : repl) (d : Driver) (q : Int)
    (rlog : List Handled) (h : DriverInv d rlog) (hmiss : findFrameByPage d.mmu q = -1) :
    ∃ (v : Option page) (d1 : Driver),
      faultStep rand replace d q = some (v, d1) ∧ Settled d1 q true rlog ∧
      ∀ w, v = some w → w.modified = writtenSinceLoad w.pageNo rlog := by
  obtain ⟨hN, hh, ha0, haN, hvp, hd, hdt⟩ := h
  have hnot := (findFrameByPage_eq_neg_one_iff d.mmu q).1 hmiss
  by_cases hroom : d.allocated < numFrames d.mmu
  · obtain ⟨a, ha⟩ : ∃ a : Nat, d.allocated = (a : Int) := ⟨d.allocated.toNat, by omega⟩
    have halt : a < d.mmu.frames.length := by
      unfold numFrames at hroom
      omega
    have hfa : d.mmu.frames[a]? = some (d.mmu.frames[a]) := List.getElem?_eq_getElem halt
    have hinv : (d.mmu.frames[a]).valid = false := by
      have := (hvp a _ hfa).not
      simpa [ha] using this
    obtain ⟨i, f, hi, hf, hfv, hlow⟩ :=
      findFreeFrame_found d.mmu ⟨_, List.getElem?_mem hfa, hinv⟩
    have hia : i = a := by
      have h1 : ¬ ((i : Int) < d.allocated) := by
        rw [← hvp i f hf, hfv]
        simp
      by_contra hne
      have h2 : a < i := by omega
      have h3 := hlow a _ h2 hfa
      rw [hinv] at h3
      cases h3
    subst hia
    refine ⟨none,
      { d with mmu := (allocateFrame d.mmu q).2, allocated := d.allocated + 1,
               disk_reads := d.disk_reads + 1 },
      by simp [faultStep, hroom], ?_, fun w hw => by cases hw⟩
    refine settled_congr
      { d with mmu := { d.mmu with tick := tickIncr d.mmu.tick,
                                   frames := d.mmu.frames.set i
                                     (loadedFrame q (tickIncr d.mmu.tick)) },
               allocated := d.allocated + 1 } _ q true rlog
      (by simp [allocateFrame_of_found d.mmu q i hi]) rfl ?_
    refine settled_of_install d d.mmu (d.allocated + 1) q i _ rlog hN hh (sameCore_refl _)
      (by omega) (by omega) ?_ hd hdt hnot
    intro j g hg
    simp only [List.getElem?_set] at hg
    by_cases hij : i = j
    · rw [if_pos hij, if_pos halt] at hg
      cases hg
      simp only [loadedFrame, true_iff]
      omega
    · rw [if_neg hij] at hg
      rw [hvp j g hg]
      omega
  · have hfull : d.allocated = numFrames d.mmu := by omega
    obtain ⟨v, f, s1, hf, _, hmap, _, hh1, _, _, _, hsel⟩ :=
      selectVictim_shape rand d.mmu q replace hN hh
    have hsc := sameCore_of_map_clearRef_eq d.mmu.frames s1.frames hmap
    have hfv : f.valid = true := by
      rw [hvp v f hf, hfull]
      unfold numFrames
      have := (List.getElem?_eq_some.1 hf).1
      omega
    refine ⟨some { pageNo := f.pageNo, modified := f.modified },
      { d with
          mmu := (checkInMemory
            { s1 with tick := tickIncr d.mmu.tick,
                      frames := s1.frames.set v (loadedFrame q (tickIncr d.mmu.tick)) } q).2,
          disk_reads := d.disk_reads + 1,
          disk_writes := if f.modified then d.disk_writes + 1 else d.disk_writes },
      by simp [faultStep, hroom, hsel], ?_, ?_⟩
    · have hmid := settled_of_install d s1 d.allocated q v (tickIncr d.mmu.tick) rlog hN hh1
        hsc ha0 haN ?_ hd hdt hnot
      · obtain ⟨hl, hfh, hch⟩ := checkInMemory_preserves
          { s1 with tick := tickIncr d.mmu.tick,
                    frames := s1.frames.set v (loadedFrame q (tickIncr d.mmu.tick)) } q
        have := settled_sameCore _ _ q true rlog hmid (checkInMemory_sameCore _ q) hfh hch
        exact settled_congr _ _ q true rlog rfl rfl this
      · intro j g hg
        have hj : j < d.mmu.frames.length := by
          have := (List.getElem?_eq_some.1 hg).1
          simpa [hsc.1] using this
        have hjlt : (j : Int) < d.allocated := by
          rw [hfull]
          unfold numFrames
          omega
        simp only [List.getElem?_set] at hg
        by_cases hvj : v = j
        · rw [if_pos hvj] at hg
          split at hg
          · cases hg
            simp [loadedFrame, hjlt]
          · cases hg
        · rw [if_neg hvj] at hg
          obtain ⟨f0, hf0, h1, -, -⟩ := hsc.2 j g hg
          rw [← h1]
          exact hvp j f0 hf0
    · intro w hw
      cases hw
      exact hdt v f hf hfv

theorem driverInv_of_settled (d1 d2 : Driver) (q : Int) (c : Char) (fault : Bool)
    (v : Option page) (rlog : List Handled) (h : Settled d1 q fault rlog)
    (ha : d2.allocated = d1.allocated)
    (hm : (c = 'R' ∧ d2.mmu = d1.mmu) ∨ (c = 'W' ∧ d2.mmu = markWritten d1.mmu q)) :
    DriverInv d2 ({ page_number := q, rw := c, fault := fault, victim := v } :: rlog) := by
  obtain ⟨hN, hh, ha0, haN, hvp, hd, hdt⟩ := h
  rcases hm with ⟨hc, hm⟩ | ⟨hc, hm⟩
  · unfold DriverInv
    rw [hm, ha]
    refine ⟨hN, hh, ha0, haN, hvp, hd, ?_⟩
    intro i g hg hgv
    rw [hdt i g hg hgv]
    subst hc
    by_cases hq : g.pageNo = q
    · simp [writtenSinceLoad, hq]
    · have hq1 : ¬ q = g.pageNo := fun h => hq h.symm
      simp [writtenSinceLoad, hq, hq1]
  · obtain ⟨hl, hfh, hch⟩ := markWritten_preserves d1.mmu q
    obtain ⟨-, heff⟩ := markWritten_effect d1.mmu q hd
    have hsk : SameKeys d1.mmu.frames (markWritten d1.mmu q).frames :=
      markWritten_sameKeys d1.mmu q
    unfold DriverInv
    rw [hm, ha]
    refine ⟨by rw [hl]; exact hN, handsInRange_of_eq d1.mmu _ hh hl hfh hch, ha0, ?_,
      validPrefix_of_sameKeys _ _ _ hsk hvp, distinctPages_of_sameKeys _ _ hsk hd, ?_⟩
    · unfold numFrames at haN ⊢
      rw [hl]
      exact haN
    · intro i g hg hgv
      obtain ⟨f, hf, h1, h2, h3⟩ := heff i g hg
      have hfv : f.valid = true := by rw [h1]; exact hgv
      rw [h3, hdt i f hf hfv, ← h2]
      subst hc
      by_cases hq : f.pageNo = q
      · simp [writtenSinceLoad, hq, hfv]
      · have hq1 : ¬ q = f.pageNo := fun h => hq h.symm
        simp [writtenSinceLoad, hq, hq1]

theorem mainStep_inv (rand : Nat → Nat × Nat) (replace : repl) (d : Driver) (e : Event)
    (rlog : List Handled) (h : DriverInv d rlog) (hrw : e.rw = 'R' ∨ e.rw = 'W') :
    ∃ (hd : Handled) (d1 : Driver),
      mainStep rand replace d e = some (hd, d1) ∧ DriverInv d1 (hd :: rlog) ∧
      hd.page_number = ((e.address >>> pageoffset : Nat) : Int) ∧ hd.rw = e.rw ∧
      ∀ w, hd.victim = some w → w.modified = writtenSinceLoad w.pageNo rlog := by
  obtain ⟨q, hq⟩ : ∃ q : Int, q = ((e.address >>> pageoffset : Nat) : Int) := ⟨_, rfl⟩
  have hfin : ∀ (v : Option page) (d1 : Driver) (fault : Bool), Settled d1 q fault rlog →
      ∃ d2,
        (if e.rw == 'R' then
            some (({ page_number := q, rw := e.rw, fault := fault, victim := v } : Handled),
                  { d1 with no_events := d1.no_events + 1 })
          else if e.rw == 'W' then
            some ({ page_number := q, rw := e.rw, fault := fault, victim := v },
                  { d1 with mmu := markWritten d1.mmu q, no_events := d1.no_events + 1 })
          else none) =
          some ({ page_number := q, rw := e.rw, fault := fault, victim := v }, d2) ∧
        DriverInv d2 ({ page_number := q, rw := e.rw, fault := fault, victim := v } :: rlog) := by
    intro v d1 fault hs
    rcases hrw with hc | hc
    · refine ⟨{ d1 with no_events := d1.no_events + 1 }, by simp [hc], ?_⟩
      exact driverInv_of_settled d1 _ q e.rw fault v rlog hs rfl (Or.inl ⟨hc, rfl⟩)
    · refine ⟨{ d1 with mmu := markWritten d1.mmu q, no_events := d1.no_events + 1 },
        by simp [hc], ?_⟩
      exact driverInv_of_settled d1 _ q e.rw fault v rlog hs rfl (Or.inr ⟨hc, rfl⟩)
  by_cases hmiss : findFrameByPage d.mmu q = -1
  · obtain ⟨v, d1, hfs, hset, hvic⟩ := faultStep_settled rand replace d q rlog h hmiss
    obtain ⟨d2, hd2, hinv2⟩ := hfin v d1 true hset
    refine ⟨{ page_number := q, rw := e.rw, fault := true, victim := v }, d2, ?_, hinv2, hq,
      rfl, hvic⟩
    have hd_eta : ({ d with mmu := d.mmu } : Driver) = d := rfl
    simp only [mainStep, ← hq, checkInMemory_of_miss d.mmu q hmiss, beq_self_eq_true,
      if_true, hd_eta, hfs]
    exact hd2
  · have hres : ∃ f ∈ d.mmu.frames, f.valid = true ∧ f.pageNo = q := by
      by_contra hno
      apply hmiss
      rw [findFrameByPage_eq_neg_one_iff]
      intro f hf hfp
      exact hno ⟨f, hf, hfp⟩
    obtain ⟨i, f, hi, hf, -⟩ := findFrameByPage_found d.mmu q hres
    have hset := settled_of_hit d q rlog h
    obtain ⟨d2, hd2, hinv2⟩ := hfin none _ false hset
    have hidx : (checkInMemory d.mmu q).1 = (i : Int) := by
      rw [checkInMemory_of_found d.mmu q i f hi hf]
    have hne : ((checkInMemory d.mmu q).1 == -1) = false := by
      rw [hidx]
      exact beq_false_of_ne (by omega)
    refine ⟨{ page_number := q, rw := e.rw, fault := false, victim := none }, d2, ?_, hinv2,
      hq, rfl, fun w hw => by cases hw⟩
    simp only [mainStep, ← hq, hne, Bool.false_eq_true, if_false]
    exact hd2

theorem mainLoop_inv (rand : Nat → Nat × Nat) (replace : repl) (evs : List Event) :
    ∀ (d : Driver) (rlog : List Handled), DriverInv d rlog →
      (∀ e ∈ evs, e.rw = 'R' ∨ e.rw = 'W') →
      ∃ (log : List Handled) (d1 : Driver),
        mainLoop rand replace d evs = some (log, d1) ∧
        DriverInv d1 (log.reverse ++ rlog) ∧
        log.map (fun h => (h.page_number, h.rw)) =
          evs.map (fun e => (((e.address >>> pageoffset : Nat) : Int), e.rw)) ∧
        ∀ (pre suf : List Handled) (h : Handled) (w : page),
          log = pre ++ h :: suf → h.victim = some w →
          w.modified = writtenSinceLoad w.pageNo (pre.reverse ++ rlog) := by
  induction evs with
  | nil =>
    intro d rlog hinv _
    refine ⟨[], d, rfl, by simpa using hinv, rfl, ?_⟩
    intro pre suf h w hlog
    simp at hlog
  | cons e es ih =>
    intro d rlog hinv hrw
    obtain ⟨hd, d1, hstep, hinv1, hpg, hc, hvic⟩ :=
      mainStep_inv rand replace d e rlog hinv (hrw e (List.mem_cons_self _ _))
    obtain ⟨log, d2, hloop, hinv2, hmap, hrest⟩ :=
      ih d1 (hd :: rlog) hinv1 (fun x hx => hrw x (List.mem_cons_of_mem _ hx))
    refine ⟨hd :: log, d2, by simp [mainLoop, hstep, hloop], ?_, ?_, ?_⟩
    · simpa using hinv2
    · simp [hmap, hpg, hc]
    · intro pre suf h w hlog hw
      cases pre with
      | nil =>
        simp only [List.nil_append, List.cons.injEq] at hlog
        obtain ⟨rfl, -⟩ := hlog
        simpa using hvic w hw
      | cons x pre =>
        simp only [List.cons_append, List.cons.injEq] at hlog
        obtain ⟨rfl, hlog⟩ := hlog
        have := hrest pre suf h w hlog hw
        simpa using this

theorem writtenSinceLoad_iff (q : Int) (rl : List Handled) :
    writtenSinceLoad q rl = true ↔
      ∃ (p1 p2 : List Handled) (w : Handled), rl.reverse = p1 ++ w :: p2 ∧
        w.page_number = q ∧ w.rw = 'W' ∧
        ∀ x ∈ p2, ¬ (x.page_number = q ∧ x.fault = true) := by
  induction rl with
  | nil => simp [writtenSinceLoad]
  | cons h rest ih =>
    constructor
    · intro hw
      by_cases hq : h.page_number = q
      · by_cases hc : h.rw = 'W'
        · exact ⟨rest.reverse, [], h, by simp, hq, hc, by simp⟩
        · simp only [writtenSinceLoad, if_pos hq, Bool.or_eq_true, beq_iff_eq, hc, false_or,
            Bool.and_eq_true, Bool.not_eq_true'] at hw
          obtain ⟨p1, p2, w, hrev, hwq, hwc, hp2⟩ := ih.1 hw.2
          refine ⟨p1, p2 ++ [h], w, by simp [hrev], hwq, hwc, ?_⟩
          intro x hx
          rcases List.mem_append.1 hx with hx | hx
          · exact hp2 x hx
          · simp only [List.mem_singleton] at hx
            subst hx
            simp [hw.1]
      · simp only [writtenSinceLoad, if_neg hq] at hw
        obtain ⟨p1, p2, w, hrev, hwq, hwc, hp2⟩ := ih.1 hw
        refine ⟨p1, p2 ++ [h], w, by simp [hrev], hwq, hwc, ?_⟩
        intro x hx
        rcases List.mem_append.1 hx with hx | hx
        · exact hp2 x hx
        · simp only [List.mem_singleton] at hx
          subst hx
          simp [hq]
    · rintro ⟨p1, p2, w, hrev, hwq, hwc, hp2⟩
      rw [List.reverse_cons] at hrev
      rcases List.eq_nil_or_concat p2 with rfl | ⟨p2', b, rfl⟩
      · have hlen := List.append_inj' (hrev.trans (by simp : p1 ++ [w] = p1 ++ [w])) rfl
        have hwh : h = w := by simpa using hlen.2
        subst hwh
        simp [writtenSinceLoad, hwq, hwc]
      · rw [List.concat_eq_append] at hrev hp2
        have hrev' : rest.reverse ++ [h] = (p1 ++ w :: p2') ++ [b] := by
          rw [hrev]; simp
        have hlen := List.append_inj' hrev' rfl
        have hbh : h = b := by simpa using hlen.2
        subst hbh
        have hrest : writtenSinceLoad q rest = true :=
          ih.2 ⟨p1, p2', w, hlen.1, hwq, hwc,
            fun x hx => hp2 x (List.mem_append.2 (Or.inl hx))⟩
        have hh := hp2 h (List.mem_append.2 (Or.inr (List.mem_singleton.2 rfl)))
        by_cases hq : h.page_number = q
        · have hf : h.fault = false := by
            cases hfault : h.fault with
            | false => rfl
            | true => exact absurd ⟨hq, hfault⟩ hh
          simp [writtenSinceLoad, hq, hf, hrest]
        · simp [writtenSinceLoad, hq, hrest]

theorem driverInv_mainInit (n : Nat) (hn : 1 ≤ n) (s0 : MMU) :
    DriverInv (mainInit (n : Int) s0) [] := by
  have hinv := engineInv_createMMU n s0
  refine ⟨?_, hinv.2 hn, le_refl _, ?_, ?_, distinctPages_createMMU _ s0, ?_⟩
  · show 1 ≤ (createMMU true (n : Int) s0).2.frames.length
    rw [hinv.1]
    exact hn
  · show (0 : Int) ≤ numFrames (createMMU true (n : Int) s0).2
    unfold numFrames
    omega
  · intro i f hf
    have hf1 : (createMMU true (n : Int) s0).2.frames[i]? = some f := hf
    simp only [createMMU, Bool.not_true, Bool.false_eq_true, if_false,
      List.getElem?_replicate] at hf1
    split at hf1
    · cases hf1
      simp [mainInit]
    · cases hf1
  · intro i f hf hfv
    have hf1 : (createMMU true (n : Int) s0).2.frames[i]? = some f := hf
    simp only [createMMU, Bool.not_true, Bool.false_eq_true, if_false,
      List.getElem?_replicate] at hf1
    split at hf1
    · cases hf1
      cases hfv
    · cases hf1

/-! ## The clock sweep: what it visits and when it stops -/

theorem clockSweepReport_erase (fuel : Nat) : ∀ (s : MMU) (scans : Int),
    (clockSweepReport fuel s scans).map (fun r => (r.state, r.victim_index)) =
      clockSweep fuel s scans := by
  induction fuel with
  | zero => intro s scans; rfl
  | succ fuel ih =>
    intro s scans
    simp only [clockSweepReport, clockSweep]
    cases hf : frameAt s.frames s.clock_hand with
    | none => rfl
    | some f =>
      simp only
      split
      · rfl
      · split
        · rfl
        · rw [← ih]
          simp only [Option.map_map]
          rfl

theorem refCount_le_length (fs : List FrameEntry) : refCount fs ≤ fs.length :=
  List.length_filter_le _ _

theorem refCount_set_clearRef (fs : List FrameEntry) : ∀ (i : Nat) (f : FrameEntry),
    fs[i]? = some f → f.referenceBit = true →
    refCount (fs.set i (clearRef f)) + 1 = refCount fs := by
  induction fs with
  | nil => intro i f hf; simp at hf
  | cons a as ih =>
    intro i f hf hr
    cases i with
    | zero =>
      simp only [List.getElem?_cons_zero, Option.some.injEq] at hf
      subst hf
      simp [refCount, List.filter_cons, hr, clearRef]
    | succ i =>
      simp only [List.getElem?_cons_succ] at hf
      have := ih i f hf hr
      simp only [refCount, List.set_cons_succ, List.filter_cons] at this ⊢
      by_cases ha : a.referenceBit = true
      · simp only [ha, if_true, List.length_cons]
        omega
      · simp only [ha, Bool.false_eq_true, if_false]
        exact this

/-- The clock loop on a table with the hand inside it, entered with `scans` low enough:
it leaves through the normal `break`, never the forced one, after reading at most one
frame more than there are reference bits set, every index read being inside the table. -/
theorem clockSweepReport_spec (fuel : Nat) : ∀ (s : MMU) (sc hn : Nat),
    s.clock_hand = (hn : Int) → hn < s.frames.length → refCount s.frames < fuel →
    sc + refCount s.frames ≤ s.frames.length * 4 →
    ∃ r : SweepReport, clockSweepReport fuel s (sc : Int) = some r ∧ r.forced = false ∧
      r.visited.length ≤ refCount s.frames + 1 ∧
      r.scans + 1 = (sc : Int) + r.visited.length ∧
      (∀ i ∈ r.visited, 0 ≤ i ∧ i < (s.frames.length : Int)) ∧
      r.victim_index ∈ r.visited ∧
      refCount r.state.frames + r.visited.length = refCount s.frames + 1 := by
  induction fuel with
  | zero => intro s sc hn _ _ hfuel; omega
  | succ fuel ih =>
    intro s sc hn hh hlt hfuel hsc
    have hf : s.frames[hn]? = some (s.frames[hn]) := List.getElem?_eq_getElem hlt
    by_cases hr : (s.frames[hn]).referenceBit = true
    · have hcount := refCount_set_clearRef s.frames hn _ hf hr
      have hguard : ¬ ((sc : Int) + 1 > (s.frames.length : Int) * 4) := by omega
      obtain ⟨r, hrun, hforced, hlen, hscans, hrange, hvic, hcleared⟩ :=
        ih { s with frames := s.frames.set hn (clearRef (s.frames[hn])),
                    clock_hand := (((hn + 1) % s.frames.length : Nat) : Int) }
          (sc + 1) ((hn + 1) % s.frames.length) rfl
          (by simpa using Nat.mod_lt _ (by omega : 0 < s.frames.length))
          (by simp only; omega) (by simp only [List.length_set]; omega)
      simp only [List.length_set] at hrange
      have hlen' : r.visited.length ≤
          refCount (s.frames.set hn (clearRef (s.frames[hn]))) + 1 := hlen
      have hcleared' : refCount r.state.frames + r.visited.length =
          refCount (s.frames.set hn (clearRef (s.frames[hn]))) + 1 := hcleared
      refine ⟨{ r with visited := (hn : Int) :: r.visited }, ?_, hforced, ?_, ?_, ?_, ?_, ?_⟩
      · simp only [clockSweepReport, hh, frameAt_natCast, hf, hr, numFrames,
          tmod_natCast_succ, Bool.not_true, Bool.false_eq_true, if_false, if_neg hguard,
          Int.toNat_natCast]
        have hrun' : clockSweepReport fuel
            { s with frames := s.frames.set hn { s.frames[hn] with referenceBit := false },
                     clock_hand := (((hn + 1) % s.frames.length : Nat) : Int) }
            ((sc : Int) + 1) = some r := hrun
        rw [hrun']
        rfl
      · simp only [List.length_cons]
        omega
      · simp only [List.length_cons]
        push_cast at hscans ⊢
        omega
      · intro i hi
        rcases List.mem_cons.1 hi with rfl | hi
        · omega
        · exact hrange i hi
      · exact List.mem_cons_of_mem _ hvic
      · simp only [List.length_cons]
        omega
    · have hr' : (s.frames[hn]).referenceBit = false := by simpa using hr
      refine ⟨{ state := { s with clock_hand := (((hn + 1) % s.frames.length : Nat) : Int) },
                victim_index := (hn : Int), visited := [(hn : Int)], scans := (sc : Int),
                forced := false }, ?_, rfl, by simp, by simp, ?_, by simp, by simp⟩
      · simp [clockSweepReport, hh, frameAt_natCast, hf, hr', numFrames, tmod_natCast_succ]
      · intro i hi
        simp only [List.mem_singleton] at hi
        subst hi
        omega

/-! ## Victim selection: what is left untouched -/

theorem replaceInFrame_some (s1 : MMU) (i : Int) (p : Int) (w : page) (s' : MMU)
    (h : replaceInFrame s1 i p = some (w, s')) :
    0 ≤ i ∧
    s' = { s1 with tick := tickIncr s1.tick,
                   frames := s1.frames.set i.toNat (loadedFrame p (tickIncr s1.tick)) } := by
  unfold replaceInFrame at h
  cases hf : frameAt s1.frames i with
  | none => rw [hf] at h; cases h
  | some f =>
    rw [hf] at h
    simp only [Option.some.injEq, Prod.mk.injEq] at h
    refine ⟨?_, h.2.symm⟩
    by_contra hneg
    simp [frameAt, hneg] at hf

theorem selectVictim_some (rand : Nat → Nat × Nat) (s : MMU) (p : Int) (mode : repl)
    (w : page) (s' : MMU) (h : selectVictim rand s p mode = some (w, s')) :
    (numFrames s ≤ 0 ∧ s' = s) ∨
    (0 < numFrames s ∧ ∃ (s1 : MMU) (vi : Int), chooseVictim rand s mode = some (s1, vi) ∧
      replaceInFrame s1 (if vi < 0 then 0 else vi) p = some (w, s')) := by
  unfold selectVictim at h
  by_cases hn : numFrames s ≤ 0
  · rw [if_pos hn] at h
    simp only [Option.some.injEq, Prod.mk.injEq] at h
    exact Or.inl ⟨hn, h.2.symm⟩
  · rw [if_neg hn] at h
    right
    refine ⟨by omega, ?_⟩
    cases hc : chooseVictim rand s mode with
    | none => rw [hc] at h; cases h
    | some r =>
      obtain ⟨s1, vi⟩ := r
      rw [hc] at h
      exact ⟨s1, vi, rfl, h⟩

theorem clockSweep_some_hand (fuel : Nat) (s : MMU) (scans : Int) (r : MMU × Int)
    (h : clockSweep fuel s scans = some r) :
    0 ≤ s.clock_hand ∧ s.clock_hand < numFrames s := by
  cases fuel with
  | zero => cases h
  | succ fuel =>
    unfold clockSweep at h
    cases hf : frameAt s.frames s.clock_hand with
    | none => rw [hf] at h; cases h
    | some f =>
      unfold frameAt at hf
      by_cases h0 : 0 ≤ s.clock_hand
      · rw [if_pos h0] at hf
        have := (List.getElem?_eq_some.1 hf).1
        unfold numFrames
        omega
      · rw [if_neg h0] at hf
        cases hf

/-! ## Access stamps -/

theorem tickIncr_ne (t : Nat) : tickIncr t ≠ t := by
  unfold tickIncr ULONG_MAX
  omega

theorem stampsInv_set (fs : List FrameEntry) (t t' : Nat) (i : Nat) (g : FrameEntry)
    (h : StampsInv fs t) (ht : t < t') (hg : g.lastAccessTime = t') :
    StampsInv (fs.set i g) t' := by
  obtain ⟨hb, hd⟩ := h
  constructor
  · intro j x hx hxv
    rw [List.getElem?_set] at hx
    by_cases hij : i = j
    · rw [if_pos hij] at hx
      split at hx
      · cases hx
        omega
      · cases hx
    · rw [if_neg hij] at hx
      have := hb j x hx hxv
      omega
  · intro j k x y hx hy hxv hyv hxy
    rw [List.getElem?_set] at hx hy
    by_cases hj : i = j
    · by_cases hk : i = k
      · rw [← hj, ← hk]
      · rw [if_pos hj] at hx
        rw [if_neg hk] at hy
        split at hx
        · cases hx
          have := hb k y hy hyv
          omega
        · cases hx
    · rw [if_neg hj] at hx
      by_cases hk : i = k
      · rw [if_pos hk] at hy
        split at hy
        · cases hy
          have := hb j x hx hxv
          omega
        · cases hy
      · rw [if_neg hk] at hy
        exact hd j k x y hx hy hxv hyv hxy

theorem stampsInv_of_map_clearRef_eq (fs gs : List FrameEntry) (t : Nat)
    (h : gs.map clearRef = fs.map clearRef) (hs : StampsInv fs t) : StampsInv gs t := by
  obtain ⟨hb, hd⟩ := hs
  constructor
  · intro i g hg hgv
    obtain ⟨f, hf, h1, -, -, h4⟩ := getElem?_of_map_clearRef_eq gs fs i g h.symm hg
    have := hb i f hf (by rw [h1]; exact hgv)
    omega
  · intro i j x y hx hy hxv hyv hxy
    obtain ⟨f, hf, h1, -, -, h4⟩ := getElem?_of_map_clearRef_eq gs fs i x h.symm hx
    obtain ⟨g, hg, k1, -, -, k4⟩ := getElem?_of_map_clearRef_eq gs fs j y h.symm hy
    exact hd i j f g hf hg (by rw [h1]; exact hxv) (by rw [k1]; exact hyv)
      (by rw [h4, k4]; exact hxy)

theorem chooseVictim_some_frames (rand : Nat → Nat × Nat) (s s1 : MMU) (mode : repl)
    (vi : Int) (hc : chooseVictim rand s mode = some (s1, vi)) :
    s1.frames.map clearRef = s.frames.map clearRef ∧ s1.tick = s.tick := by
  cases mode with
  | repl_random =>
    simp only [chooseVictim, Option.some.injEq, Prod.mk.injEq] at hc
    obtain ⟨rfl, -⟩ := hc
    exact ⟨rfl, rfl⟩
  | fifo =>
    simp only [chooseVictim, Option.some.injEq, Prod.mk.injEq] at hc
    obtain ⟨rfl, -⟩ := hc
    exact ⟨rfl, rfl⟩
  | lru =>
    simp only [chooseVictim, Option.some.injEq, Prod.mk.injEq] at hc
    obtain ⟨rfl, -⟩ := hc
    exact ⟨rfl, rfl⟩
  | repl_clock =>
    have hsweep : clockSweep (numFrames s * 4 + 1).toNat s 0 = some (s1, vi) := hc
    obtain ⟨hh0, hh1⟩ := clockSweep_some_hand _ s 0 _ hsweep
    obtain ⟨b, hb⟩ : ∃ b : Nat, s.clock_hand = (b : Int) := ⟨s.clock_hand.toNat, by omega⟩
    have hblt : b < s.frames.length := by
      unfold numFrames at hh1
      omega
    obtain ⟨d, fs, -, -, -, hc', hlen, hin, hout⟩ := chooseVictim_clock rand s b hb hblt
    rw [hc] at hc'
    simp only [Option.some.injEq, Prod.mk.injEq] at hc'
    obtain ⟨rfl, -⟩ := hc'
    exact ⟨map_clearRef_eq_of_pointwise s.frames fs _ _ _ hlen hin hout, rfl⟩

/-- One engine call that does not wrap the tick keeps the stamps in order. -/
theorem applyOp_stampsInv (rand : Nat → Nat × Nat) (s s1 : MMU) (op : Op)
    (h : applyOp rand s op = some s1) (hmono : s.tick ≤ s1.tick)
    (hs : StampsInv s.frames s.tick) : StampsInv s1.frames s1.tick := by
  have hstamp : ∀ (fs : List FrameEntry) (i : Nat) (g : FrameEntry),
      StampsInv fs s.tick → s.tick ≤ tickIncr s.tick → g.lastAccessTime = tickIncr s.tick →
      StampsInv (fs.set i g) (tickIncr s.tick) := by
    intro fs i g hfs hle hg
    have := tickIncr_ne s.tick
    exact stampsInv_set fs s.tick _ i g hfs (by omega) hg
  cases op with
  | check p =>
    simp only [applyOp, Option.some.injEq] at h
    subst h
    by_cases hres : ∃ f ∈ s.frames, f.valid = true ∧ f.pageNo = p
    · obtain ⟨i, f, hi, hf, -⟩ := findFrameByPage_found s p hres
      rw [checkInMemory_of_found s p i f hi hf] at hmono ⊢
      exact hstamp s.frames i _ hs hmono rfl
    · have hmiss : findFrameByPage s p = -1 := by
        rw [findFrameByPage_eq_neg_one_iff]
        intro f hf hfp
        exact hres ⟨f, hf, hfp⟩
      rw [checkInMemory_of_miss s p hmiss]
      exact hs
  | write p =>
    simp only [applyOp, Option.some.injEq] at h
    subst h
    by_cases hres : ∃ f ∈ s.frames, f.valid = true ∧ f.pageNo = p
    · obtain ⟨i, f, hi, hf, -⟩ := findFrameByPage_found s p hres
      rw [markWritten_of_found s p i f hi hf] at hmono ⊢
      exact hstamp s.frames i _ hs hmono rfl
    · have hmiss : findFrameByPage s p = -1 := by
        rw [findFrameByPage_eq_neg_one_iff]
        intro f hf hfp
        exact hres ⟨f, hf, hfp⟩
      rw [markWritten_of_miss s p hmiss]
      exact hs
  | alloc p =>
    simp only [applyOp, Option.some.injEq] at h
    subst h
    by_cases hfree : ∃ f ∈ s.frames, f.valid = false
    · obtain ⟨i, f, hi, -⟩ := findFreeFrame_found s hfree
      rw [allocateFrame_of_found s p i hi] at hmono ⊢
      exact hstamp s.frames i _ hs hmono rfl
    · have hall : AllValid s := by
        intro f hf
        by_contra hv
        exact hfree ⟨f, hf, by simpa using hv⟩
      have : allocateFrame s p = (-1, s) := by
        simp [allocateFrame, findFreeFrame_eq_neg_one_of_allValid s hall]
      rw [this]
      exact hs
  | victim p mode =>
    simp only [applyOp, Option.map_eq_some'] at h
    obtain ⟨⟨w, s'⟩, hsel, rfl⟩ := h
    rcases selectVictim_some rand s p mode w s' hsel with ⟨-, rfl⟩ | ⟨-, s2, vi, hc, hrep⟩
    · exact hs
    · obtain ⟨hmap, htick⟩ := chooseVictim_some_frames rand s s2 mode vi hc
      obtain ⟨-, hs'⟩ := replaceInFrame_some s2 _ p w s' hrep
      subst hs'
      simp only [htick] at hmono ⊢
      exact hstamp s2.frames _ _ (stampsInv_of_map_clearRef_eq s.frames s2.frames _ hmap hs)
        hmono rfl

theorem runOps_stampsInv (rand : Nat → Nat × Nat) (ops : List Op) :
    ∀ s s1 : MMU, runOps rand s ops = some s1 → tickNeverWraps rand s ops = true →
      StampsInv s.frames s.tick → StampsInv s1.frames s1.tick := by
  induction ops with
  | nil =>
    intro s s1 h _ hs
    simp only [runOps, Option.some.injEq] at h
    subst h
    exact hs
  | cons op ops ih =>
    intro s s1 h hw hs
    simp only [runOps] at h
    cases ha : applyOp rand s op with
    | none => rw [ha] at h; cases h
    | some s2 =>
      rw [ha] at h
      simp only [tickNeverWraps, ha, Bool.and_eq_true, decide_eq_true_eq] at hw
      exact ih s2 s1 h hw.2 (applyOp_stampsInv rand s s2 op ha hw.1 hs)

/-! ## The trace loop: the table keeps its length -/

theorem selectVictim_length (rand : Nat → Nat × Nat) (s : MMU) (p : Int) (mode : repl)
    (w : page) (s' : MMU) (h : selectVictim rand s p mode = some (w, s')) :
    s'.frames.length = s.frames.length := by
  rcases selectVictim_some rand s p mode w s' h with ⟨-, rfl⟩ | ⟨-, s1, vi, hc, hrep⟩
  · rfl
  · obtain ⟨hmap, -⟩ := chooseVictim_some_frames rand s s1 mode vi hc
    obtain ⟨-, hs'⟩ := replaceInFrame_some s1 _ p w s' hrep
    subst hs'
    simp [length_eq_of_map_clearRef_eq s.frames s1.frames hmap]

theorem faultStep_length (rand : Nat → Nat × Nat) (replace : repl) (d d1 : Driver) (q : Int)
    (v : Option page) (h : faultStep rand replace d q = some (v, d1)) :
    d1.mmu.frames.length = d.mmu.frames.length := by
  unfold faultStep at h
  split at h
  · simp only [Option.some.injEq, Prod.mk.injEq] at h
    obtain ⟨-, rfl⟩ := h
    exact (allocateFrame_preserves d.mmu q).1
  · split at h
    · cases h
    · rename_i w m hsel
      simp only [Option.some.injEq, Prod.mk.injEq] at h
      obtain ⟨-, rfl⟩ := h
      show (checkInMemory m q).2.frames.length = _
      rw [(checkInMemory_preserves m q).1]
      exact selectVictim_length rand d.mmu q replace w m hsel

theorem mainStep_length (rand : Nat → Nat × Nat) (replace : repl) (d d1 : Driver) (e : Event)
    (hd : Handled) (h : mainStep rand replace d e = some (hd, d1)) :
    d1.mmu.frames.length = d.mmu.frames.length := by
  unfold mainStep at h
  simp only at h
  split at h
  · cases h
  · rename_i v d2 hhandled
    have hlen2 : d2.mmu.frames.length = d.mmu.frames.length := by
      split at hhandled
      · have := faultStep_length rand replace _ d2 _ v hhandled
        rw [this]
        exact (checkInMemory_preserves d.mmu _).1
      · simp only [Option.some.injEq, Prod.mk.injEq] at hhandled
        obtain ⟨-, rfl⟩ := hhandled
        exact (checkInMemory_preserves d.mmu _).1
    split at h
    · simp only [Option.some.injEq, Prod.mk.injEq] at h
      obtain ⟨-, rfl⟩ := h
      exact hlen2
    · split at h
      · simp only [Option.some.injEq, Prod.mk.injEq] at h
        obtain ⟨-, rfl⟩ := h
        show (markWritten d2.mmu _).frames.length = _
        rw [(markWritten_preserves d2.mmu _).1]
        exact hlen2
      · cases h

theorem mainLoop_length (rand : Nat → Nat × Nat) (replace : repl) (evs : List Event) :
    ∀ (d d1 : Driver) (log : List Handled), mainLoop rand replace d evs = some (log, d1) →
      d1.mmu.frames.length = d.mmu.frames.length := by
  induction evs with
  | nil =>
    intro d d1 log h
    simp only [mainLoop, Option.some.injEq, Prod.mk.injEq] at h
    rw [← h.2]
  | cons e es ih =>
    intro d d1 log h
    simp only [mainLoop] at h
    split at h
    · cases h
    · rename_i hd d2 hstep
      split at h
      · cases h
      · rename_i hs d3 hloop
        simp only [Option.some.injEq, Prod.mk.injEq] at h
        obtain ⟨-, rfl⟩ := h
        rw [ih d2 d3 hs hloop, mainStep_length rand replace d d2 e hd hstep]

theorem findFreeFrame_of_validPrefix (s : MMU) (a : Nat)
    (hvp : ValidPrefix s.frames (a : Int)) (ha : a < s.frames.length) :
    findFreeFrame s = (a : Int) := by
  have hfa : s.frames[a]? = some (s.frames[a]) := List.getElem?_eq_getElem ha
  have hinv : (s.frames[a]).valid = false := by
    have := (hvp a _ hfa).not
    simpa using this
  obtain ⟨i, f, hi, hf, hfv, hlow⟩ := findFreeFrame_found s ⟨_, List.getElem?_mem hfa, hinv⟩
  have hia : i = a := by
    have h1 : ¬ ((i : Int) < (a : Int)) := by
      rw [← hvp i f hf, hfv]
      simp
    by_contra hne
    have h2 : a < i := by omega
    have h3 := hlow a _ h2 hfa
    rw [hinv] at h3
    cases h3
  rw [hi, hia]

theorem allValid_of_validPrefix (s : MMU) (a : Int) (hvp : ValidPrefix s.frames a)
    (ha : numFrames s ≤ a) : AllValid s := by
  intro f hf
  obtain ⟨i, hi⟩ := List.mem_iff_getElem?.1 hf
  have hlt := (List.getElem?_eq_some.1 hi).1
  rw [hvp i f hi]
  unfold numFrames at ha
  omega

/-! ## The trace loop, case by case -/

theorem mainStep_hit (rand : Nat → Nat × Nat) (replace : repl) (d : Driver) (e : Event)
    (hrw : e.rw = 'R' ∨ e.rw = 'W') (hres : findFrameByPage d.mmu (pageOf e) ≠ -1) :
    mainStep rand replace d e =
      some ({ page_number := pageOf e, rw := e.rw, fault := false, victim := none },
            { d with mmu := accessMark e.rw (checkInMemory d.mmu (pageOf e)).2 (pageOf e),
                     no_events := d.no_events + 1 }) := by
  have hex : ∃ f ∈ d.mmu.frames, f.valid = true ∧ f.pageNo = pageOf e := by
    by_contra hno
    apply hres
    rw [findFrameByPage_eq_neg_one_iff]
    intro f hf hfp
    exact hno ⟨f, hf, hfp⟩
  obtain ⟨i, f, hi, hf, -⟩ := findFrameByPage_found d.mmu (pageOf e) hex
  have hidx : (checkInMemory d.mmu (pageOf e)).1 = (i : Int) := by
    rw [checkInMemory_of_found d.mmu (pageOf e) i f hi hf]
  have hne : ((checkInMemory d.mmu (pageOf e)).1 == -1) = false := by
    rw [hidx]
    exact beq_false_of_ne (by omega)
  have hne' : ((checkInMemory d.mmu ((e.address >>> pageoffset : Nat) : Int)).1 == -1)
      = false := hne
  rcases hrw with hc | hc
  · simp [mainStep, hne', hc, accessMark, pageOf]
  · simp [mainStep, hne', hc, accessMark, pageOf]

theorem mainStep_alloc (rand : Nat → Nat × Nat) (replace : repl) (d : Driver) (e : Event)
    (hrw : e.rw = 'R' ∨ e.rw = 'W') (hmiss : findFrameByPage d.mmu (pageOf e) = -1)
    (hroom : d.allocated < numFrames d.mmu) :
    mainStep rand replace d e =
      some ({ page_number := pageOf e, rw := e.rw, fault := true, victim := none },
            { d with mmu := accessMark e.rw (allocateFrame d.mmu (pageOf e)).2 (pageOf e),
                     allocated := d.allocated + 1,
                     disk_reads := d.disk_reads + 1,
                     no_events := d.no_events + 1 }) := by
  have hchk : checkInMemory d.mmu ((e.address >>> pageoffset : Nat) : Int) = (-1, d.mmu) :=
    checkInMemory_of_miss d.mmu (pageOf e) hmiss
  rcases hrw with hc | hc
  · simp [mainStep, hchk, faultStep, hroom, hc, accessMark, pageOf]
  · simp [mainStep, hchk, faultStep, hroom, hc, accessMark, pageOf]

theorem mainStep_evict (rand : Nat → Nat × Nat) (replace : repl) (d : Driver) (e : Event)
    (w : page) (m : MMU)
    (hrw : e.rw = 'R' ∨ e.rw = 'W') (hmiss : findFrameByPage d.mmu (pageOf e) = -1)
    (hfull : ¬ d.allocated < numFrames d.mmu)
    (hsel : selectVictim rand d.mmu (pageOf e) replace = some (w, m)) :
    mainStep rand replace d e =
      some ({ page_number := pageOf e, rw := e.rw, fault := true, victim := some w },
            { d with mmu := accessMark e.rw (checkInMemory m (pageOf e)).2 (pageOf e),
                     disk_reads := d.disk_reads + 1,
                     disk_writes := if w.modified then d.disk_writes + 1 else d.disk_writes,
                     no_events := d.no_events + 1 }) := by
  have hchk : checkInMemory d.mmu ((e.address >>> pageoffset : Nat) : Int) = (-1, d.mmu) :=
    checkInMemory_of_miss d.mmu (pageOf e) hmiss
  have hsel' : selectVictim rand d.mmu ((e.address >>> pageoffset : Nat) : Int) replace
      = some (w, m) := hsel
  rcases hrw with hc | hc
  · simp [mainStep, hchk, faultStep, hfull, hsel', hc, accessMark, pageOf]
  · simp [mainStep, hchk, faultStep, hfull, hsel', hc, accessMark, pageOf]

theorem accessMark_preserves (c : Char) (m : MMU) (q : Int) :
    (accessMark c m q).frames.length = m.frames.length ∧
    (accessMark c m q).fifo_hand = m.fifo_hand ∧
    (accessMark c m q).clock_hand = m.clock_hand := by
  unfold accessMark
  split
  · exact markWritten_preserves m q
  · exact ⟨rfl, rfl, rfl⟩

theorem accessMark_sameKeys (c : Char) (m : MMU) (q : Int) :
    SameKeys m.frames (accessMark c m q).frames := by
  unfold accessMark
  split
  · exact markWritten_sameKeys m q
  · exact sameKeys_refl _

theorem pagesOf_of_sameKeys (fs gs : List FrameEntry) (h : SameKeys fs gs) :
    pagesOf gs = pagesOf fs := by
  unfold pagesOf
  apply List.ext_getElem?
  intro i
  rw [List.getElem?_map, List.getElem?_map]
  cases hg : gs[i]? with
  | none =>
    have hi : gs.length ≤ i := by
      by_contra hlt
      rw [List.getElem?_eq_getElem (by omega)] at hg
      cases hg
    rw [List.getElem?_eq_none (by rw [← h.1]; exact hi)]
  | some g =>
    obtain ⟨f, hf, -, hp⟩ := h.2 i g hg
    rw [hf]
    simp [hp]

/-! ## FIFO: the rotating hand is a queue -/

theorem rotate_eq_cons (l : List Int) (h : Nat) (hh : h < l.length) :
    l.rotate h = l[h] :: (l.drop (h + 1) ++ l.take h) := by
  rw [List.rotate_eq_drop_append_take (le_of_lt hh), List.drop_eq_getElem_cons hh]
  rfl

theorem rotate_set_succ (l : List Int) (h : Nat) (q : Int) (hh : h < l.length) :
    (l.set h q).rotate ((h + 1) % l.length) = (l.drop (h + 1) ++ l.take h) ++ [q] := by
  have hlen : (l.set h q).length = l.length := List.length_set _ _ _
  have hmod : (l.set h q).rotate ((h + 1) % (l.set h q).length) = (l.set h q).rotate (h + 1) :=
    List.rotate_mod _ _
  rw [hlen] at hmod
  rw [hmod, List.rotate_eq_drop_append_take (by rw [hlen]; omega)]
  have hset : l.set h q = l.take h ++ q :: l.drop (h + 1) := by
    rw [List.set_eq_take_append_cons_drop, if_pos hh]
  have hlt : (l.take h).length = h := by
    rw [List.length_take]
    omega
  have hdrop : (l.set h q).drop (h + 1) = l.drop (h + 1) :=
    List.drop_set_of_lt q l (by omega)
  have htake : (l.set h q).take (h + 1) = l.take h ++ [q] := by
    rw [hset]
    have e1 : l.take h ++ q :: l.drop (h + 1) = (l.take h ++ [q]) ++ l.drop (h + 1) := by simp
    rw [e1]
    have e2 : (l.take h ++ [q]).length = h + 1 := by simp [hlt]
    rw [← e2, List.take_left]
  rw [hdrop, htake, List.append_assoc]

theorem take_succ_set (l : List Int) (a : Nat) (q : Int) (ha : a < l.length) :
    (l.set a q).take (a + 1) = l.take a ++ [q] := by
  have hset : l.set a q = l.take a ++ q :: l.drop (a + 1) := by
    rw [List.set_eq_take_append_cons_drop, if_pos ha]
  have hlt : (l.take a).length = a := by
    rw [List.length_take]
    omega
  rw [hset]
  have e1 : l.take a ++ q :: l.drop (a + 1) = (l.take a ++ [q]) ++ l.drop (a + 1) := by simp
  rw [e1]
  have e2 : (l.take a ++ [q]).length = a + 1 := by simp [hlt]
  rw [← e2, List.take_left]

theorem pagesOf_set (fs : List FrameEntry) (i : Nat) (g : FrameEntry) :
    pagesOf (fs.set i g) = (pagesOf fs).set i g.pageNo := by
  unfold pagesOf
  rw [List.map_set]

theorem mem_queue_iff_resident (d : Driver) (queue : List Int) (q : Int)
    (hvp : ValidPrefix d.mmu.frames d.allocated) (hrel : FifoRel d queue) :
    q ∈ queue ↔ findFrameByPage d.mmu q ≠ -1 := by
  obtain ⟨a, h, ha, -, haN, -, -, hq⟩ := hrel
  rw [hq, List.mem_rotate, Ne, findFrameByPage_eq_neg_one_iff]
  constructor
  · intro hmem hno
    obtain ⟨i, hi⟩ := List.mem_iff_getElem?.1 hmem
    rw [List.getElem?_take] at hi
    by_cases hia : i < a
    · rw [if_pos hia] at hi
      unfold pagesOf at hi
      rw [List.getElem?_map] at hi
      cases hf : d.mmu.frames[i]? with
      | none => rw [hf] at hi; cases hi
      | some f =>
        rw [hf] at hi
        simp only [Option.map_some', Option.some.injEq] at hi
        have hv : f.valid = true := by
          rw [hvp i f hf, ha]
          omega
        exact hno f (List.getElem?_mem hf) ⟨hv, hi⟩
    · rw [if_neg hia] at hi
      cases hi
  · intro hres
    have hex : ∃ f ∈ d.mmu.frames, f.valid = true ∧ f.pageNo = q := by
      by_contra hno
      exact hres (fun f hf hfp => hno ⟨f, hf, hfp⟩)
    obtain ⟨f, hf, hv, hp⟩ := hex
    obtain ⟨i, hi⟩ := List.mem_iff_getElem?.1 hf
    have hia : i < a := by
      have := (hvp i f hi).1 hv
      omega
    apply List.mem_iff_getElem?.2
    refine ⟨i, ?_⟩
    rw [List.getElem?_take, if_pos hia]
    unfold pagesOf
    rw [List.getElem?_map, hi]
    simp [hp]

theorem mainStep_fifo (rand : Nat → Nat × Nat) (d : Driver) (e : Event)
    (rlog : List Handled) (queue : List Int)
    (hinv : DriverInv d rlog) (hrel : FifoRel d queue) (hrw : e.rw = 'R' ∨ e.rw = 'W') :
    ∃ (hd : Handled) (d1 : Driver),
      mainStep rand repl.fifo d e = some (hd, d1) ∧ DriverInv d1 (hd :: rlog) ∧
      d1.mmu.frames.length = d.mmu.frames.length ∧
      FifoRel d1 (fifoQueueStep d.mmu.frames.length queue (pageOf e)).2 ∧
      hd.victim.map (fun w => w.pageNo) =
        (fifoQueueStep d.mmu.frames.length queue (pageOf e)).1 := by
  obtain ⟨hd, d1, hstep, hinv1, -⟩ := mainStep_inv rand repl.fifo d e rlog hinv hrw
  have hlen1 := mainStep_length rand repl.fifo d d1 e hd hstep
  refine ⟨hd, d1, hstep, hinv1, hlen1, ?_⟩
  obtain ⟨hN, hh, ha0, haN, hvp, hdist, -⟩ := hinv
  have hmem := mem_queue_iff_resident d queue (pageOf e) hvp hrel
  obtain ⟨a, h, ha, hhand, haN', hhN, hh0, hq⟩ := hrel
  have hqlen : queue.length = a := by
    rw [hq, List.length_rotate, List.length_take]
    unfold pagesOf
    rw [List.length_map]
    omega
  by_cases hmiss : findFrameByPage d.mmu (pageOf e) = -1
  · have hnotin : ¬ pageOf e ∈ queue := fun hin => (hmem.1 hin) hmiss
    by_cases hroom : d.allocated < numFrames d.mmu
    · -- allocation
      have halt : a < d.mmu.frames.length := by
        unfold numFrames at hroom
        omega
      rw [mainStep_alloc rand repl.fifo d e hrw hmiss hroom] at hstep
      simp only [Option.some.injEq, Prod.mk.injEq] at hstep
      obtain ⟨rfl, rfl⟩ := hstep
      have hh0' := hh0 halt
      subst hh0'
      have hfree := findFreeFrame_of_validPrefix d.mmu a (by rw [← ha]; exact hvp) halt
      have hpages : pagesOf (accessMark e.rw (allocateFrame d.mmu (pageOf e)).2 (pageOf e)).frames
          = (pagesOf d.mmu.frames).set a (pageOf e) := by
        rw [pagesOf_of_sameKeys _ _ (accessMark_sameKeys _ _ _),
          allocateFrame_of_found d.mmu (pageOf e) a hfree, pagesOf_set]
        rfl
      have hstepq : fifoQueueStep d.mmu.frames.length queue (pageOf e)
          = (none, queue ++ [pageOf e]) := by
        simp [fifoQueueStep, hnotin, hqlen, halt]
      rw [hstepq]
      refine ⟨⟨a + 1, 0, ?_, ?_, ?_, ?_, fun _ => rfl, ?_⟩, rfl⟩
      · simp only [ha]
        push_cast
        rfl
      · rw [(accessMark_preserves _ _ _).2.1, (allocateFrame_preserves _ _).2.1]
        exact hhand
      · rw [hlen1]
        omega
      · rw [hlen1]
        omega
      · simp only [hpages, List.rotate_zero]
        rw [take_succ_set _ a _ (by unfold pagesOf; rw [List.length_map]; exact halt), hq,
          List.rotate_zero]
    · -- eviction
      have haeq : a = d.mmu.frames.length := by
        unfold numFrames at hroom haN
        omega
      obtain ⟨f, hf, -, hsel⟩ := selectVictim_fifo_step rand d.mmu (pageOf e) h hN hhand hhN
      rw [mainStep_evict rand repl.fifo d e _ _ hrw hmiss hroom hsel] at hstep
      simp only [Option.some.injEq, Prod.mk.injEq] at hstep
      obtain ⟨rfl, rfl⟩ := hstep
      have hplen : (pagesOf d.mmu.frames).length = d.mmu.frames.length := by
        unfold pagesOf
        rw [List.length_map]
      have htake : (pagesOf d.mmu.frames).take a = pagesOf d.mmu.frames := by
        rw [List.take_of_length_le (by omega)]
      have hhlt : h < (pagesOf d.mmu.frames).length := by omega
      have hph : (pagesOf d.mmu.frames)[h] = f.pageNo := by
        have : (pagesOf d.mmu.frames)[h]? = some f.pageNo := by
          unfold pagesOf
          rw [List.getElem?_map, hf]
          rfl
        rw [List.getElem?_eq_getElem (by omega)] at this
        exact Option.some.inj this
      have hqcons : queue = f.pageNo ::
          ((pagesOf d.mmu.frames).drop (h + 1) ++ (pagesOf d.mmu.frames).take h) := by
        rw [hq, htake, rotate_eq_cons _ h (by omega), hph]
      have hstepq : fifoQueueStep d.mmu.frames.length queue (pageOf e)
          = (some f.pageNo,
             ((pagesOf d.mmu.frames).drop (h + 1) ++ (pagesOf d.mmu.frames).take h)
               ++ [pageOf e]) := by
        have hnl : ¬ queue.length < d.mmu.frames.length := by omega
        simp only [fifoQueueStep, if_neg hnotin, if_neg hnl]
        rw [hqcons]
      rw [hstepq]
      have hpages : pagesOf (accessMark e.rw (checkInMemory
            { d.mmu with fifo_hand := (((h + 1) % d.mmu.frames.length : Nat) : Int),
                         tick := tickIncr d.mmu.tick,
                         frames := d.mmu.frames.set h
                           (loadedFrame (pageOf e) (tickIncr d.mmu.tick)) }
            (pageOf e)).2 (pageOf e)).frames
          = (pagesOf d.mmu.frames).set h (pageOf e) := by
        rw [pagesOf_of_sameKeys _ _ (accessMark_sameKeys _ _ _),
          pagesOf_of_sameKeys _ _ (checkInMemory_sameKeys _ _), pagesOf_set]
        rfl
      refine ⟨⟨a, (h + 1) % d.mmu.frames.length, ha, ?_, ?_, ?_, fun hlt => ?_, ?_⟩, rfl⟩
      · rw [(accessMark_preserves _ _ _).2.1, (checkInMemory_preserves _ _).2.1]
      · rw [hlen1]
        omega
      · rw [hlen1]
        exact Nat.mod_lt _ (by omega)
      · rw [hlen1] at hlt
        omega
      · simp only [hpages]
        have htake2 : ((pagesOf d.mmu.frames).set h (pageOf e)).take a
            = (pagesOf d.mmu.frames).set h (pageOf e) :=
          List.take_of_length_le (by rw [List.length_set]; omega)
        have hrot := rotate_set_succ (pagesOf d.mmu.frames) h (pageOf e) (by omega)
        rw [hplen] at hrot
        rw [htake2, hrot]
  · -- hit
    have hin : pageOf e ∈ queue := hmem.2 hmiss
    rw [mainStep_hit rand repl.fifo d e hrw hmiss] at hstep
    simp only [Option.some.injEq, Prod.mk.injEq] at hstep
    obtain ⟨rfl, rfl⟩ := hstep
    have hstepq : fifoQueueStep d.mmu.frames.length queue (pageOf e) = (none, queue) := by
      simp [fifoQueueStep, hin]
    rw [hstepq]
    have hpages : pagesOf (accessMark e.rw (checkInMemory d.mmu (pageOf e)).2 (pageOf e)).frames
        = pagesOf d.mmu.frames := by
      rw [pagesOf_of_sameKeys _ _ (accessMark_sameKeys _ _ _),
        pagesOf_of_sameKeys _ _ (checkInMemory_sameKeys _ _)]
    refine ⟨⟨a, h, ha, ?_, ?_, ?_, fun hlt => ?_, ?_⟩, rfl⟩
    · rw [(accessMark_preserves _ _ _).2.1, (checkInMemory_preserves _ _).2.1]
      exact hhand
    · rw [hlen1]
      exact haN'
    · rw [hlen1]
      exact hhN
    · rw [hlen1] at hlt
      exact hh0 hlt
    · simp only [hpages]
      exact hq

theorem mainLoop_fifo (rand : Nat → Nat × Nat) (evs : List Event) :
    ∀ (d : Driver) (rlog : List Handled) (queue : List Int), DriverInv d rlog →
      FifoRel d queue → (∀ e ∈ evs, e.rw = 'R' ∨ e.rw = 'W') →
      ∃ (log : List Handled) (d1 : Driver),
        mainLoop rand repl.fifo d evs = some (log, d1) ∧
        log.map (fun h => h.victim.map (fun w => w.pageNo)) =
          (fifoQueueRun d.mmu.frames.length queue (evs.map pageOf)).1 ∧
        FifoRel d1 (fifoQueueRun d.mmu.frames.length queue (evs.map pageOf)).2 ∧
        ValidPrefix d1.mmu.frames d1.allocated := by
  induction evs with
  | nil =>
    intro d rlog queue hinv hrel _
    exact ⟨[], d, rfl, rfl, hrel, hinv.2.2.2.2.1⟩
  | cons e es ih =>
    intro d rlog queue hinv hrel hrw
    obtain ⟨hd, d1, hstep, hinv1, hlen1, hrel1, hvic⟩ :=
      mainStep_fifo rand d e rlog queue hinv hrel (hrw e (List.mem_cons_self _ _))
    obtain ⟨log, d2, hloop, hvics, hrel2, hvp2⟩ :=
      ih d1 (hd :: rlog) _ hinv1 hrel1 (fun x hx => hrw x (List.mem_cons_of_mem _ hx))
    rw [hlen1] at hvics hrel2
    refine ⟨hd :: log, d2, by simp [mainLoop, hstep, hloop], ?_, ?_, hvp2⟩
    · simp only [List.map_cons, fifoQueueRun, hvic, hvics]
    · simpa only [List.map_cons, fifoQueueRun] using hrel2

/-! ## LRU: the access stamps order the resident pages by recency -/

theorem stampOf_of_frame (s : MMU) (j : Nat) (f : FrameEntry)
    (hd : DistinctPages s.frames) (hf : s.frames[j]? = some f) (hv : f.valid = true) :
    stampOf s f.pageNo = f.lastAccessTime := by
  have hidx := findFrameByPage_eq_of_distinct s f.pageNo j f hd hf hv rfl
  have hnn : ¬ ((j : Int) < 0) := by omega
  simp [stampOf, hidx, hnn, hf]

theorem tickIncr_of_lt (t : Nat) (h : t < ULONG_MAX) : tickIncr t = t + 1 := by
  unfold tickIncr
  unfold ULONG_MAX at *
  omega

theorem getLast?_eq_some_concat (l : List Int) (w : Int) (h : l.getLast? = some w) :
    l = l.dropLast ++ [w] := by
  rcases List.eq_nil_or_concat l with rfl | ⟨L, b, rfl⟩
  · simp at h
  · rw [List.concat_eq_append] at h ⊢
    simp only [List.getLast?_append, List.getLast?_singleton] at h
    have hb : b = w := by
      simpa [Option.or] using h
    subst hb
    simp

theorem erase_getLast (l : List Int) (w : Int) (h : l.getLast? = some w) (hn : l.Nodup) :
    l.erase w = l.dropLast := by
  have hsplit := getLast?_eq_some_concat l w h
  have hnotin : w ∉ l.dropLast := by
    intro hmem
    rw [hsplit] at hn
    exact (List.nodup_append.1 hn).2.2 hmem (List.mem_singleton.2 rfl)
  conv_lhs => rw [hsplit]
  rw [List.erase_append_right _ hnotin]
  simp

theorem nodup_of_lruInv (s : MMU) (recent : List Int) (h : LruInv s recent) :
    recent.Nodup := by
  unfold List.Nodup
  refine List.Pairwise.imp ?_ h.2.2.2
  intro a b hab he
  rw [he] at hab
  exact lt_irrefl _ hab

/-- A frame is rewritten with a newer stamp and the page `q`; `X` lists the pages resident
in the other frames, by decreasing stamp. -/
theorem lruInv_stamp (s s' : MMU) (X : List Int) (recent : List Int) (q : Int) (i : Nat)
    (g : FrameEntry) (h : LruInv s recent)
    (hfs : s'.frames = s.frames.set i g) (ht : s'.tick = s.tick + 1)
    (hi : i < s.frames.length)
    (hgv : g.valid = true) (hgp : g.pageNo = q) (hgt : g.lastAccessTime = s.tick + 1)
    (hX : X.Sublist recent)
    (hmem : ∀ p : Int, p ∈ X ↔
      ∃ (j : Nat) (f : FrameEntry), j ≠ i ∧ s.frames[j]? = some f ∧ f.valid = true ∧
        f.pageNo = p)
    (hq : ∀ (j : Nat) (f : FrameEntry), j ≠ i → s.frames[j]? = some f → f.valid = true →
      f.pageNo ≠ q) :
    LruInv s' (q :: X) := by
  obtain ⟨hd, hs, hres, hpw⟩ := h
  have hget : ∀ j : Nat, j ≠ i → s'.frames[j]? = s.frames[j]? := by
    intro j hj
    rw [hfs, List.getElem?_set, if_neg (Ne.symm hj)]
  have hgeti : s'.frames[i]? = some g := by
    rw [hfs, List.getElem?_set, if_pos rfl, if_pos hi]
  have hd' : DistinctPages s'.frames := by
    intro a b x y hx hy hxv hyv hxy
    by_cases ha : a = i
    · by_cases hb : b = i
      · rw [ha, hb]
      · subst ha
        rw [hgeti] at hx
        cases hx
        rw [hget b hb] at hy
        exact absurd (by rw [← hxy, hgp]) (hq b y hb hy hyv)
    · rw [hget a ha] at hx
      by_cases hb : b = i
      · subst hb
        rw [hgeti] at hy
        cases hy
        exact absurd (by rw [hxy, hgp]) (hq a x ha hx hxv)
      · rw [hget b hb] at hy
        exact hd a b x y hx hy hxv hyv hxy
  have hs' : StampsInv s'.frames s'.tick := by
    rw [hfs, ht]
    exact stampsInv_set s.frames s.tick _ i g hs (by omega) hgt
  have hstampq : stampOf s' q = s.tick + 1 := by
    rw [← hgp, stampOf_of_frame s' i g hd' hgeti hgv, hgt]
  have hstampX : ∀ p ∈ X, stampOf s' p = stampOf s p ∧ stampOf s p ≤ s.tick := by
    intro p hp
    obtain ⟨j, f, hj, hf, hfv, hfp⟩ := (hmem p).1 hp
    have hf' : s'.frames[j]? = some f := by rw [hget j hj]; exact hf
    rw [← hfp, stampOf_of_frame s' j f hd' hf' hfv, stampOf_of_frame s j f hd hf hfv]
    exact ⟨rfl, (hs.1 j f hf hfv).2⟩
  refine ⟨hd', hs', ?_, ?_⟩
  · intro p
    rw [List.mem_cons, hmem p]
    constructor
    · rintro (rfl | ⟨j, f, hj, hf, hfv, hfp⟩)
      · exact ⟨g, List.getElem?_mem hgeti, hgv, hgp⟩
      · exact ⟨f, List.getElem?_mem (by rw [hget j hj]; exact hf), hfv, hfp⟩
    · rintro ⟨f, hf, hfv, hfp⟩
      obtain ⟨j, hj⟩ := List.mem_iff_getElem?.1 hf
      by_cases hji : j = i
      · subst hji
        rw [hgeti] at hj
        cases hj
        left
        rw [← hfp, hgp]
      · right
        exact ⟨j, f, hji, by rw [← hget j hji]; exact hj, hfv, hfp⟩
  · rw [List.pairwise_cons]
    constructor
    · intro p hp
      obtain ⟨h1, h2⟩ := hstampX p hp
      rw [hstampq, h1]
      omega
    · refine List.Pairwise.imp_of_mem ?_ (List.Pairwise.sublist hX hpw)
      intro a b ha hb hab
      rw [(hstampX a ha).1, (hstampX b hb).1]
      exact hab

theorem lruInv_touch (s s' : MMU) (recent : List Int) (q : Int) (i : Nat)
    (f g : FrameEntry) (h : LruInv s recent)
    (hf : s.frames[i]? = some f) (hfv : f.valid = true) (hfp : f.pageNo = q)
    (hfs : s'.frames = s.frames.set i g) (ht : s'.tick = s.tick + 1)
    (hgv : g.valid = true) (hgp : g.pageNo = q) (hgt : g.lastAccessTime = s.tick + 1) :
    LruInv s' (q :: recent.erase q) := by
  have hnd := nodup_of_lruInv s recent h
  have hd := h.1
  have hres := h.2.2.1
  have hi : i < s.frames.length := (List.getElem?_eq_some.1 hf).1
  refine lruInv_stamp s s' (recent.erase q) recent q i g h hfs ht hi hgv hgp hgt
    (List.erase_sublist q recent) ?_ ?_
  · intro p
    rw [hnd.mem_erase_iff, hres p]
    constructor
    · rintro ⟨hpq, x, hx, hxv, hxp⟩
      obtain ⟨j, hj⟩ := List.mem_iff_getElem?.1 hx
      refine ⟨j, x, ?_, hj, hxv, hxp⟩
      rintro rfl
      rw [hf] at hj
      cases hj
      exact hpq (by rw [← hxp, hfp])
    · rintro ⟨j, x, hji, hj, hxv, hxp⟩
      refine ⟨?_, x, List.getElem?_mem hj, hxv, hxp⟩
      rintro rfl
      exact hji (hd j i x f hj hf hxv hfv (by rw [hxp, hfp]))
  · intro j x hji hj hxv hxp
    exact hji (hd j i x f hj hf hxv hfv (by rw [hxp, hfp]))

theorem lruInv_install (s s' : MMU) (recent : List Int) (q : Int) (v : Nat)
    (fv : FrameEntry) (h : LruInv s recent)
    (hfv : s.frames[v]? = some fv)
    (hnew : ∀ f ∈ s.frames, ¬ (f.valid = true ∧ f.pageNo = q))
    (hfs : s'.frames = s.frames.set v (loadedFrame q (s.tick + 1)))
    (ht : s'.tick = s.tick + 1) :
    LruInv s' (q :: (if fv.valid = true then recent.erase fv.pageNo else recent)) := by
  have hnd := nodup_of_lruInv s recent h
  have hd := h.1
  have hres := h.2.2.1
  have hi : v < s.frames.length := (List.getElem?_eq_some.1 hfv).1
  refine lruInv_stamp s s' _ recent q v _ h hfs ht hi rfl rfl rfl ?_ ?_ ?_
  · split
    · exact List.erase_sublist _ recent
    · exact List.Sublist.refl _
  · intro p
    by_cases hv : fv.valid = true
    · rw [if_pos hv, hnd.mem_erase_iff, hres p]
      constructor
      · rintro ⟨hpq, x, hx, hxv, hxp⟩
        obtain ⟨j, hj⟩ := List.mem_iff_getElem?.1 hx
        refine ⟨j, x, ?_, hj, hxv, hxp⟩
        rintro rfl
        rw [hfv] at hj
        cases hj
        exact hpq hxp.symm
      · rintro ⟨j, x, hji, hj, hxv, hxp⟩
        refine ⟨?_, x, List.getElem?_mem hj, hxv, hxp⟩
        rintro rfl
        exact hji (hd j v x fv hj hfv hxv hv hxp)
    · rw [if_neg hv, hres p]
      constructor
      · rintro ⟨x, hx, hxv, hxp⟩
        obtain ⟨j, hj⟩ := List.mem_iff_getElem?.1 hx
        refine ⟨j, x, ?_, hj, hxv, hxp⟩
        rintro rfl
        rw [hfv] at hj
        cases hj
        exact hv hxv
      · rintro ⟨j, x, -, hj, hxv, hxp⟩
        exact ⟨x, List.getElem?_mem hj, hxv, hxp⟩
  · intro j x _ hj hxv hxp
    exact hnew x (List.getElem?_mem hj) ⟨hxv, hxp⟩

theorem lruInv_checkInMemory (s : MMU) (recent : List Int) (q : Int)
    (h : LruInv s recent) (hres : findFrameByPage s q ≠ -1) (ht : s.tick < ULONG_MAX) :
    LruInv (checkInMemory s q).2 (q :: recent.erase q) ∧
    (checkInMemory s q).2.tick = s.tick + 1 := by
  have hex : ∃ f ∈ s.frames, f.valid = true ∧ f.pageNo = q := by
    by_contra hno
    apply hres
    rw [findFrameByPage_eq_neg_one_iff]
    intro f hf hfp
    exact hno ⟨f, hf, hfp⟩
  obtain ⟨i, f, hi, hf, hfv, hfp, -⟩ := findFrameByPage_found s q hex
  rw [checkInMemory_of_found s q i f hi hf, tickIncr_of_lt s.tick ht]
  exact ⟨lruInv_touch s _ recent q i f _ h hf hfv hfp rfl rfl hfv hfp rfl, rfl⟩

theorem lruInv_markWritten (s : MMU) (recent : List Int) (q : Int)
    (h : LruInv s recent) (hres : findFrameByPage s q ≠ -1) (ht : s.tick < ULONG_MAX) :
    LruInv (markWritten s q) (q :: recent.erase q) ∧
    (markWritten s q).tick = s.tick + 1 := by
  have hex : ∃ f ∈ s.frames, f.valid = true ∧ f.pageNo = q := by
    by_contra hno
    apply hres
    rw [findFrameByPage_eq_neg_one_iff]
    intro f hf hfp
    exact hno ⟨f, hf, hfp⟩
  obtain ⟨i, f, hi, hf, hfv, hfp, -⟩ := findFrameByPage_found s q hex
  rw [markWritten_of_found s q i f hi hf, tickIncr_of_lt s.tick ht]
  exact ⟨lruInv_touch s _ recent q i f _ h hf hfv hfp rfl rfl hfv hfp rfl, rfl⟩

theorem resident_of_lruInv_head (s : MMU) (X : List Int) (q : Int) (h : LruInv s (q :: X)) :
    findFrameByPage s q ≠ -1 := by
  rw [Ne, findFrameByPage_eq_neg_one_iff]
  intro hno
  obtain ⟨f, hf, hfp⟩ := (h.2.2.1 q).1 (List.mem_cons_self _ _)
  exact hno f hf hfp

theorem mem_recent_iff_resident (s : MMU) (recent : List Int) (q : Int)
    (h : LruInv s recent) : q ∈ recent ↔ findFrameByPage s q ≠ -1 := by
  rw [h.2.2.1 q, Ne, findFrameByPage_eq_neg_one_iff]
  constructor
  · rintro ⟨f, hf, hfp⟩ hno
    exact hno f hf hfp
  · intro hres
    by_contra hno
    exact hres (fun f hf hfp => hno ⟨f, hf, hfp⟩)

/-- The frame of least stamp holds the page at the back of the list. -/
theorem lru_victim_is_last (s : MMU) (recent : List Int) (v : Nat) (f : FrameEntry) (w : Int)
    (h : LruInv s recent) (hf : s.frames[v]? = some f) (hfv : f.valid = true)
    (hmin : ∀ (j : Nat) (g : FrameEntry), s.frames[j]? = some g → g.valid = true →
      f.lastAccessTime ≤ g.lastAccessTime)
    (hw : recent.getLast? = some w) : f.pageNo = w := by
  obtain ⟨hd, -, hres, hpw⟩ := h
  have hsplit := getLast?_eq_some_concat recent w hw
  have hfmem : f.pageNo ∈ recent := (hres f.pageNo).2 ⟨f, List.getElem?_mem hf, hfv, rfl⟩
  rw [hsplit] at hpw hfmem
  rcases List.mem_append.1 hfmem with hin | hin
  · exfalso
    have hlt := (List.pairwise_append.1 hpw).2.2 f.pageNo hin w (List.mem_singleton.2 rfl)
    have hwmem : w ∈ recent := by
      rw [hsplit]
      exact List.mem_append.2 (Or.inr (List.mem_singleton.2 rfl))
    obtain ⟨g, hg, hgv, hgp⟩ := (hres w).1 hwmem
    obtain ⟨j, hj⟩ := List.mem_iff_getElem?.1 hg
    rw [stampOf_of_frame s v f hd hf hfv, ← hgp, stampOf_of_frame s j g hd hj hgv] at hlt
    have := hmin j g hj hgv
    omega
  · exact List.mem_singleton.1 hin

theorem lruInv_mainInit (n : Nat) (s0 : MMU) : LruInv (mainInit (n : Int) s0).mmu [] := by
  have hnone : ∀ (i : Nat) (f : FrameEntry),
      (createMMU true (n : Int) s0).2.frames[i]? = some f → f.valid = true → False := by
    intro i f hf hfv
    simp only [createMMU, Bool.not_true, Bool.false_eq_true, if_false,
      List.getElem?_replicate] at hf
    split at hf
    · cases hf
      cases hfv
    · cases hf
  refine ⟨distinctPages_createMMU _ s0,
    ⟨fun i f hf hfv => (hnone i f hf hfv).elim, fun i _ f _ hf _ hfv _ _ => (hnone i f hf hfv).elim⟩,
    ?_, List.Pairwise.nil⟩
  intro p
  constructor
  · intro h
    cases h
  · rintro ⟨f, hf, hfv, -⟩
    obtain ⟨i, hi⟩ := List.mem_iff_getElem?.1 hf
    exact (hnone i f hi hfv).elim

/-! ## The reference LRU list is ordered by most recent access -/

theorem lastAccessBefore_append (past : List Int) (x y q : Int)
    (h : LastAccessBefore past y x) (hq : y ≠ q) : LastAccessBefore (past ++ [q]) y x := by
  obtain ⟨pre1, pre2, hp, hy1, hy2⟩ := h
  refine ⟨pre1, pre2 ++ [q], by rw [hp]; simp, hy1, ?_⟩
  intro hmem
  rcases List.mem_cons.1 hmem with hx | hmem
  · exact hy2 (List.mem_cons.2 (Or.inl hx))
  · rcases List.mem_append.1 hmem with h2 | h2
    · exact hy2 (List.mem_cons_of_mem _ h2)
    · exact hq (List.mem_singleton.1 h2)

theorem nodup_of_recencyOrdered (past recent : List Int) (h : RecencyOrdered past recent) :
    recent.Nodup := by
  unfold List.Nodup
  refine List.Pairwise.imp ?_ h.2
  rintro a b ⟨pre1, pre2, -, -, hb⟩ he
  exact hb (List.mem_cons.2 (Or.inl he.symm))

/-- After an access to `q`, the list `q :: X`, with `X` a part of the old list without `q`,
is again in order of most recent access. -/
theorem recencyOrdered_cons (past recent X : List Int) (q : Int)
    (h : RecencyOrdered past recent) (hX : X.Sublist recent) (hq : q ∉ X) :
    RecencyOrdered (past ++ [q]) (q :: X) := by
  obtain ⟨hmem, hpw⟩ := h
  constructor
  · intro p hp
    rcases List.mem_cons.1 hp with rfl | hp
    · simp
    · exact List.mem_append.2 (Or.inl (hmem p (hX.subset hp)))
  · rw [List.pairwise_cons]
    constructor
    · intro y hy
      refine ⟨past, [], rfl, hmem y (hX.subset hy), ?_⟩
      intro hmem'
      simp only [List.mem_singleton] at hmem'
      exact hq (by rw [← hmem']; exact hy)
    · refine List.Pairwise.imp_of_mem ?_ (List.Pairwise.sublist hX hpw)
      intro a b _ hb hab
      refine lastAccessBefore_append past a b q hab ?_
      rintro rfl
      exact hq hb

theorem lruListStep_recencyOrdered (N : Nat) (past recent : List Int) (q : Int)
    (h : RecencyOrdered past recent) :
    RecencyOrdered (past ++ [q]) (lruListStep N recent q).2 ∧
    ∀ w : Int, (lruListStep N recent q).1 = some w →
      w ∈ recent ∧ ∀ p ∈ recent, p ≠ w → LastAccessBefore past w p := by
  have hnd := nodup_of_recencyOrdered past recent h
  unfold lruListStep
  by_cases hin : q ∈ recent
  · rw [if_pos hin]
    refine ⟨recencyOrdered_cons past recent _ q h (List.erase_sublist q recent) ?_, ?_⟩
    · intro hmem
      exact (hnd.mem_erase_iff.1 hmem).1 rfl
    · intro w hw
      cases hw
  · rw [if_neg hin]
    by_cases hlt : recent.length < N
    · rw [if_pos hlt]
      exact ⟨recencyOrdered_cons past recent _ q h (List.Sublist.refl _) hin,
        fun w hw => by cases hw⟩
    · rw [if_neg hlt]
      cases hg : recent.getLast? with
      | none =>
        have : recent = [] := List.getLast?_eq_none_iff.1 hg
        subst this
        constructor
        · constructor
          · intro p hp
            cases hp
          · exact List.Pairwise.nil
        · intro w hw
          cases hw
      | some w0 =>
        have hsplit := getLast?_eq_some_concat recent w0 hg
        refine ⟨recencyOrdered_cons past recent _ q h (List.dropLast_sublist recent) ?_, ?_⟩
        · intro hmem
          exact hin (List.mem_of_mem_dropLast hmem)
        · intro w hw
          simp only [Option.some.injEq] at hw
          subst hw
          have hpw := h.2
          rw [hsplit] at hpw
          have hlast := (List.pairwise_append.1 hpw).2.2
          refine ⟨by rw [hsplit]; simp, ?_⟩
          intro p hp hpw0
          rw [hsplit] at hp
          rcases List.mem_append.1 hp with hp | hp
          · exact hlast p hp w0 (List.mem_singleton.2 rfl)
          · exact absurd (List.mem_singleton.1 hp) hpw0

theorem lruListRun_recencyOrdered (N : Nat) (ps : List Int) :
    ∀ past recent : List Int, RecencyOrdered past recent →
      RecencyOrdered (past ++ ps) (lruListRun N recent ps).2 := by
  induction ps with
  | nil => intro past recent h; simpa [lruListRun] using h
  | cons q ps ih =>
    intro past recent h
    have h1 := (lruListStep_recencyOrdered N past recent q h).1
    have h2 := ih (past ++ [q]) _ h1
    simpa [lruListRun] using h2

theorem lruListRun_append (N : Nat) (pre : List Int) :
    ∀ (recent ps : List Int),
      (lruListRun N recent (pre ++ ps)).1 =
        (lruListRun N recent pre).1 ++ (lruListRun N (lruListRun N recent pre).2 ps).1 := by
  induction pre with
  | nil => intro recent ps; simp [lruListRun]
  | cons q pre ih =>
    intro recent ps
    rw [List.cons_append]
    simp only [lruListRun]
    rw [ih]
    rfl

/-! ## LRU: the trace loop while the tick does not wrap -/

theorem tickIncr_le_max (t : Nat) : tickIncr t ≤ ULONG_MAX := by
  unfold tickIncr ULONG_MAX
  omega

theorem lt_max_of_le_tickIncr (t : Nat) (hb : t ≤ ULONG_MAX) (h : t ≤ tickIncr t) :
    t < ULONG_MAX := by
  unfold tickIncr at h
  unfold ULONG_MAX at *
  omega

theorem lt_max_of_le_tickIncr2 (t : Nat) (hb : t ≤ ULONG_MAX)
    (h : t ≤ tickIncr (tickIncr t)) : t + 2 ≤ ULONG_MAX := by
  unfold tickIncr at h
  unfold ULONG_MAX at *
  omega

theorem lt_max_of_le_tickIncr3 (t : Nat) (hb : t ≤ ULONG_MAX)
    (h : t ≤ tickIncr (tickIncr (tickIncr t))) : t + 3 ≤ ULONG_MAX := by
  unfold tickIncr at h
  unfold ULONG_MAX at *
  omega

theorem checkInMemory_tick_of_resident (s : MMU) (q : Int)
    (hres : findFrameByPage s q ≠ -1) :
    (checkInMemory s q).2.tick = tickIncr s.tick := by
  have hex : ∃ f ∈ s.frames, f.valid = true ∧ f.pageNo = q := by
    by_contra hno
    apply hres
    rw [findFrameByPage_eq_neg_one_iff]
    intro f hf hfp
    exact hno ⟨f, hf, hfp⟩
  obtain ⟨i, f, hi, hf, -⟩ := findFrameByPage_found s q hex
  rw [checkInMemory_of_found s q i f hi hf]

theorem accessMark_tick_of_resident (c : Char) (s : MMU) (q : Int)
    (hres : findFrameByPage s q ≠ -1) :
    (accessMark c s q).tick = if (c == 'W') = true then tickIncr s.tick else s.tick := by
  have hex : ∃ f ∈ s.frames, f.valid = true ∧ f.pageNo = q := by
    by_contra hno
    apply hres
    rw [findFrameByPage_eq_neg_one_iff]
    intro f hf hfp
    exact hno ⟨f, hf, hfp⟩
  obtain ⟨i, f, hi, hf, -⟩ := findFrameByPage_found s q hex
  unfold accessMark
  split
  · rw [markWritten_of_found s q i f hi hf]
  · rfl

theorem resident_of_sameKeys (fs gs : List FrameEntry) (p : Int) (h : SameKeys fs gs)
    (hr : ∃ f ∈ fs, f.valid = true ∧ f.pageNo = p) :
    ∃ g ∈ gs, g.valid = true ∧ g.pageNo = p := by
  obtain ⟨f, hf, hfv, hfp⟩ := hr
  obtain ⟨i, hi⟩ := List.mem_iff_getElem?.1 hf
  have hlt : i < gs.length := by
    rw [h.1]
    exact (List.getElem?_eq_some.1 hi).1
  have hg : gs[i]? = some (gs[i]) := List.getElem?_eq_getElem hlt
  obtain ⟨f', hf', hv, hp⟩ := h.2 i _ hg
  rw [hi] at hf'
  cases hf'
  exact ⟨_, List.getElem?_mem hg, by rw [← hv]; exact hfv, by rw [← hp]; exact hfp⟩

theorem findFrameByPage_ne_of_resident (s : MMU) (p : Int)
    (hr : ∃ f ∈ s.frames, f.valid = true ∧ f.pageNo = p) : findFrameByPage s p ≠ -1 := by
  rw [Ne, findFrameByPage_eq_neg_one_iff]
  intro hno
  obtain ⟨f, hf, hfp⟩ := hr
  exact hno f hf hfp

theorem resident_after_set (fs : List FrameEntry) (v : Nat) (q : Int) (t : Nat)
    (hv : v < fs.length) :
    ∃ g ∈ fs.set v (loadedFrame q t), g.valid = true ∧ g.pageNo = q := by
  refine ⟨loadedFrame q t, ?_, rfl, rfl⟩
  apply List.getElem?_mem (n := v)
  rw [List.getElem?_set, if_pos rfl, if_pos hv]

/-- With the page at the front of the list, the handling of the access letter keeps the
list, provided the tick does not wrap if the letter is `W`. -/
theorem lruInv_accessMark (c : Char) (s : MMU) (X : List Int) (q : Int)
    (h : LruInv s (q :: X)) (ht : (c == 'W') = true → s.tick < ULONG_MAX) :
    LruInv (accessMark c s q) (q :: X) := by
  unfold accessMark
  split
  · rename_i hc
    obtain ⟨h1, -⟩ :=
      lruInv_markWritten s (q :: X) q h (resident_of_lruInv_head s X q h) (ht hc)
    rw [List.erase_cons_head] at h1
    exact h1
  · exact h

theorem mainStep_lru (rand : Nat → Nat × Nat) (d : Driver) (e : Event)
    (rlog : List Handled) (recent : List Int)
    (hinv : DriverInv d rlog) (hlru : LruInv d.mmu recent)
    (hlen : (recent.length : Int) = d.allocated)
    (hrw : e.rw = 'R' ∨ e.rw = 'W') (hb : d.mmu.tick ≤ ULONG_MAX)
    (hmono : ∀ (hd : Handled) (d1 : Driver),
      mainStep rand repl.lru d e = some (hd, d1) → d.mmu.tick ≤ d1.mmu.tick) :
    ∃ (hd : Handled) (d1 : Driver),
      mainStep rand repl.lru d e = some (hd, d1) ∧ DriverInv d1 (hd :: rlog) ∧
      d1.mmu.frames.length = d.mmu.frames.length ∧
      LruInv d1.mmu (lruListStep d.mmu.frames.length recent (pageOf e)).2 ∧
      (((lruListStep d.mmu.frames.length recent (pageOf e)).2.length : Nat) : Int)
        = d1.allocated ∧
      d1.mmu.tick ≤ ULONG_MAX ∧
      hd.victim.map (fun w => w.pageNo) =
        (lruListStep d.mmu.frames.length recent (pageOf e)).1 := by
  obtain ⟨hd, d1, hstep, hinv1, -⟩ := mainStep_inv rand repl.lru d e rlog hinv hrw
  have hlen1 := mainStep_length rand repl.lru d d1 e hd hstep
  have hmono1 := hmono hd d1 hstep
  refine ⟨hd, d1, hstep, hinv1, hlen1, ?_⟩
  obtain ⟨hN, hh, ha0, haN, hvp, hdist, -⟩ := hinv
  have hmem := mem_recent_iff_resident d.mmu recent (pageOf e) hlru
  by_cases hmiss : findFrameByPage d.mmu (pageOf e) = -1
  · have hnotin : ¬ pageOf e ∈ recent := fun hin => (hmem.1 hin) hmiss
    have hnew := (findFrameByPage_eq_neg_one_iff d.mmu (pageOf e)).1 hmiss
    by_cases hroom : d.allocated < numFrames d.mmu
    · -- allocation
      obtain ⟨a, ha⟩ : ∃ a : Nat, d.allocated = (a : Int) := ⟨d.allocated.toNat, by omega⟩
      have halt : a < d.mmu.frames.length := by
        unfold numFrames at hroom
        omega
      rw [mainStep_alloc rand repl.lru d e hrw hmiss hroom] at hstep
      simp only [Option.some.injEq, Prod.mk.injEq] at hstep
      obtain ⟨rfl, rfl⟩ := hstep
      have hfree := findFreeFrame_of_validPrefix d.mmu a (by rw [← ha]; exact hvp) halt
      have hfa : d.mmu.frames[a]? = some (d.mmu.frames[a]) := List.getElem?_eq_getElem halt
      have hinvalid : ¬ ((d.mmu.frames[a]).valid = true) := by
        rw [hvp a _ hfa, ha]
        omega
      have hstepq : lruListStep d.mmu.frames.length recent (pageOf e)
          = (none, pageOf e :: recent) := by
        have : recent.length < d.mmu.frames.length := by omega
        simp [lruListStep, hnotin, this]
      rw [hstepq]
      obtain ⟨m, hm⟩ : ∃ m : MMU, m = (allocateFrame d.mmu (pageOf e)).2 := ⟨_, rfl⟩
      rw [← hm] at hmono1 ⊢
      have hmdef : m = { d.mmu with tick := tickIncr d.mmu.tick,
                                    frames := d.mmu.frames.set a
                                      (loadedFrame (pageOf e) (tickIncr d.mmu.tick)) } := by
        rw [hm, allocateFrame_of_found d.mmu (pageOf e) a hfree]
      have hmres : findFrameByPage m (pageOf e) ≠ -1 :=
        findFrameByPage_ne_of_resident m _ (by rw [hmdef]; exact resident_after_set _ a _ _ halt)
      have htk : (accessMark e.rw m (pageOf e)).tick =
          if (e.rw == 'W') = true then tickIncr (tickIncr d.mmu.tick)
          else tickIncr d.mmu.tick := by
        rw [accessMark_tick_of_resident e.rw m _ hmres, hmdef]
      have hmono2 : d.mmu.tick ≤ (accessMark e.rw m (pageOf e)).tick := hmono1
      rw [htk] at hmono2
      have hbound : d.mmu.tick < ULONG_MAX ∧
          ((e.rw == 'W') = true → d.mmu.tick + 2 ≤ ULONG_MAX) := by
        by_cases hW : (e.rw == 'W') = true
        · rw [if_pos hW] at hmono2
          have := lt_max_of_le_tickIncr2 _ hb hmono2
          exact ⟨by omega, fun _ => this⟩
        · rw [if_neg hW] at hmono2
          exact ⟨lt_max_of_le_tickIncr _ hb hmono2, fun h => absurd h hW⟩
      have htick1 := tickIncr_of_lt d.mmu.tick hbound.1
      have hins := lruInv_install d.mmu m recent (pageOf e) a _ hlru hfa hnew
        (by rw [hmdef, htick1]) (by rw [hmdef]; exact htick1)
      rw [if_neg hinvalid] at hins
      have hmt : m.tick = d.mmu.tick + 1 := by rw [hmdef]; exact htick1
      have hmark := lruInv_accessMark e.rw m recent (pageOf e) hins
        (fun hW => by rw [hmt]; have := hbound.2 hW; omega)
      refine ⟨hmark, ?_, ?_, rfl⟩
      · simp only [List.length_cons]
        push_cast
        omega
      · show (accessMark e.rw m (pageOf e)).tick ≤ ULONG_MAX
        rw [htk]
        split <;> exact tickIncr_le_max _
    · -- eviction
      have hfull : AllValid d.mmu := allValid_of_validPrefix d.mmu d.allocated hvp (by omega)
      obtain ⟨v, hv, hc, hcase⟩ := chooseVictim_lru rand d.mmu hN
      have hfv0 : d.mmu.frames[v]? = some (d.mmu.frames[v]) := List.getElem?_eq_getElem hv
      have hsel := selectVictim_of_choose rand d.mmu d.mmu (pageOf e) repl.lru v _ hN hc hfv0
      obtain ⟨m, hm⟩ : ∃ m : MMU, m =
          { d.mmu with tick := tickIncr d.mmu.tick,
                       frames := d.mmu.frames.set v
                         (loadedFrame (pageOf e) (tickIncr d.mmu.tick)) } := ⟨_, rfl⟩
      rw [← hm] at hsel
      rw [mainStep_evict rand repl.lru d e _ _ hrw hmiss hroom hsel] at hstep
      simp only [Option.some.injEq, Prod.mk.injEq] at hstep
      obtain ⟨rfl, rfl⟩ := hstep
      have hmres : findFrameByPage m (pageOf e) ≠ -1 :=
        findFrameByPage_ne_of_resident m _ (by rw [hm]; exact resident_after_set _ v _ _ hv)
      have hm1res : findFrameByPage (checkInMemory m (pageOf e)).2 (pageOf e) ≠ -1 := by
        apply findFrameByPage_ne_of_resident
        apply resident_of_sameKeys _ _ _ (checkInMemory_sameKeys m (pageOf e))
        rw [hm]
        exact resident_after_set _ v _ _ hv
      have htk : (accessMark e.rw (checkInMemory m (pageOf e)).2 (pageOf e)).tick =
          if (e.rw == 'W') = true then tickIncr (tickIncr (tickIncr d.mmu.tick))
          else tickIncr (tickIncr d.mmu.tick) := by
        rw [accessMark_tick_of_resident e.rw _ _ hm1res,
          checkInMemory_tick_of_resident m _ hmres, hm]
      have hmono2 : d.mmu.tick ≤
          (accessMark e.rw (checkInMemory m (pageOf e)).2 (pageOf e)).tick := hmono1
      rw [htk] at hmono2
      have hbound : d.mmu.tick + 2 ≤ ULONG_MAX ∧
          ((e.rw == 'W') = true → d.mmu.tick + 3 ≤ ULONG_MAX) := by
        by_cases hW : (e.rw == 'W') = true
        · rw [if_pos hW] at hmono2
          have := lt_max_of_le_tickIncr3 _ hb hmono2
          exact ⟨by omega, fun _ => this⟩
        · rw [if_neg hW] at hmono2
          exact ⟨lt_max_of_le_tickIncr2 _ hb hmono2, fun h => absurd h hW⟩
      have htick1 : tickIncr d.mmu.tick = d.mmu.tick + 1 :=
        tickIncr_of_lt d.mmu.tick (by omega)
      have hstamps := hlru.2.1
      rcases hcase with ⟨rfl, hnone⟩ | ⟨f, hf, hfv, -, hmin, -⟩
      · exfalso
        have hv0 := hfull _ (List.getElem?_mem hfv0)
        have hbd := (hstamps.1 0 _ hfv0 hv0).2
        exact hnone _ (List.getElem?_mem hfv0) ⟨hv0, by omega⟩
      · rw [hfv0] at hf
        cases hf
        have hmf : m.frames = d.mmu.frames.set v (loadedFrame (pageOf e) (d.mmu.tick + 1)) := by
          rw [hm, htick1]
        have hmt : m.tick = d.mmu.tick + 1 := by
          rw [hm]
          exact htick1
        have hrl : recent.length = d.mmu.frames.length := by
          unfold numFrames at hroom haN
          omega
        have hne : recent ≠ [] := by
          intro h0
          rw [h0] at hrl
          simp at hrl
          omega
        obtain ⟨w, hw⟩ : ∃ w, recent.getLast? = some w := by
          cases hg : recent.getLast? with
          | none => exact absurd (List.getLast?_eq_none_iff.1 hg) hne
          | some w => exact ⟨w, rfl⟩
        have hfw := lru_victim_is_last d.mmu recent v _ w hlru hfv0 hfv hmin hw
        have hstepq : lruListStep d.mmu.frames.length recent (pageOf e)
            = (some w, pageOf e :: recent.dropLast) := by
          have : ¬ recent.length < d.mmu.frames.length := by omega
          simp [lruListStep, hnotin, this, hw]
        rw [hstepq]
        have hins := lruInv_install d.mmu m recent (pageOf e) v _ hlru hfv0 hnew hmf hmt
        rw [if_pos hfv, hfw, erase_getLast recent w hw (nodup_of_lruInv _ _ hlru)] at hins
        obtain ⟨hchk, hct⟩ := lruInv_checkInMemory m _ (pageOf e) hins hmres
          (by rw [hmt]; omega)
        rw [List.erase_cons_head] at hchk
        have hmark := lruInv_accessMark e.rw _ recent.dropLast (pageOf e) hchk
          (fun hW => by rw [hct, hmt]; have := hbound.2 hW; omega)
        refine ⟨hmark, ?_, ?_, ?_⟩
        · simp only [List.length_cons, List.length_dropLast]
          have : 1 ≤ recent.length := by omega
          push_cast
          omega
        · show (accessMark e.rw (checkInMemory m (pageOf e)).2 (pageOf e)).tick ≤ ULONG_MAX
          rw [htk]
          split <;> exact tickIncr_le_max _
        · simp only [Option.map_some', hfw]
  · -- hit
    have hin : pageOf e ∈ recent := hmem.2 hmiss
    rw [mainStep_hit rand repl.lru d e hrw hmiss] at hstep
    simp only [Option.some.injEq, Prod.mk.injEq] at hstep
    obtain ⟨rfl, rfl⟩ := hstep
    have hstepq : lruListStep d.mmu.frames.length recent (pageOf e)
        = (none, pageOf e :: recent.erase (pageOf e)) := by
      simp [lruListStep, hin]
    rw [hstepq]
    have hm1res : findFrameByPage (checkInMemory d.mmu (pageOf e)).2 (pageOf e) ≠ -1 := by
      apply findFrameByPage_ne_of_resident
      apply resident_of_sameKeys _ _ _ (checkInMemory_sameKeys d.mmu (pageOf e))
      by_contra hno
      apply hmiss
      rw [findFrameByPage_eq_neg_one_iff]
      intro f hf hfp
      exact hno ⟨f, hf, hfp⟩
    have htk : (accessMark e.rw (checkInMemory d.mmu (pageOf e)).2 (pageOf e)).tick =
        if (e.rw == 'W') = true then tickIncr (tickIncr d.mmu.tick)
        else tickIncr d.mmu.tick := by
      rw [accessMark_tick_of_resident e.rw _ _ hm1res,
        checkInMemory_tick_of_resident d.mmu _ hmiss]
    have hmono2 : d.mmu.tick ≤
        (accessMark e.rw (checkInMemory d.mmu (pageOf e)).2 (pageOf e)).tick := hmono1
    rw [htk] at hmono2
    have hbound : d.mmu.tick < ULONG_MAX ∧
        ((e.rw == 'W') = true → d.mmu.tick + 2 ≤ ULONG_MAX) := by
      by_cases hW : (e.rw == 'W') = true
      · rw [if_pos hW] at hmono2
        have := lt_max_of_le_tickIncr2 _ hb hmono2
        exact ⟨by omega, fun _ => this⟩
      · rw [if_neg hW] at hmono2
        exact ⟨lt_max_of_le_tickIncr _ hb hmono2, fun h => absurd h hW⟩
    obtain ⟨hchk, hct⟩ := lruInv_checkInMemory d.mmu recent (pageOf e) hlru hmiss hbound.1
    have hmark := lruInv_accessMark e.rw _ _ (pageOf e) hchk
      (fun hW => by rw [hct]; have := hbound.2 hW; omega)
    refine ⟨hmark, ?_, ?_, rfl⟩
    · simp only [List.length_cons, List.length_erase_of_mem hin]
      have : 1 ≤ recent.length := List.length_pos_of_mem hin
      push_cast
      omega
    · show (accessMark e.rw (checkInMemory d.mmu (pageOf e)).2 (pageOf e)).tick ≤ ULONG_MAX
      rw [htk]
      split <;> exact tickIncr_le_max _

theorem mainLoop_lru (rand : Nat → Nat × Nat) (evs : List Event) :
    ∀ (d : Driver) (rlog : List Handled) (recent : List Int), DriverInv d rlog →
      LruInv d.mmu recent → (recent.length : Int) = d.allocated →
      (∀ e ∈ evs, e.rw = 'R' ∨ e.rw = 'W') →
      d.mmu.tick ≤ ULONG_MAX → tickNeverWrapsInLoop rand repl.lru d evs = true →
      ∃ (log : List Handled) (d1 : Driver),
        mainLoop rand repl.lru d evs = some (log, d1) ∧
        log.map (fun h => h.victim.map (fun w => w.pageNo)) =
          (lruListRun d.mmu.frames.length recent (evs.map pageOf)).1 ∧
        LruInv d1.mmu (lruListRun d.mmu.frames.length recent (evs.map pageOf)).2 ∧
        DriverInv d1 (log.reverse ++ rlog) ∧
        (((lruListRun d.mmu.frames.length recent (evs.map pageOf)).2.length : Nat) : Int)
          = d1.allocated ∧
        d1.mmu.tick ≤ ULONG_MAX ∧
        d1.mmu.frames.length = d.mmu.frames.length := by
  induction evs with
  | nil =>
    intro d rlog recent hinv hlru hlen _ hb _
    exact ⟨[], d, rfl, rfl, hlru, by simpa using hinv, hlen, hb, rfl⟩
  | cons e es ih =>
    intro d rlog recent hinv hlru hlen hrw hb hw
    obtain ⟨hd, d1, hstep, hinv1, hlen1, hlru1, hlen', hb1, hvic⟩ :=
      mainStep_lru rand d e rlog recent hinv hlru hlen (hrw e (List.mem_cons_self _ _)) hb
        (by
          intro hd d1 hstep
          simp only [tickNeverWrapsInLoop, hstep, Bool.and_eq_true, decide_eq_true_eq] at hw
          exact hw.1)
    have hw1 : tickNeverWrapsInLoop rand repl.lru d1 es = true := by
      simp only [tickNeverWrapsInLoop, hstep, Bool.and_eq_true, decide_eq_true_eq] at hw
      exact hw.2
    obtain ⟨log, d2, hloop, hvics, hlru2, hinv2, hlen2, hb2, hfl2⟩ :=
      ih d1 (hd :: rlog) _ hinv1 hlru1 hlen' (fun x hx => hrw x (List.mem_cons_of_mem _ hx))
        hb1 hw1
    rw [hlen1] at hvics hlru2 hlen2 hfl2
    refine ⟨hd :: log, d2, by simp [mainLoop, hstep, hloop], ?_, ?_, ?_, ?_, hb2, hfl2⟩
    · simp only [List.map_cons, lruListRun, hvic, hvics]
    · simpa only [List.map_cons, lruListRun] using hlru2
    · simpa using hinv2
    · simpa only [List.map_cons, lruListRun] using hlen2

theorem tickNeverWrapsInLoop_front (rand : Nat → Nat × Nat) (replace : repl)
    (evs es2 : List Event) :
    ∀ d : Driver, tickNeverWrapsInLoop rand replace d (evs ++ es2) = true →
      tickNeverWrapsInLoop rand replace d evs = true := by
  induction evs with
  | nil => intro d _; rfl
  | cons e es ih =>
    intro d h
    rw [List.cons_append] at h
    cases hstep : mainStep rand replace d e with
    | none => simp only [tickNeverWrapsInLoop, hstep]
    | some r =>
      obtain ⟨hd, d1⟩ := r
      simp only [tickNeverWrapsInLoop, hstep, Bool.and_eq_true, decide_eq_true_eq] at h ⊢
      exact ⟨h.1, ih d1 h.2⟩

theorem tickNeverWrapsInLoop_rest (rand : Nat → Nat × Nat) (replace : repl)
    (evs es2 : List Event) :
    ∀ (d d1 : Driver) (log : List Handled),
      mainLoop rand replace d evs = some (log, d1) →
      tickNeverWrapsInLoop rand replace d (evs ++ es2) = true →
      tickNeverWrapsInLoop rand replace d1 es2 = true := by
  induction evs with
  | nil =>
    intro d d1 log hloop h
    simp only [mainLoop, Option.some.injEq, Prod.mk.injEq] at hloop
    obtain ⟨-, rfl⟩ := hloop
    exact h
  | cons e es ih =>
    intro d d1 log hloop h
    rw [List.cons_append] at h
    cases hstep : mainStep rand replace d e with
    | none => simp [mainLoop, hstep] at hloop
    | some r =>
      obtain ⟨hd, d2⟩ := r
      simp only [tickNeverWrapsInLoop, hstep, Bool.and_eq_true, decide_eq_true_eq] at h
      cases hrest : mainLoop rand replace d2 es with
      | none => simp [mainLoop, hstep, hrest] at hloop
      | some r2 =>
        obtain ⟨hs, d3⟩ := r2
        simp only [mainLoop, hstep, hrest, Option.some.injEq, Prod.mk.injEq] at hloop
        obtain ⟨-, rfl⟩ := hloop
        exact ih d2 d3 hs hrest h.2

/-! ## The claims -/

/-- C8: `checkInMemory` returns -1 exactly when no valid frame holds the page, and in that
case the state after the call is the state before it, field for field. -/
theorem checkInMemory_miss_iff_and_unchanged (s : MMU) (p : Int) :
    ((checkInMemory s p).1 = -1 ↔ ∀ f ∈ s.frames, ¬ (f.valid = true ∧ f.pageNo = p)) ∧
    ((∀ f ∈ s.frames, ¬ (f.valid = true ∧ f.pageNo = p)) → (checkInMemory s p).2 = s) := by
  have key := findFrameByPage_eq_neg_one_iff s p
  refine ⟨⟨fun h => ?_, fun h => ?_⟩, fun h => ?_⟩
  · by_contra hne
    have hex : ∃ f ∈ s.frames, f.valid = true ∧ f.pageNo = p := by
      by_contra hno
      exact hne (fun f hf hv => hno ⟨f, hf, hv⟩)
    obtain ⟨i, f, hi, hf, -⟩ := findFrameByPage_found s p hex
    rw [checkInMemory_of_found s p i f hi hf] at h
    have hneg : (i : Int) = -1 := h
    omega
  · rw [checkInMemory_of_miss s p (key.2 h)]
  · rw [checkInMemory_of_miss s p (key.2 h)]

/-- C10: when every frame is occupied, `allocateFrame` returns -1 and the state after the
call is the state before it: no frame, tick or hand is written and no page is evicted. -/
theorem allocateFrame_full_fails_unchanged (s : MMU) (p : Int) (h : AllValid s) :
    (allocateFrame s p).1 = -1 ∧ (allocateFrame s p).2 = s := by
  simp [allocateFrame, findFreeFrame_eq_neg_one_of_allValid s h]

/-- Witness for C10: a full table of two frames. -/
theorem allocateFrame_full_fails_unchanged_witness :
    AllValid { frames := [⟨true, 4, true, false, 7⟩, ⟨true, 9, false, true, 3⟩],
               fifo_hand := 1, clock_hand := 0, tick := 7, seed := 1 } ∧
    (allocateFrame { frames := [⟨true, 4, true, false, 7⟩, ⟨true, 9, false, true, 3⟩],
                     fifo_hand := 1, clock_hand := 0, tick := 7, seed := 1 } 5).1 = -1 ∧
    (allocateFrame { frames := [⟨true, 4, true, false, 7⟩, ⟨true, 9, false, true, 3⟩],
                     fifo_hand := 1, clock_hand := 0, tick := 7, seed := 1 } 5).2 =
      { frames := [⟨true, 4, true, false, 7⟩, ⟨true, 9, false, true, 3⟩],
        fifo_hand := 1, clock_hand := 0, tick := 7, seed := 1 } :=
  ⟨by simp [AllValid], allocateFrame_full_fails_unchanged _ 5 (by simp [AllValid])⟩

/-- C7, as stated, fails where the tick is the largest `unsigned long`: page 5 is resident,
the hit is found in frame 0, and `tick++` wraps to 0 instead of increasing by one. -/
theorem checkInMemory_hit_tick_wraps :
    (∃ f ∈ ({ frames := [⟨true, 5, false, false, 3⟩], fifo_hand := 0, clock_hand := 0,
              tick := 18446744073709551615, seed := 1 } : MMU).frames,
        f.valid = true ∧ f.pageNo = 5) ∧
    (checkInMemory { frames := [⟨true, 5, false, false, 3⟩], fifo_hand := 0, clock_hand := 0,
                     tick := 18446744073709551615, seed := 1 } 5).1 = 0 ∧
    (checkInMemory { frames := [⟨true, 5, false, false, 3⟩], fifo_hand := 0, clock_hand := 0,
                     tick := 18446744073709551615, seed := 1 } 5).2.tick = 0 ∧
    (checkInMemory { frames := [⟨true, 5, false, false, 3⟩], fifo_hand := 0, clock_hand := 0,
                     tick := 18446744073709551615, seed := 1 } 5).2.tick ≠
      18446744073709551615 + 1 := by
  decide

/-- C7, amended: for a page held by some occupied frame, `checkInMemory` returns the lowest
index `i` of a valid frame holding it; the tick becomes the old tick plus one modulo `2^64`;
frame `i` gets the new tick as `lastAccessTime` and its reference bit set, and keeps
`valid`, `pageNo` and `modified`; every other frame, the length of the table, both hands and
the generator are unchanged. -/
theorem checkInMemory_hit (s : MMU) (p : Int)
    (h : ∃ f ∈ s.frames, f.valid = true ∧ f.pageNo = p) :
    ∃ (i : Nat) (f : FrameEntry),
      s.frames[i]? = some f ∧ f.valid = true ∧ f.pageNo = p ∧
      (∀ (j : Nat) (g : FrameEntry), j < i → s.frames[j]? = some g →
        ¬ (g.valid = true ∧ g.pageNo = p)) ∧
      (checkInMemory s p).1 = (i : Int) ∧
      (checkInMemory s p).2.tick = (s.tick + 1) % 2 ^ 64 ∧
      (checkInMemory s p).2.frames[i]? =
        some { valid := f.valid, pageNo := f.pageNo, modified := f.modified,
               referenceBit := true, lastAccessTime := (checkInMemory s p).2.tick } ∧
      (∀ j : Nat, j ≠ i → (checkInMemory s p).2.frames[j]? = s.frames[j]?) ∧
      (checkInMemory s p).2.frames.length = s.frames.length ∧
      (checkInMemory s p).2.fifo_hand = s.fifo_hand ∧
      (checkInMemory s p).2.clock_hand = s.clock_hand ∧
      (checkInMemory s p).2.seed = s.seed := by
  obtain ⟨i, f, hi, hf, hv, hp, hlow⟩ := findFrameByPage_found s p h
  have hlt : i < s.frames.length := (List.getElem?_eq_some.1 hf).1
  refine ⟨i, f, hf, hv, hp, hlow, ?_⟩
  rw [checkInMemory_of_found s p i f hi hf]
  refine ⟨rfl, rfl, ?_, ?_, ?_, rfl, rfl, rfl⟩
  · simp [List.getElem?_set, hlt]
  · intro j hj
    simp [List.getElem?_set, Ne.symm hj]
  · simp

/-- Witness for the amended C7: a hit on page 9 in the second of two frames. -/
theorem checkInMemory_hit_witness :
    ∃ (i : Nat) (f : FrameEntry),
      ({ frames := [⟨true, 4, true, false, 7⟩, ⟨true, 9, false, false, 3⟩],
         fifo_hand := 1, clock_hand := 0, tick := 7, seed := 1 } : MMU).frames[i]? = some f ∧
      (checkInMemory { frames := [⟨true, 4, true, false, 7⟩, ⟨true, 9, false, false, 3⟩],
                       fifo_hand := 1, clock_hand := 0, tick := 7, seed := 1 } 9).1 = (i : Int) ∧
      (checkInMemory { frames := [⟨true, 4, true, false, 7⟩, ⟨true, 9, false, false, 3⟩],
                       fifo_hand := 1, clock_hand := 0, tick := 7, seed := 1 } 9).2.tick =
        (7 + 1) % 2 ^ 64 := by
  obtain ⟨i, f, h1, -, -, -, h5, h6, -⟩ :=
    checkInMemory_hit
      { frames := [⟨true, 4, true, false, 7⟩, ⟨true, 9, false, false, 3⟩],
        fifo_hand := 1, clock_hand := 0, tick := 7, seed := 1 } 9
      ⟨⟨true, 9, false, false, 3⟩, by simp, rfl, rfl⟩
  exact ⟨i, f, h1, h5, h6⟩

/-- C9, as stated, fails where the tick is the largest `unsigned long`: frame 0 is free and
receives page 5, but its `lastAccessTime` is 0, the wrapped tick, not the old tick plus
one. -/
theorem allocateFrame_tick_wraps :
    (∃ f ∈ ({ frames := [⟨false, -1, false, false, 0⟩], fifo_hand := 0, clock_hand := 0,
              tick := 18446744073709551615, seed := 1 } : MMU).frames, f.valid = false) ∧
    allocateFrame { frames := [⟨false, -1, false, false, 0⟩], fifo_hand := 0, clock_hand := 0,
                    tick := 18446744073709551615, seed := 1 } 5 =
      (0, { frames := [⟨true, 5, false, true, 0⟩], fifo_hand := 0, clock_hand := 0,
            tick := 0, seed := 1 }) ∧
    (0 : Nat) ≠ 18446744073709551615 + 1 := by
  decide

/-- C9, amended: when some frame is free, `allocateFrame` returns the lowest index `i` of a
free frame; the tick becomes the old tick plus one modulo `2^64`; frame `i` becomes valid
with the page, `modified` clear, the reference bit set and the new tick as
`lastAccessTime`; every other frame, the length of the table, both hands and the generator
are unchanged. -/
theorem allocateFrame_free (s : MMU) (p : Int) (h : ∃ f ∈ s.frames, f.valid = false) :
    ∃ (i : Nat) (f : FrameEntry),
      s.frames[i]? = some f ∧ f.valid = false ∧
      (∀ (j : Nat) (g : FrameEntry), j < i → s.frames[j]? = some g → g.valid = true) ∧
      (allocateFrame s p).1 = (i : Int) ∧
      (allocateFrame s p).2.tick = (s.tick + 1) % 2 ^ 64 ∧
      (allocateFrame s p).2.frames[i]? =
        some { valid := true, pageNo := p, modified := false, referenceBit := true,
               lastAccessTime := (allocateFrame s p).2.tick } ∧
      (∀ j : Nat, j ≠ i → (allocateFrame s p).2.frames[j]? = s.frames[j]?) ∧
      (allocateFrame s p).2.frames.length = s.frames.length ∧
      (allocateFrame s p).2.fifo_hand = s.fifo_hand ∧
      (allocateFrame s p).2.clock_hand = s.clock_hand ∧
      (allocateFrame s p).2.seed = s.seed := by
  obtain ⟨i, f, hi, hf, hv, hlow⟩ := findFreeFrame_found s h
  have hlt : i < s.frames.length := (List.getElem?_eq_some.1 hf).1
  refine ⟨i, f, hf, hv, hlow, ?_⟩
  rw [allocateFrame_of_found s p i hi]
  refine ⟨rfl, rfl, ?_, ?_, ?_, rfl, rfl, rfl⟩
  · simp [List.getElem?_set, hlt, loadedFrame]
  · intro j hj
    simp [List.getElem?_set, Ne.symm hj]
  · simp

/-- Witness for the amended C9: the second of two frames is free. -/
theorem allocateFrame_free_witness :
    ∃ (i : Nat) (f : FrameEntry),
      ({ frames := [⟨true, 4, true, false, 7⟩, ⟨false, -1, false, false, 0⟩],
         fifo_hand := 0, clock_hand := 0, tick := 7, seed := 1 } : MMU).frames[i]? = some f ∧
      (allocateFrame { frames := [⟨true, 4, true, false, 7⟩, ⟨false, -1, false, false, 0⟩],
                       fifo_hand := 0, clock_hand := 0, tick := 7, seed := 1 } 9).1 = (i : Int) ∧
      (allocateFrame { frames := [⟨true, 4, true, false, 7⟩, ⟨false, -1, false, false, 0⟩],
                       fifo_hand := 0, clock_hand := 0, tick := 7, seed := 1 } 9).2.tick =
        (7 + 1) % 2 ^ 64 := by
  obtain ⟨i, f, h1, -, -, h4, h5, -⟩ :=
    allocateFrame_free
      { frames := [⟨true, 4, true, false, 7⟩, ⟨false, -1, false, false, 0⟩],
        fifo_hand := 0, clock_hand := 0, tick := 7, seed := 1 } 9
      ⟨⟨false, -1, false, false, 0⟩, by simp, rfl⟩
  exact ⟨i, f, h1, h4, h5⟩

/-- C2, as stated, fails on two full tables of one frame. Where the tick is the largest
`unsigned long`, the FIFO selection returns the record of frame 0 and loads page 7 there,
but the new tick and the frame's `lastAccessTime` are 0, not the old tick plus one. Where
`fifo_hand` is 1, outside the table, the FIFO selection reads `frames[1]`, which does not
exist, and no result is defined. -/
theorem selectVictim_wraps_tick_or_reads_outside :
    AllValid { frames := [⟨true, 5, true, true, 3⟩], fifo_hand := 0, clock_hand := 0,
               tick := 18446744073709551615, seed := 1 } ∧
    selectVictim countingRand
      { frames := [⟨true, 5, true, true, 3⟩], fifo_hand := 0, clock_hand := 0,
        tick := 18446744073709551615, seed := 1 } 7 repl.fifo =
      some (⟨5, true⟩,
            { frames := [⟨true, 7, false, true, 0⟩], fifo_hand := 0, clock_hand := 0,
              tick := 0, seed := 1 }) ∧
    (0 : Nat) ≠ 18446744073709551615 + 1 ∧
    AllValid { frames := [⟨true, 5, true, true, 3⟩], fifo_hand := 1, clock_hand := 0,
               tick := 3, seed := 1 } ∧
    selectVictim countingRand
      { frames := [⟨true, 5, true, true, 3⟩], fifo_hand := 1, clock_hand := 0,
        tick := 3, seed := 1 } 7 repl.fifo = none := by
  refine ⟨by simp [AllValid], by decide, by decide, by simp [AllValid], by decide⟩

/-- C2, amended: under every policy, for every page and every state with at least one
frame and both hands inside the table (in particular when all frames are occupied),
`selectVictim` returns exactly the pair `(pageNo, modified)` that the chosen frame `v` held
before the call, and afterwards frame `v` is valid, holds the new page, has `modified`
clear, the reference bit set and `lastAccessTime` equal to the new tick, which is the old
tick plus one modulo `2^64`. -/
theorem selectVictim_installs (rand : Nat → Nat × Nat) (s : MMU) (p : Int) (mode : repl)
    (hN : 1 ≤ s.frames.length) (hh : HandsInRange s) :
    ∃ (v : Nat) (f : FrameEntry) (s' : MMU),
      s.frames[v]? = some f ∧
      victimIndex rand s mode = some (v : Int) ∧
      selectVictim rand s p mode = some ({ pageNo := f.pageNo, modified := f.modified }, s') ∧
      s'.tick = (s.tick + 1) % 2 ^ 64 ∧
      s'.frames[v]? =
        some { valid := true, pageNo := p, modified := false, referenceBit := true,
               lastAccessTime := s'.tick } := by
  obtain ⟨v, f, s1, hf, hc, hmap, _, _, _, _, _, hsel⟩ := selectVictim_shape rand s p mode hN hh
  have hv : v < s1.frames.length := by
    rw [length_eq_of_map_clearRef_eq s.frames s1.frames hmap]
    exact (List.getElem?_eq_some.1 hf).1
  have hpos : ¬ (numFrames s ≤ 0) := by
    unfold numFrames
    omega
  have hnn : ¬ ((v : Int) < 0) := by omega
  refine ⟨v, f, _, hf, ?_, hsel, rfl, ?_⟩
  · simp [victimIndex, hpos, hc, hnn]
  · simp [List.getElem?_set, hv, loadedFrame]

/-- Witness for the amended C2: a clock selection on a full table of two frames. -/
theorem selectVictim_installs_witness :
    ∃ (v : Nat) (f : FrameEntry) (s' : MMU),
      ({ frames := [⟨true, 4, true, true, 7⟩, ⟨true, 9, false, false, 3⟩],
         fifo_hand := 1, clock_hand := 0, tick := 7, seed := 1 } : MMU).frames[v]? = some f ∧
      selectVictim countingRand
        { frames := [⟨true, 4, true, true, 7⟩, ⟨true, 9, false, false, 3⟩],
          fifo_hand := 1, clock_hand := 0, tick := 7, seed := 1 } 6 repl.repl_clock =
        some ({ pageNo := f.pageNo, modified := f.modified }, s') ∧
      s'.tick = (7 + 1) % 2 ^ 64 := by
  obtain ⟨v, f, s', h1, -, h3, h4, -⟩ :=
    selectVictim_installs countingRand
      { frames := [⟨true, 4, true, true, 7⟩, ⟨true, 9, false, false, 3⟩],
        fifo_hand := 1, clock_hand := 0, tick := 7, seed := 1 } 6 repl.repl_clock
      (by decide) (by simp [HandsInRange, numFrames])
  exact ⟨v, f, s', h1, h3, h4⟩

/-- C3: on a full table of at least one frame whose `lastAccessTime` values are any
`unsigned long` values, the largest included, `selectVictim` under `lru` evicts a frame `v`
whose `lastAccessTime` is the minimum over all frames and is strictly below that of every
frame of lower index: the record returned is that of frame `v` and the new page is loaded
into frame `v`, all else but the tick unchanged. With `lastAccessTime` 5, 2, 9 on frames
0, 1, 2 the victim is frame 1. -/
theorem selectVictim_lru_minimum :
    (∀ (rand : Nat → Nat × Nat) (s : MMU) (p : Int), 1 ≤ s.frames.length → AllValid s →
      (∀ f ∈ s.frames, f.lastAccessTime ≤ ULONG_MAX) →
      ∃ (v : Nat) (f : FrameEntry),
        s.frames[v]? = some f ∧
        (∀ (j : Nat) (g : FrameEntry), s.frames[j]? = some g →
          f.lastAccessTime ≤ g.lastAccessTime) ∧
        (∀ (j : Nat) (g : FrameEntry), j < v → s.frames[j]? = some g →
          f.lastAccessTime < g.lastAccessTime) ∧
        victimIndex rand s repl.lru = some (v : Int) ∧
        selectVictim rand s p repl.lru =
          some ({ pageNo := f.pageNo, modified := f.modified },
                { s with tick := tickIncr s.tick,
                         frames := s.frames.set v (loadedFrame p (tickIncr s.tick)) })) ∧
    (∀ (rand : Nat → Nat × Nat),
      victimIndex rand
        { frames := [⟨true, 10, false, true, 5⟩, ⟨true, 20, true, true, 2⟩,
                     ⟨true, 30, false, true, 9⟩],
          fifo_hand := 0, clock_hand := 0, tick := 9, seed := 1 } repl.lru = some 1 ∧
      selectVictim rand
        { frames := [⟨true, 10, false, true, 5⟩, ⟨true, 20, true, true, 2⟩,
                     ⟨true, 30, false, true, 9⟩],
          fifo_hand := 0, clock_hand := 0, tick := 9, seed := 1 } 40 repl.lru =
        some (⟨20, true⟩,
              { frames := [⟨true, 10, false, true, 5⟩, ⟨true, 40, false, true, 10⟩,
                           ⟨true, 30, false, true, 9⟩],
                fifo_hand := 0, clock_hand := 0, tick := 10, seed := 1 })) := by
  constructor
  · intro rand s p hN hall hmax
    have hpos : ¬ (numFrames s ≤ 0) := by
      unfold numFrames
      omega
    obtain ⟨v, hv, hc, hcase⟩ := chooseVictim_lru rand s hN
    have hnn : ¬ ((v : Int) < 0) := by omega
    have hidx : victimIndex rand s repl.lru = some (v : Int) := by
      simp [victimIndex, hpos, hc, hnn]
    rcases hcase with ⟨rfl, hnone⟩ | ⟨f, hf, _, _, hmin, hfirst⟩
    · have hf0 : s.frames[0]? = some (s.frames[0]) := List.getElem?_eq_getElem hv
      have htop : ∀ g ∈ s.frames, g.lastAccessTime = ULONG_MAX := by
        intro g hg
        have h1 := hnone g hg
        have h2 := hmax g hg
        have h3 := hall g hg
        have h4 : ¬ g.lastAccessTime < ULONG_MAX := fun h => h1 ⟨h3, h⟩
        omega
      refine ⟨0, _, hf0, ?_, ?_, hidx, selectVictim_of_choose rand s s p _ 0 _ hN hc hf0⟩
      · intro j g hg
        rw [htop g (List.getElem?_mem hg), htop _ (List.getElem?_mem hf0)]
      · intro j g hj
        omega
    · refine ⟨v, f, hf, ?_, ?_, hidx, selectVictim_of_choose rand s s p _ v f hN hc hf⟩
      · intro j g hg
        exact hmin j g hg (hall g (List.getElem?_mem hg))
      · intro j g hj hg
        exact hfirst j g hj hg (hall g (List.getElem?_mem hg))
  · intro rand
    constructor
    · rfl
    · rfl

/-- Witness for C3: a full table in which the maximum `unsigned long` appears. -/
theorem selectVictim_lru_minimum_witness :
    ∃ (v : Nat) (f : FrameEntry),
      ({ frames := [⟨true, 4, true, true, 18446744073709551615⟩, ⟨true, 9, false, false, 3⟩],
         fifo_hand := 0, clock_hand := 0, tick := 7, seed := 1 } : MMU).frames[v]? = some f ∧
      victimIndex countingRand
        { frames := [⟨true, 4, true, true, 18446744073709551615⟩, ⟨true, 9, false, false, 3⟩],
          fifo_hand := 0, clock_hand := 0, tick := 7, seed := 1 } repl.lru = some (v : Int) := by
  obtain ⟨v, f, h1, -, -, h4, -⟩ :=
    selectVictim_lru_minimum.1 countingRand
      { frames := [⟨true, 4, true, true, 18446744073709551615⟩, ⟨true, 9, false, false, 3⟩],
        fifo_hand := 0, clock_hand := 0, tick := 7, seed := 1 } 6
      (by decide) (by simp [AllValid]) (by simp [ULONG_MAX])
  exact ⟨v, f, h1, h4⟩

/-- C4: on a table of at least one frame with `fifo_hand = h` inside it, `selectVictim`
under `fifo` evicts the frame at index `h` (its record is returned and the new page is
loaded there) and sets `fifo_hand` to `(h + 1) mod N`, whatever the frames hold; hence in
any sequence of lookups, allocations, write marks and FIFO selections the `k` selections
evict frames `(h + j) mod N` for `j = 0..k-1` in order, whatever happens in between; and
after `createMMU(3)` and the allocation of pages 1, 2, 3 the next four selections evict
frames 0, 1, 2, 0. -/
theorem selectVictim_fifo_rotation :
    (∀ (rand : Nat → Nat × Nat) (s : MMU) (p : Int) (h : Nat),
      1 ≤ s.frames.length → s.fifo_hand = (h : Int) → h < s.frames.length →
      ∃ f : FrameEntry, s.frames[h]? = some f ∧
        victimIndex rand s repl.fifo = some (h : Int) ∧
        selectVictim rand s p repl.fifo =
          some ({ pageNo := f.pageNo, modified := f.modified },
                { s with fifo_hand := (((h + 1) % s.frames.length : Nat) : Int),
                         tick := tickIncr s.tick,
                         frames := s.frames.set h (loadedFrame p (tickIncr s.tick)) })) ∧
    (∀ (rand : Nat → Nat × Nat) (ops : List Op) (s : MMU) (h : Nat),
      1 ≤ s.frames.length → s.fifo_hand = (h : Int) → h < s.frames.length →
      OnlyFifoVictims ops →
      fifoVictims rand s ops =
        some ((List.range (victimCalls ops)).map
          (fun j => (((h + j) % s.frames.length : Nat) : Int)))) ∧
    (∀ (rand : Nat → Nat × Nat) (s0 : MMU),
      fifoVictims rand (createMMU true 3 s0).2
        [Op.alloc 1, Op.alloc 2, Op.alloc 3, Op.victim 4 repl.fifo, Op.check 2,
         Op.victim 5 repl.fifo, Op.write 3, Op.victim 6 repl.fifo, Op.victim 7 repl.fifo] =
      some [0, 1, 2, 0]) := by
  refine ⟨?_, ?_, ?_⟩
  · intro rand s p h hN hh hlt
    exact selectVictim_fifo_step rand s p h hN hh hlt
  · intro rand ops s h hN hh hlt honly
    exact fifoVictims_rotation rand ops s h hN hh hlt honly
  · intro rand s0
    have hlen : (createMMU true 3 s0).2.frames.length = 3 := by simp [createMMU]
    have honly : OnlyFifoVictims
        [Op.alloc 1, Op.alloc 2, Op.alloc 3, Op.victim 4 repl.fifo, Op.check 2,
         Op.victim 5 repl.fifo, Op.write 3, Op.victim 6 repl.fifo, Op.victim 7 repl.fifo] := by
      intro op hop p mode hpm
      subst hpm
      simp at hop
      rcases hop with ⟨-, h⟩ | ⟨-, h⟩ | ⟨-, h⟩ | ⟨-, h⟩ <;> exact h
    rw [fifoVictims_rotation rand _ (createMMU true 3 s0).2 0 (by omega) rfl (by omega) honly,
      hlen]
    rfl

/-- Witness for C4: a FIFO selection with the hand on the second of two frames. -/
theorem selectVictim_fifo_rotation_witness :
    ∃ f : FrameEntry,
      ({ frames := [⟨true, 4, true, true, 7⟩, ⟨false, -1, false, false, 0⟩],
         fifo_hand := 1, clock_hand := 0, tick := 7, seed := 1 } : MMU).frames[1]? = some f ∧
      victimIndex countingRand
        { frames := [⟨true, 4, true, true, 7⟩, ⟨false, -1, false, false, 0⟩],
          fifo_hand := 1, clock_hand := 0, tick := 7, seed := 1 } repl.fifo =
        some ((1 : Nat) : Int) := by
  obtain ⟨f, h1, h2, -⟩ :=
    selectVictim_fifo_rotation.1 countingRand
      { frames := [⟨true, 4, true, true, 7⟩, ⟨false, -1, false, false, 0⟩],
        fifo_hand := 1, clock_hand := 0, tick := 7, seed := 1 } 6 1
      (by decide) rfl (by decide)
  exact ⟨f, h1, h2⟩

/-- C1, as stated, fails: after `createMMU(2)`, two calls `allocateFrame(5)` leave frames
0 and 1 both valid and both holding page 5. -/
theorem allocateFrame_twice_duplicates :
    runOps countingRand (createMMU true 2 startState).2 [Op.alloc 5, Op.alloc 5] =
      some { frames := [⟨true, 5, false, true, 1⟩, ⟨true, 5, false, true, 2⟩],
             fifo_hand := 0, clock_hand := 0, tick := 2, seed := 1 } ∧
    ¬ DistinctPages [⟨true, 5, false, true, 1⟩, ⟨true, 5, false, true, 2⟩] := by
  refine ⟨by decide, ?_⟩
  intro h
  have := h 0 1 _ _ rfl rfl rfl rfl rfl
  omega

/-- C1, amended: after `createMMU(N)`, every sequence of `checkInMemory`, `allocateFrame`,
`selectVictim` (any policy) and write-marking calls runs to a state whose table still has
`N` frames, so at most `N` of them are valid; and when every `allocateFrame(p)` and
`selectVictim(p, _)` of the sequence is called with `p` not resident, as `main` does after
a miss, no two valid frames hold the same page number. -/
theorem engine_occupancy_invariant (rand : Nat → Nat × Nat) (N : Nat) (s0 : MMU)
    (ops : List Op) :
    ∃ s, runOps rand (createMMU true (N : Int) s0).2 ops = some s ∧
      s.frames.length = N ∧ validCount s ≤ N ∧
      (missGuarded rand (createMMU true (N : Int) s0).2 ops = true →
        DistinctPages s.frames) := by
  obtain ⟨s, hrun, hinv, hd⟩ :=
    runOps_engineInv rand N ops (createMMU true (N : Int) s0).2 (engineInv_createMMU N s0)
  refine ⟨s, hrun, hinv.1, ?_, fun hg => hd hg (distinctPages_createMMU _ s0)⟩
  unfold validCount
  rw [← hinv.1]
  exact List.length_filter_le _ _

/-- Witness for the amended C1: two allocations, a hit, a write mark and a clock selection
on two frames, each for a page that is not resident. -/
theorem engine_occupancy_invariant_witness :
    missGuarded countingRand (createMMU true ((2 : Nat) : Int) startState).2
      [Op.alloc 5, Op.alloc 6, Op.check 5, Op.write 6, Op.victim 7 repl.repl_clock] = true ∧
    ∃ s, runOps countingRand (createMMU true ((2 : Nat) : Int) startState).2
        [Op.alloc 5, Op.alloc 6, Op.check 5, Op.write 6, Op.victim 7 repl.repl_clock] = some s ∧
      validCount s ≤ 2 ∧ DistinctPages s.frames := by
  have hg : missGuarded countingRand (createMMU true ((2 : Nat) : Int) startState).2
      [Op.alloc 5, Op.alloc 6, Op.check 5, Op.write 6, Op.victim 7 repl.repl_clock] = true := by
    decide
  obtain ⟨s, h1, -, h3, h4⟩ :=
    engine_occupancy_invariant countingRand 2 startState
      [Op.alloc 5, Op.alloc 6, Op.check 5, Op.write 6, Op.victim 7 repl.repl_clock]
  exact ⟨hg, s, h1, h3, h4 hg⟩

/-- C6: in every run of the trace loop, for any policy, any table of at least one frame and
any trace of `R` and `W` events, the loop handles every event, and for every eviction the
victim record's `modified` flag is set if and only if the events before it contain a write
to the victim page after which that page was not loaded again, that is, a write since the
page was most recently loaded, the loading event included. For example, on one frame, page
10 loaded by a read and then written is evicted with `modified` set, and page 20 loaded and
only read is evicted with `modified` clear. -/
theorem victim_modified_iff_written_since_load :
    (∀ (rand : Nat → Nat × Nat) (replace : repl) (N : Nat) (s0 : MMU) (evs : List Event),
      1 ≤ N → (∀ e ∈ evs, e.rw = 'R' ∨ e.rw = 'W') →
      ∃ (log : List Handled) (d : Driver),
        mainLoop rand replace (mainInit (N : Int) s0) evs = some (log, d) ∧
        log.map (fun h => (h.page_number, h.rw)) =
          evs.map (fun e => (((e.address >>> pageoffset : Nat) : Int), e.rw)) ∧
        ∀ (pre suf : List Handled) (h : Handled) (w : page),
          log = pre ++ h :: suf → h.victim = some w →
          (w.modified = true ↔
            ∃ (p1 p2 : List Handled) (x : Handled), pre = p1 ++ x :: p2 ∧
              x.page_number = w.pageNo ∧ x.rw = 'W' ∧
              ∀ y ∈ p2, ¬ (y.page_number = w.pageNo ∧ y.fault = true))) ∧
    (mainLoop countingRand repl.lru (mainInit 1 startState)
        [⟨10 * 4096, 'R'⟩, ⟨10 * 4096 + 8, 'W'⟩, ⟨20 * 4096, 'R'⟩, ⟨30 * 4096, 'R'⟩]).map
      (fun r => r.1.map (fun h => (h.fault, h.victim))) =
      some [(true, none), (false, none), (true, some ⟨10, true⟩), (true, some ⟨20, false⟩)] := by
  constructor
  · intro rand replace N s0 evs hN hrw
    obtain ⟨log, d, hloop, -, hmap, hvic⟩ :=
      mainLoop_inv rand replace evs (mainInit (N : Int) s0) [] (driverInv_mainInit N hN s0) hrw
    refine ⟨log, d, hloop, hmap, ?_⟩
    intro pre suf h w hlog hw
    have := hvic pre suf h w hlog hw
    rw [this, List.append_nil, writtenSinceLoad_iff, List.reverse_reverse]
  · decide

/-- Witness for C6: three events on one frame under the clock policy; the second evicts the
page that the first loaded by a write. -/
theorem victim_modified_iff_written_since_load_witness :
    ∃ (log : List Handled) (d : Driver),
      mainLoop countingRand repl.repl_clock (mainInit ((1 : Nat) : Int) startState)
        [⟨10 * 4096, 'W'⟩, ⟨20 * 4096, 'R'⟩, ⟨30 * 4096, 'R'⟩] = some (log, d) ∧
      log.map (fun h => (h.page_number, h.rw)) = [(10, 'W'), (20, 'R'), (30, 'R')] := by
  obtain ⟨log, d, h1, h2, -⟩ :=
    victim_modified_iff_written_since_load.1 countingRand repl.repl_clock 1 startState
      [⟨10 * 4096, 'W'⟩, ⟨20 * 4096, 'R'⟩, ⟨30 * 4096, 'R'⟩] (le_refl _)
      (by decide)
  exact ⟨log, d, h1, by rw [h2]; decide⟩

/-- C11: `createMMU` leaves the same state whatever the state before it was (frames, both
hands, tick and generator are all reset, the generator to seed 1), so two runs with the
same frame count, policy and trace, started from any two earlier states, give the same
record of every iteration (hence the same victims) and the same final state, under every
policy, `repl_random` included; the same holds for any sequence of engine calls. -/
theorem run_deterministic (rand : Nat → Nat × Nat) (replace : repl) (framesCount : Int)
    (s0 s0' : MMU) (evs : List Event) (ops : List Op) :
    createMMU true framesCount s0 = createMMU true framesCount s0' ∧
    (createMMU true framesCount s0).2.seed = 1 ∧
    mainSetup true framesCount s0 = mainSetup true framesCount s0' ∧
    mainLoop rand replace (mainInit framesCount s0) evs =
      mainLoop rand replace (mainInit framesCount s0') evs ∧
    runOps rand (createMMU true framesCount s0).2 ops =
      runOps rand (createMMU true framesCount s0').2 ops := by
  have h : createMMU true framesCount s0 = createMMU true framesCount s0' := by
    simp [createMMU]
  refine ⟨h, by simp [createMMU], ?_, ?_, ?_⟩
  · simp only [mainSetup, h]
  · simp only [mainInit, h]
  · rw [h]

/-- C12: for a frame count of at least 1 and a successful `calloc`, `createMMU` returns 0
and leaves a table of exactly that many frames, each with `valid`, `modified` and
`referenceBit` clear, `lastAccessTime` 0 and `pageNo` -1, with both hands and the tick at
0, whatever the state before the call. -/
theorem createMMU_initial_table (framesCount : Int) (s : MMU) (h : 1 ≤ framesCount) :
    (createMMU true framesCount s).1 = 0 ∧
    ((createMMU true framesCount s).2.frames.length : Int) = framesCount ∧
    (∀ f ∈ (createMMU true framesCount s).2.frames,
      f.valid = false ∧ f.modified = false ∧ f.referenceBit = false ∧
      f.lastAccessTime = 0 ∧ f.pageNo = -1) ∧
    (createMMU true framesCount s).2.fifo_hand = 0 ∧
    (createMMU true framesCount s).2.clock_hand = 0 ∧
    (createMMU true framesCount s).2.tick = 0 := by
  refine ⟨by simp [createMMU], ?_, ?_, by simp [createMMU], by simp [createMMU],
    by simp [createMMU]⟩
  · simp only [createMMU, Bool.not_true, Bool.false_eq_true, if_false, List.length_replicate]
    omega
  · intro f hf
    simp only [createMMU, Bool.not_true, Bool.false_eq_true, if_false] at hf
    rw [List.eq_of_mem_replicate hf]
    exact ⟨rfl, rfl, rfl, rfl, rfl⟩

/-- Witness for C12: three frames, created over a state left by an earlier run. -/
theorem createMMU_initial_table_witness :
    (1 : Int) ≤ 3 ∧
    createMMU true 3
      { frames := [⟨true, 4, true, true, 7⟩], fifo_hand := 5, clock_hand := 2, tick := 9,
        seed := 77 } =
      (0, { frames := [⟨false, -1, false, false, 0⟩, ⟨false, -1, false, false, 0⟩,
                       ⟨false, -1, false, false, 0⟩],
            fifo_hand := 0, clock_hand := 0, tick := 0, seed := 1 }) ∧
    (createMMU true 3
      { frames := [⟨true, 4, true, true, 7⟩], fifo_hand := 5, clock_hand := 2, tick := 9,
        seed := 77 }).1 = 0 :=
  ⟨by decide, by decide,
    (createMMU_initial_table 3
      { frames := [⟨true, 4, true, true, 7⟩], fifo_hand := 5, clock_hand := 2, tick := 9,
        seed := 77 } (by decide)).1⟩

/-- C13, as stated, fails at frame count 0: when `calloc(0, ...)` returns a non-null
pointer, as it may, `createMMU(0)` returns 0 and leaves an empty table. -/
theorem createMMU_zero_succeeds :
    (0 : Int) < 1 ∧
    createMMU true 0 startState =
      (0, { frames := [], fifo_hand := 0, clock_hand := 0, tick := 0, seed := 1 }) ∧
    (createMMU true 0 startState).1 ≠ -1 := by
  decide

/-- C13, amended: `createMMU` returns -1 exactly when `calloc` returns no memory, whatever
the frame count; a frame count below 1 is rejected by `main`, which exits with -1 before it
calls `createMMU`. -/
theorem createMMU_fails_iff_calloc_fails (callocOk : Bool) (framesCount : Int) (s : MMU) :
    ((createMMU callocOk framesCount s).1 = -1 ↔ callocOk = false) ∧
    (framesCount < 1 → mainSetup callocOk framesCount s = none) := by
  constructor
  · cases callocOk <;> simp [createMMU]
  · intro h
    simp [mainSetup, h]

/-- Witness for the amended C13: frame count 0 in `main`. -/
theorem createMMU_fails_iff_calloc_fails_witness :
    (0 : Int) < 1 ∧ mainSetup true 0 startState = none :=
  ⟨by decide, (createMMU_fails_iff_calloc_fails true 0 startState).2 (by decide)⟩

/-- C20: under every policy, on a table of at least one frame with both hands inside it,
the index of the frame that `selectVictim` reads and overwrites lies in `0..N-1` (under
`repl_random` it is the draw, which is not negative, reduced modulo `N`), the call has a
defined result, which no access outside the table would have, every index the clock loop
reads lies in `0..N-1`, and afterwards the table still has `N` frames and both hands lie
in `0..N-1`. -/
theorem selectVictim_indices_in_range (rand : Nat → Nat × Nat) (s : MMU) (p : Int)
    (mode : repl) (hN : 1 ≤ s.frames.length) (hh : HandsInRange s) :
    ∃ (v : Nat) (w : page) (s' : MMU),
      v < s.frames.length ∧
      victimIndex rand s mode = some (v : Int) ∧
      (mode = repl.repl_random → v = (rand s.seed).1 % s.frames.length) ∧
      selectVictim rand s p mode = some (w, s') ∧
      s'.frames.length = s.frames.length ∧
      HandsInRange s' ∧
      ∃ r : SweepReport,
        clockSweepReport (numFrames s * 4 + 1).toNat s 0 = some r ∧
        (mode = repl.repl_clock → victimIndex rand s mode = some r.victim_index) ∧
        ∀ i ∈ r.visited, 0 ≤ i ∧ i < numFrames s := by
  obtain ⟨v, f, s1, hf, hc, hmap, _, hh1, _, _, _, hsel⟩ := selectVictim_shape rand s p mode hN hh
  obtain ⟨a, b, ha, hb, halt, hblt⟩ := handsInRange_nat s hh
  have hv : v < s.frames.length := (List.getElem?_eq_some.1 hf).1
  have hlen1 := length_eq_of_map_clearRef_eq s.frames s1.frames hmap
  have hpos : ¬ (numFrames s ≤ 0) := by
    unfold numFrames
    omega
  have hnn : ¬ ((v : Int) < 0) := by omega
  have hidx : victimIndex rand s mode = some (v : Int) := by
    simp [victimIndex, hpos, hc, hnn]
  have hfuel : (numFrames s * 4 + 1).toNat = s.frames.length * 4 + 1 := by
    unfold numFrames
    omega
  have hcount := refCount_le_length s.frames
  obtain ⟨r, hrun, -, -, -, hrange, -, -⟩ :=
    clockSweepReport_spec (s.frames.length * 4 + 1) s 0 b hb hblt (by omega) (by omega)
  have hrun0 : clockSweepReport (s.frames.length * 4 + 1) s 0 = some r := hrun
  refine ⟨v, _, _, hv, hidx, ?_, hsel, by simp [hlen1],
    handsInRange_of_eq s1 _ hh1 (by simp) rfl rfl, r, by rw [hfuel]; exact hrun0, ?_, hrange⟩
  · intro hm
    subst hm
    rw [chooseVictim_random] at hc
    simp only [Option.some.injEq, Prod.mk.injEq] at hc
    omega
  · intro hm
    subst hm
    have herase := clockSweepReport_erase (s.frames.length * 4 + 1) s 0
    rw [hrun0] at herase
    have hc' : chooseVictim rand s repl.repl_clock = some (r.state, r.victim_index) := by
      simp only [chooseVictim, hfuel]
      exact herase.symm
    rw [hc] at hc'
    simp only [Option.some.injEq, Prod.mk.injEq] at hc'
    rw [hidx, hc'.2]

/-- Witness for C20: a random selection on two frames. -/
theorem selectVictim_indices_in_range_witness :
    ∃ (v : Nat) (w : page) (s' : MMU),
      v < 2 ∧
      selectVictim countingRand
        { frames := [⟨true, 4, true, true, 7⟩, ⟨true, 9, false, false, 3⟩],
          fifo_hand := 1, clock_hand := 0, tick := 7, seed := 5 } 6 repl.repl_random =
        some (w, s') ∧
      HandsInRange s' := by
  obtain ⟨v, w, s', h1, -, -, h4, -, h6, -⟩ :=
    selectVictim_indices_in_range countingRand
      { frames := [⟨true, 4, true, true, 7⟩, ⟨true, 9, false, false, 3⟩],
        fifo_hand := 1, clock_hand := 0, tick := 7, seed := 5 } 6 repl.repl_random
      (by decide) (by simp [HandsInRange, numFrames])
  exact ⟨v, w, s', h1, h4, h6⟩

/-- C16: `selectVictim` has a result on every table of at least one frame with both hands
inside it, and whenever it has a result it touches only what its policy owns: the table
keeps its length; `fifo_hand` is unchanged unless the policy is `fifo`; `clock_hand` is
unchanged unless the policy is `repl_clock`; and with `v` the index of the victim frame,
under `repl_random`, `fifo` and `lru` every frame other than `v` is unchanged in all fields,
while under `repl_clock` every frame other than `v` is either unchanged or differs only by
`referenceBit` having been cleared. -/
theorem selectVictim_owned_state :
    (∀ (rand : Nat → Nat × Nat) (s : MMU) (p : Int) (mode : repl),
      1 ≤ s.frames.length → HandsInRange s →
      ∃ out, selectVictim rand s p mode = some out) ∧
    (∀ (rand : Nat → Nat × Nat) (s : MMU) (p : Int) (mode : repl) (w : page) (s' : MMU),
      selectVictim rand s p mode = some (w, s') →
      s'.frames.length = s.frames.length ∧
      (mode ≠ repl.fifo → s'.fifo_hand = s.fifo_hand) ∧
      (mode ≠ repl.repl_clock → s'.clock_hand = s.clock_hand) ∧
      ∃ v : Nat,
        (0 < numFrames s → victimIndex rand s mode = some (v : Int)) ∧
        (mode ≠ repl.repl_clock → ∀ i : Nat, i ≠ v → s'.frames[i]? = s.frames[i]?) ∧
        (mode = repl.repl_clock → ∀ (i : Nat) (f : FrameEntry), i ≠ v →
          s.frames[i]? = some f →
          s'.frames[i]? = some f ∨ s'.frames[i]? = some { f with referenceBit := false })) := by
  constructor
  · intro rand s p mode hN hh
    obtain ⟨v, f, s1, -, -, -, -, -, -, -, -, hsel⟩ := selectVictim_shape rand s p mode hN hh
    exact ⟨_, hsel⟩
  · intro rand s p mode w s' hsel
    rcases selectVictim_some rand s p mode w s' hsel with ⟨hn, rfl⟩ | ⟨hn, s1, vi, hc, hrep⟩
    · refine ⟨rfl, fun _ => rfl, fun _ => rfl, 0, fun h => absurd h (by omega),
        fun _ _ _ => rfl, fun _ i f _ hf => Or.inl hf⟩
    · obtain ⟨hi0, hs'⟩ := replaceInFrame_some s1 _ p w s' hrep
      obtain ⟨v, hv⟩ : ∃ v : Nat, (if vi < 0 then 0 else vi) = (v : Int) :=
        ⟨(if vi < 0 then 0 else vi).toNat, by omega⟩
      have hpos : ¬ (numFrames s ≤ 0) := by omega
      have hidx : victimIndex rand s mode = some (v : Int) := by
        simp only [victimIndex, if_neg hpos, hc, Option.map_some', hv]
      rw [hv] at hs'
      simp only [Int.toNat_natCast] at hs'
      subst hs'
      have hset : ∀ i : Nat, i ≠ v →
          (s1.frames.set v (loadedFrame p (tickIncr s1.tick)))[i]? = s1.frames[i]? := by
        intro i hi
        simp [List.getElem?_set, Ne.symm hi]
      cases mode with
      | repl_random =>
        simp only [chooseVictim, Option.some.injEq, Prod.mk.injEq] at hc
        obtain ⟨rfl, -⟩ := hc
        refine ⟨by simp, fun _ => rfl, fun _ => rfl, v, fun _ => hidx,
          fun _ i hi => hset i hi, fun h => by cases h⟩
      | fifo =>
        simp only [chooseVictim, Option.some.injEq, Prod.mk.injEq] at hc
        obtain ⟨rfl, -⟩ := hc
        refine ⟨by simp, fun h => absurd rfl h, fun _ => rfl, v, fun _ => hidx,
          fun _ i hi => hset i hi, fun h => by cases h⟩
      | lru =>
        simp only [chooseVictim, Option.some.injEq, Prod.mk.injEq] at hc
        obtain ⟨rfl, -⟩ := hc
        refine ⟨by simp, fun _ => rfl, fun _ => rfl, v, fun _ => hidx,
          fun _ i hi => hset i hi, fun h => by cases h⟩
      | repl_clock =>
        have hsweep : clockSweep (numFrames s * 4 + 1).toNat s 0 = some (s1, vi) := hc
        obtain ⟨hh0, hh1⟩ := clockSweep_some_hand _ s 0 _ hsweep
        obtain ⟨b, hb⟩ : ∃ b : Nat, s.clock_hand = (b : Int) := ⟨s.clock_hand.toNat, by omega⟩
        have hblt : b < s.frames.length := by
          unfold numFrames at hh1
          omega
        obtain ⟨d, fs, -, -, -, hc', hlen, hin, hout⟩ := chooseVictim_clock rand s b hb hblt
        rw [hc] at hc'
        simp only [Option.some.injEq, Prod.mk.injEq] at hc'
        obtain ⟨rfl, -⟩ := hc'
        refine ⟨by simp [hlen], fun _ => rfl, fun h => absurd rfl h, v, fun _ => hidx,
          fun h => absurd rfl h, ?_⟩
        intro _ i f hi hf
        rw [hset i hi]
        by_cases hP : PassedOver s.frames.length b d i
        · exact Or.inr (hin i f hf hP)
        · exact Or.inl (by rw [hout i hP]; exact hf)

/-- Witness for C16: a clock selection on three frames clears two bits on its way. -/
theorem selectVictim_owned_state_witness :
    ∃ out, selectVictim countingRand
        { frames := [⟨true, 4, true, false, 7⟩, ⟨true, 9, false, true, 3⟩,
                     ⟨true, 2, false, true, 5⟩],
          fifo_hand := 2, clock_hand := 1, tick := 7, seed := 1 } 6 repl.repl_clock =
        some out ∧ out.2.fifo_hand = 2 := by
  obtain ⟨out, hout⟩ :=
    selectVictim_owned_state.1 countingRand
      { frames := [⟨true, 4, true, false, 7⟩, ⟨true, 9, false, true, 3⟩,
                   ⟨true, 2, false, true, 5⟩],
        fifo_hand := 2, clock_hand := 1, tick := 7, seed := 1 } 6 repl.repl_clock
      (by decide) (by simp [HandsInRange, numFrames])
  obtain ⟨w, s'⟩ := out
  have h2 := (selectVictim_owned_state.2 countingRand _ 6 repl.repl_clock w s' hout).2.1
    (by decide)
  exact ⟨(w, s'), hout, h2⟩

/-- C19: after `createMMU`, every sequence of `checkInMemory`, `allocateFrame`,
`selectVictim` and write-marking calls during which the tick does not wrap reaches a state
in which every valid frame has `1 <= lastAccessTime <= tick` and no two valid frames have
the same `lastAccessTime`; so when some frame is valid, exactly one valid frame attains the
minimum `lastAccessTime` that the `lru` branch looks for: every other valid frame has a
strictly larger one. -/
theorem stamps_bounded_and_distinct (rand : Nat → Nat × Nat) (N : Nat) (s0 : MMU)
    (ops : List Op)
    (hw : tickNeverWraps rand (createMMU true (N : Int) s0).2 ops = true) :
    ∃ s, runOps rand (createMMU true (N : Int) s0).2 ops = some s ∧
      (∀ (i : Nat) (f : FrameEntry), s.frames[i]? = some f → f.valid = true →
        1 ≤ f.lastAccessTime ∧ f.lastAccessTime ≤ s.tick) ∧
      (∀ (i j : Nat) (f g : FrameEntry), s.frames[i]? = some f → s.frames[j]? = some g →
        f.valid = true → g.valid = true → f.lastAccessTime = g.lastAccessTime → i = j) ∧
      ((∃ f ∈ s.frames, f.valid = true) →
        ∃ (i : Nat) (f : FrameEntry), s.frames[i]? = some f ∧ f.valid = true ∧
          ∀ (j : Nat) (g : FrameEntry), s.frames[j]? = some g → g.valid = true → j ≠ i →
            f.lastAccessTime < g.lastAccessTime) := by
  obtain ⟨s, hrun, -, -⟩ :=
    runOps_engineInv rand N ops (createMMU true (N : Int) s0).2 (engineInv_createMMU N s0)
  have hinit : StampsInv (createMMU true (N : Int) s0).2.frames
      (createMMU true (N : Int) s0).2.tick := by
    have hnone : ∀ (i : Nat) (f : FrameEntry),
        (createMMU true (N : Int) s0).2.frames[i]? = some f → f.valid = true → False := by
      intro i f hf hfv
      simp only [createMMU, Bool.not_true, Bool.false_eq_true, if_false,
        List.getElem?_replicate] at hf
      split at hf
      · cases hf
        cases hfv
      · cases hf
    exact ⟨fun i f hf hfv => (hnone i f hf hfv).elim,
      fun i _ f _ hf _ hfv _ _ => (hnone i f hf hfv).elim⟩
  obtain ⟨hb, hd⟩ := runOps_stampsInv rand ops _ s hrun hw hinit
  refine ⟨s, hrun, hb, hd, ?_⟩
  rintro ⟨f0, hf0, hf0v⟩
  rcases lruScan_cases s.frames 0 (s.tick + 1, -1) with ⟨-, hnone⟩ | ⟨k, f, hf, hfv, -, -, hmin, -⟩
  · obtain ⟨i0, hi0⟩ := List.mem_iff_getElem?.1 hf0
    have := (hb i0 f0 hi0 hf0v).2
    exact absurd ⟨hf0v, by simp only; omega⟩ (hnone f0 hf0)
  · refine ⟨k, f, hf, hfv, ?_⟩
    intro j g hg hgv hjk
    have hle := hmin j g hg hgv
    have hne : f.lastAccessTime ≠ g.lastAccessTime := fun he => hjk (hd k j f g hf hg hfv hgv he).symm
    omega

/-- Witness for C19: allocations, a hit, a write mark and an LRU selection on two
frames. -/
theorem stamps_bounded_and_distinct_witness :
    tickNeverWraps countingRand (createMMU true ((2 : Nat) : Int) startState).2
      [Op.alloc 5, Op.alloc 6, Op.check 5, Op.write 6, Op.victim 7 repl.lru] = true ∧
    ∃ s, runOps countingRand (createMMU true ((2 : Nat) : Int) startState).2
        [Op.alloc 5, Op.alloc 6, Op.check 5, Op.write 6, Op.victim 7 repl.lru] = some s ∧
      ∀ (i : Nat) (f : FrameEntry), s.frames[i]? = some f → f.valid = true →
        1 ≤ f.lastAccessTime ∧ f.lastAccessTime ≤ s.tick := by
  have hw : tickNeverWraps countingRand (createMMU true ((2 : Nat) : Int) startState).2
      [Op.alloc 5, Op.alloc 6, Op.check 5, Op.write 6, Op.victim 7 repl.lru] = true := by
    decide
  obtain ⟨s, h1, h2, -⟩ :=
    stamps_bounded_and_distinct countingRand 2 startState
      [Op.alloc 5, Op.alloc 6, Op.check 5, Op.write 6, Op.victim 7 repl.lru] hw
  exact ⟨hw, s, h1, h2⟩

/-- C17: from `createMMU(N)` with `N >= 1`, the trace loop handles every trace of `R` and
`W` events, under every policy, and the state it reaches has a table of `N` frames whose
valid frames are exactly frames `0 .. allocated-1`, with `0 <= allocated <= N` and pairwise
distinct page numbers in the valid frames. Consequently, where the loop calls
`allocateFrame`, that is while `allocated < numFrames`, the call returns the index
`allocated`, never -1; and where it calls `selectVictim`, that is once
`allocated < numFrames` fails, all `N` frames are valid. -/
theorem driver_reachable_invariant (rand : Nat → Nat × Nat) (replace : repl) (N : Nat)
    (s0 : MMU) (evs : List Event) (hN : 1 ≤ N)
    (hrw : ∀ e ∈ evs, e.rw = 'R' ∨ e.rw = 'W') :
    ∃ (log : List Handled) (d : Driver),
      mainLoop rand replace (mainInit (N : Int) s0) evs = some (log, d) ∧
      d.mmu.frames.length = N ∧
      0 ≤ d.allocated ∧ d.allocated ≤ (N : Int) ∧
      (∀ (i : Nat) (f : FrameEntry), d.mmu.frames[i]? = some f →
        (f.valid = true ↔ (i : Int) < d.allocated)) ∧
      DistinctPages d.mmu.frames ∧
      (d.allocated < numFrames d.mmu →
        ∀ q : Int, (allocateFrame d.mmu q).1 = d.allocated ∧ (allocateFrame d.mmu q).1 ≠ -1) ∧
      (¬ d.allocated < numFrames d.mmu → AllValid d.mmu) := by
  obtain ⟨log, d, hloop, hinv, -, -⟩ :=
    mainLoop_inv rand replace evs (mainInit (N : Int) s0) [] (driverInv_mainInit N hN s0) hrw
  obtain ⟨-, -, ha0, haN, hvp, hd, -⟩ := hinv
  have hlen : d.mmu.frames.length = N := by
    rw [mainLoop_length rand replace evs _ d log hloop]
    exact (engineInv_createMMU N s0).1
  have haN' : d.allocated ≤ (N : Int) := by
    unfold numFrames at haN
    omega
  refine ⟨log, d, hloop, hlen, ha0, haN', hvp, hd, ?_, ?_⟩
  · intro hroom q
    obtain ⟨a, ha⟩ : ∃ a : Nat, d.allocated = (a : Int) := ⟨d.allocated.toNat, by omega⟩
    have halt : a < d.mmu.frames.length := by
      unfold numFrames at hroom
      omega
    rw [ha] at hvp
    have hfree := findFreeFrame_of_validPrefix d.mmu a hvp halt
    rw [allocateFrame_of_found d.mmu q a hfree, ha]
    exact ⟨rfl, by simp only; omega⟩
  · intro hfull
    exact allValid_of_validPrefix d.mmu d.allocated hvp (by omega)

/-- Witness for C17: four events on two frames under the clock policy. -/
theorem driver_reachable_invariant_witness :
    ∃ (log : List Handled) (d : Driver),
      mainLoop countingRand repl.repl_clock (mainInit ((2 : Nat) : Int) startState)
        [⟨10 * 4096, 'W'⟩, ⟨20 * 4096, 'R'⟩, ⟨10 * 4096, 'R'⟩, ⟨30 * 4096, 'R'⟩] =
        some (log, d) ∧
      d.mmu.frames.length = 2 ∧ d.allocated ≤ 2 ∧ DistinctPages d.mmu.frames := by
  obtain ⟨log, d, h1, h2, -, h4, -, h6, -⟩ :=
    driver_reachable_invariant countingRand repl.repl_clock 2 startState
      [⟨10 * 4096, 'W'⟩, ⟨20 * 4096, 'R'⟩, ⟨10 * 4096, 'R'⟩, ⟨30 * 4096, 'R'⟩] (by decide)
      (by decide)
  exact ⟨log, d, h1, h2, h4, h6⟩

/-- C18: under the `fifo` policy, from `createMMU(N)` with `N >= 1` and on every trace of
`R` and `W` events, the trace loop evicts, event by event, exactly the pages that a true
insertion-order queue of `N` pages evicts, each time the page loaded earliest among the
resident ones, and the pages resident at the end are those of the final queue. For example,
on two frames, after loading 10 and 20 and a hit on 10, loading 30 evicts 10 and loading 10
again evicts 20. -/
theorem fifo_hand_evicts_like_queue :
    (∀ (rand : Nat → Nat × Nat) (N : Nat) (s0 : MMU) (evs : List Event),
      1 ≤ N → (∀ e ∈ evs, e.rw = 'R' ∨ e.rw = 'W') →
      ∃ (log : List Handled) (d : Driver),
        mainLoop rand repl.fifo (mainInit (N : Int) s0) evs = some (log, d) ∧
        log.map (fun h => h.victim.map (fun w => w.pageNo)) =
          (fifoQueueRun N [] (evs.map pageOf)).1 ∧
        ∀ p : Int, p ∈ (fifoQueueRun N [] (evs.map pageOf)).2 ↔
          ∃ f ∈ d.mmu.frames, f.valid = true ∧ f.pageNo = p) ∧
    ((mainLoop countingRand repl.fifo (mainInit 2 startState)
        [⟨10 * 4096, 'R'⟩, ⟨20 * 4096, 'R'⟩, ⟨10 * 4096, 'R'⟩, ⟨30 * 4096, 'R'⟩,
         ⟨10 * 4096, 'R'⟩]).map
      (fun r => r.1.map (fun h => h.victim.map (fun w => w.pageNo))) =
      some [none, none, none, some 10, some 20] ∧
     (fifoQueueRun 2 [] [10, 20, 10, 30, 10]).1 = [none, none, none, some 10, some 20]) := by
  constructor
  · intro rand N s0 evs hN hrw
    have hlen0 : (mainInit (N : Int) s0).mmu.frames.length = N := (engineInv_createMMU N s0).1
    have hrel0 : FifoRel (mainInit (N : Int) s0) [] := by
      refine ⟨0, 0, rfl, rfl, by omega, by rw [hlen0]; omega, fun _ => rfl, ?_⟩
      simp
    obtain ⟨log, d, hloop, hvics, hrel, hvp⟩ :=
      mainLoop_fifo rand evs (mainInit (N : Int) s0) [] [] (driverInv_mainInit N hN s0) hrel0 hrw
    rw [hlen0] at hvics hrel
    refine ⟨log, d, hloop, hvics, ?_⟩
    intro p
    rw [mem_queue_iff_resident d _ p hvp hrel, Ne, findFrameByPage_eq_neg_one_iff]
    constructor
    · intro h
      by_contra hno
      exact h (fun f hf hfp => hno ⟨f, hf, hfp⟩)
    · rintro ⟨f, hf, hfp⟩ hno
      exact hno f hf hfp
  · constructor
    · decide
    · decide

/-- Witness for C18: four events on two frames with a write in between. -/
theorem fifo_hand_evicts_like_queue_witness :
    ∃ (log : List Handled) (d : Driver),
      mainLoop countingRand repl.fifo (mainInit ((2 : Nat) : Int) startState)
        [⟨10 * 4096, 'W'⟩, ⟨20 * 4096, 'R'⟩, ⟨10 * 4096, 'W'⟩, ⟨30 * 4096, 'R'⟩] =
        some (log, d) ∧
      log.map (fun h => h.victim.map (fun w => w.pageNo)) = [none, none, none, some 10] := by
  obtain ⟨log, d, h1, h2, -⟩ :=
    fifo_hand_evicts_like_queue.1 countingRand 2 startState
      [⟨10 * 4096, 'W'⟩, ⟨20 * 4096, 'R'⟩, ⟨10 * 4096, 'W'⟩, ⟨30 * 4096, 'R'⟩] (by decide)
      (by decide)
  exact ⟨log, d, h1, by rw [h2]; decide⟩

/-- C14: under the `lru` policy, from `createMMU(N)` with `N >= 1`, on every trace of `R`
and `W` events during which the tick never wraps (no loop iteration ends with a smaller
tick than it started with), the trace loop handles every event and (1) evicts, event by event, exactly the pages that
the reference least-recently-used list evicts, the pages resident at the end being those
of the final list; (2) after any such trace, the page that the next event evicts is
resident, and every other resident page has been accessed, by a read or a write, after the
victim's most recent access. (3) On two frames and the trace page 10 read, page 20 read,
page 30 read, the first two events are faults that allocate, the third is a fault that
evicts page 10, clean, and the table then holds pages 30 and 20, both valid. -/
theorem lru_driver_evicts_least_recently_used :
    (∀ (rand : Nat → Nat × Nat) (N : Nat) (s0 : MMU) (evs : List Event),
      1 ≤ N → (∀ e ∈ evs, e.rw = 'R' ∨ e.rw = 'W') →
      tickNeverWrapsInLoop rand repl.lru (mainInit (N : Int) s0) evs = true →
      ∃ (log : List Handled) (d : Driver),
        mainLoop rand repl.lru (mainInit (N : Int) s0) evs = some (log, d) ∧
        log.map (fun h => h.victim.map (fun w => w.pageNo)) =
          (lruListRun N [] (evs.map pageOf)).1 ∧
        ∀ p : Int, p ∈ (lruListRun N [] (evs.map pageOf)).2 ↔
          ∃ f ∈ d.mmu.frames, f.valid = true ∧ f.pageNo = p) ∧
    (∀ (rand : Nat → Nat × Nat) (N : Nat) (s0 : MMU) (evs : List Event) (e : Event),
      1 ≤ N → (∀ x ∈ evs, x.rw = 'R' ∨ x.rw = 'W') → (e.rw = 'R' ∨ e.rw = 'W') →
      tickNeverWrapsInLoop rand repl.lru (mainInit (N : Int) s0) (evs ++ [e]) = true →
      ∃ (log : List Handled) (d : Driver) (h : Handled) (d1 : Driver),
        mainLoop rand repl.lru (mainInit (N : Int) s0) evs = some (log, d) ∧
        mainStep rand repl.lru d e = some (h, d1) ∧
        ∀ w : page, h.victim = some w →
          (∃ f ∈ d.mmu.frames, f.valid = true ∧ f.pageNo = w.pageNo) ∧
          ∀ f ∈ d.mmu.frames, f.valid = true → f.pageNo ≠ w.pageNo →
            LastAccessBefore (evs.map pageOf) w.pageNo f.pageNo) ∧
    ((mainLoop countingRand repl.lru (mainInit 2 startState)
        [⟨10 * 4096, 'R'⟩, ⟨20 * 4096, 'R'⟩, ⟨30 * 4096, 'R'⟩]).map
      (fun r => (r.1.map (fun h => (h.fault, h.victim)),
                 r.2.mmu.frames.map (fun f => (f.valid, f.pageNo)))) =
      some ([(true, none), (true, none), (true, some ⟨10, false⟩)],
            [(true, 30), (true, 20)])) := by
  refine ⟨?_, ?_, by decide⟩
  · intro rand N s0 evs hN hrw hshort
    have hlen0 : (mainInit (N : Int) s0).mmu.frames.length = N := (engineInv_createMMU N s0).1
    have htick0 : (mainInit (N : Int) s0).mmu.tick = 0 := by simp [mainInit, createMMU]
    obtain ⟨log, d, hloop, hvics, hlru, -⟩ :=
      mainLoop_lru rand evs (mainInit (N : Int) s0) [] [] (driverInv_mainInit N hN s0)
        (lruInv_mainInit N s0) rfl hrw (by rw [htick0]; exact Nat.zero_le _) hshort
    rw [hlen0] at hvics hlru
    exact ⟨log, d, hloop, hvics, hlru.2.2.1⟩
  · intro rand N s0 evs e hN hrw hrwe hshort
    have hlen0 : (mainInit (N : Int) s0).mmu.frames.length = N := (engineInv_createMMU N s0).1
    have htick0 : (mainInit (N : Int) s0).mmu.tick = 0 := by simp [mainInit, createMMU]
    obtain ⟨log, d, hloop, -, hlru, hinv, hlen, htick, hfl⟩ :=
      mainLoop_lru rand evs (mainInit (N : Int) s0) [] [] (driverInv_mainInit N hN s0)
        (lruInv_mainInit N s0) rfl hrw (by rw [htick0]; exact Nat.zero_le _)
        (tickNeverWrapsInLoop_front rand repl.lru evs [e] _ hshort)
    rw [hlen0] at hlru hlen hfl
    have hnext := tickNeverWrapsInLoop_rest rand repl.lru evs [e] _ d log hloop hshort
    obtain ⟨h, d1, hstep, -, -, -, -, -, hvic⟩ :=
      mainStep_lru rand d e _ _ hinv hlru hlen hrwe htick
        (by
          intro hd d1 hstep
          simp only [tickNeverWrapsInLoop, hstep, Bool.and_eq_true, decide_eq_true_eq] at hnext
          exact hnext.1)
    refine ⟨log, d, h, d1, hloop, hstep, ?_⟩
    intro w hw
    rw [hw, hfl] at hvic
    have hord := lruListRun_recencyOrdered N (evs.map pageOf) [] []
      ⟨fun p hp => absurd hp (List.not_mem_nil p), List.Pairwise.nil⟩
    rw [List.nil_append] at hord
    obtain ⟨hwin, hlast⟩ :=
      (lruListStep_recencyOrdered N (evs.map pageOf) _ (pageOf e) hord).2 w.pageNo hvic.symm
    refine ⟨(hlru.2.2.1 w.pageNo).1 hwin, ?_⟩
    intro f hf hfv hfw
    exact hlast f.pageNo ((hlru.2.2.1 f.pageNo).2 ⟨f, hf, hfv, rfl⟩) hfw

/-- Witness for C14: four events on two frames, with a hit that saves page 10. -/
theorem lru_driver_evicts_least_recently_used_witness :
    ∃ (log : List Handled) (d : Driver),
      mainLoop countingRand repl.lru (mainInit ((2 : Nat) : Int) startState)
        [⟨10 * 4096, 'R'⟩, ⟨20 * 4096, 'W'⟩, ⟨10 * 4096, 'R'⟩, ⟨30 * 4096, 'R'⟩] =
        some (log, d) ∧
      log.map (fun h => h.victim.map (fun w => w.pageNo)) = [none, none, none, some 20] := by
  obtain ⟨log, d, h1, h2, -⟩ :=
    lru_driver_evicts_least_recently_used.1 countingRand 2 startState
      [⟨10 * 4096, 'R'⟩, ⟨20 * 4096, 'W'⟩, ⟨10 * 4096, 'R'⟩, ⟨30 * 4096, 'R'⟩] (by decide)
      (by decide) (by decide)
  exact ⟨log, d, h1, by rw [h2]; decide⟩

end MemSim
